import Mathlib

/-!
# CPPCompiler lexer: a shallow embedding of `Lexer/src/Lexer.cpp`

The C++ class `CPPCompiler::Lexer::Lexer` is embedded as a record holding the
source buffer, the cursor (`currentPosition`, `line`, `column`), the iteration
order of the `operators` set and the text written to `std::cerr`.

* `char` is `Char`, `std::string` is `List Char`, `size_t` and `State = int`
  are `Nat` (positions, lines and columns are bounded by the buffer length plus
  one and state ids by the table sizes, so no machine arithmetic can wrap).
* `std::unordered_map<State, std::unordered_map<char, State>>` is a two-level
  partial function; `operator[]=` is a pointwise update.
* `std::unordered_set<std::string> operators` is iterated by
  `populateOperatorTransitions`; its iteration order is unspecified, so the
  order is a parameter of the session (`Lexer.operators`).
* Loops carry a fuel argument and return `none` only when the fuel runs out;
  the top-level functions supply the number of remaining characters plus one.
* `&automaton == &stringAutomaton` (identity of the automaton passed by
  reference) is a tag of type `AutomatonId`.
-/

namespace CPPCompiler

/-! ## ILexer.h -/

inductive TokenType where
  | Identifier
  | Keyword
  | Literal
  | Operator
  | Separator
  | Comment
  | PreprocessorDirective
  | Unknown
  | EndOfFile
  deriving DecidableEq, Repr

structure Token where
  type : TokenType
  lexeme : List Char
  line : Nat
  column : Nat
  deriving DecidableEq, Repr

abbrev State := Nat

/-- The struct `Automaton`: `transitions s` is the inner map stored under key `s`, if any. -/
structure Automaton where
  startState : State
  acceptingStates : List State
  transitions : State → Option (Char → Option State)

/-- A default-constructed `Automaton` with the given start state and accepting set. -/
def Automaton.empty (start : State) (accepting : List State) : Automaton :=
  { startState := start, acceptingStates := accepting, transitions := fun _ => none }

/-- The inner map `transitions[s]` as `operator[]` sees it (empty when the key is absent). -/
def Automaton.row (a : Automaton) (s : State) : Char → Option State :=
  match a.transitions s with
  | some m => m
  | none => fun _ => none

/-- The assignment `automaton.transitions[s][c] = v`. -/
def Automaton.assign (a : Automaton) (s : State) (c : Char) (v : State) : Automaton :=
  { a with transitions := fun s' =>
      if s' = s then some (fun c' => if c' = c then some v else a.row s c')
      else a.transitions s' }

/-- The evaluation of `automaton.transitions[s]`, which inserts an empty inner map when the
key is absent. -/
def Automaton.touch (a : Automaton) (s : State) : Automaton :=
  { a with transitions := fun s' => if s' = s then some (a.row s) else a.transitions s' }

/-- The two nested `find` calls of `runAutomaton`: the outer map is searched for the state,
then the inner map for the character. -/
def Automaton.find (a : Automaton) (s : State) (c : Char) : Option State :=
  match a.transitions s with
  | some stateTransitions => stateTransitions c
  | none => none

/-- The loop `for (ch = lo; ch <= hi; ++ch) body(ch)` over character codes. -/
def forChars (lo hi : Nat) (body : Char → Automaton → Automaton) (a : Automaton) : Automaton :=
  (List.range' lo (hi + 1 - lo)).foldl (fun acc n => body (Char.ofNat n) acc) a

/-! ## `<cctype>` in the "C" locale -/

def isalpha (ch : Char) : Bool :=
  (65 ≤ ch.toNat && ch.toNat ≤ 90) || (97 ≤ ch.toNat && ch.toNat ≤ 122)

def isdigit (ch : Char) : Bool :=
  48 ≤ ch.toNat && ch.toNat ≤ 57

def isspace (ch : Char) : Bool :=
  ch.toNat = 32 || (9 ≤ ch.toNat && ch.toNat ≤ 13)

/-! ## Lexer::initialize -/

def keywords : List (List Char) :=
  ["alignas", "alignof", "and", "and_eq", "asm", "auto", "bitand", "bitor", "bool", "break",
   "case", "catch", "char", "char8_t", "char16_t", "char32_t", "class", "compl", "concept",
   "const", "consteval", "constexpr", "constinit", "const_cast", "continue", "co_await",
   "co_return", "co_yield", "decltype", "default", "delete", "do", "double", "dynamic_cast",
   "else", "enum", "explicit", "export", "extern", "false", "float", "for", "friend", "goto",
   "if", "inline", "int", "long", "mutable", "namespace", "new", "noexcept", "not", "not_eq",
   "nullptr", "operator", "or", "or_eq", "private", "protected", "public", "register",
   "reinterpret_cast", "requires", "return", "short", "signed", "sizeof", "static",
   "static_assert", "static_cast", "struct", "switch", "template", "this", "thread_local",
   "throw", "true", "try", "typedef", "typeid", "typename", "union", "unsigned", "using",
   "virtual", "void", "volatile", "wchar_t", "while", "xor", "xor_eq"].map String.toList

/-- The initializer list assigned to `operators`, in source order (it lists `::`, `.*` and
`->*` twice; the set keeps one copy of each). -/
def operatorTable : List (List Char) :=
  ["+", "-", "*", "/", "%",
   "++", "--",
   "==", "!=", "<", ">", "<=", ">=",
   "&&", "||", "!",
   "&", "|", "^", "~", "<<", ">>",
   "=", "+=", "-=", "*=", "/=", "%=", "&=", "|=", "^=", "<<=", ">>=",
   ".", "->", ".*", "->*",
   "?", ":",
   "::",
   "<=>",
   "::", ".*", "->*"].map String.toList

/-- The initializer list assigned to `separators`. -/
def separators : List (List Char) :=
  [";", ",", "(", ")", "\x7b", "\x7d", "[", "]", ":", "...", "->", ".*", "->*"].map String.toList

/-- An iteration order of the set `operators`: every element of the initializer list, once. -/
def IterationOrder (order : List (List Char)) : Prop :=
  order.Nodup ∧ ∀ op, op ∈ order ↔ op ∈ operatorTable

/-! ## Session state -/

/-- One line written to `std::cerr`: the size trace of `getNextToken` or a `reportError`. -/
inductive StderrLine where
  | trace (size : Nat)
  | error (line column : Nat) (message : List Char)
  deriving DecidableEq, Repr

structure Lexer where
  sourceBuffer : List Char
  currentPosition : Nat
  line : Nat
  column : Nat
  operators : List (List Char)
  stderr : List StderrLine
  deriving DecidableEq, Repr

/-- The five automata members, named as `runAutomaton` and `determineTokenType` tell them
apart. -/
inductive AutomatonId where
  | identifier
  | number
  | string
  | operator
  | separator
  deriving DecidableEq, Repr

/-! ## Automaton builders -/

def populateIdentifierTransitions (a : Automaton) : Automaton :=
  let a := forChars 65 90 (fun ch a => (a.assign 0 ch 1).assign 1 ch 1) a
  let a := forChars 97 122 (fun ch a => (a.assign 0 ch 1).assign 1 ch 1) a
  let a := a.assign 0 '_' 1
  let a := a.assign 1 '_' 1
  forChars 48 57 (fun ch a => a.assign 1 ch 1) a

def populateNumberTransitions (a : Automaton) : Automaton :=
  let a := forChars 48 57
    (fun ch a => (((a.assign 0 ch 1).assign 1 ch 1).assign 3 ch 3).assign 6 ch 6) a
  let a := a.assign 1 '.' 2
  let a := a.assign 0 '.' 2
  let a := forChars 48 57 (fun ch a => a.assign 2 ch 3) a
  let a := a.assign 1 'e' 4
  let a := a.assign 1 'E' 4
  let a := a.assign 3 'e' 4
  let a := a.assign 3 'E' 4
  let a := a.assign 4 '+' 5
  let a := a.assign 4 '-' 5
  forChars 48 57 (fun ch a => ((a.assign 5 ch 6).assign 4 ch 6).assign 6 ch 6) a

def populateStringTransitions (a : Automaton) : Automaton :=
  let a := a.assign 0 '"' 1
  let a := a.assign 0 '\'' 1
  let a := forChars 32 126
    (fun c a => if c ≠ '"' ∧ c ≠ '\'' ∧ c ≠ '\\' then a.assign 1 c 1 else a) a
  let a := a.assign 1 '\\' 3
  let a := forChars 0 127 (fun c a => a.assign 3 c 1) a
  let a := a.assign 1 '"' 2
  a.assign 1 '\'' 2

/-- The inner loop of `populateOperatorTransitions` over the characters of one operator;
the state is `(automaton, nextState, currentState)`. -/
def insertOperatorChar (acc : Automaton × Nat × State) (ch : Char) : Automaton × Nat × State :=
  let (a, nextState, currentState) := acc
  let a := a.touch currentState
  let (a, nextState) :=
    if a.row currentState ch = none then (a.assign currentState ch nextState, nextState + 1)
    else (a, nextState)
  (a, nextState, (a.row currentState ch).getD 0)

/-- One iteration of the outer loop of `populateOperatorTransitions`. -/
def insertOperator (acc : Automaton × Nat) (op : List Char) : Automaton × Nat :=
  let (a, nextState) := acc
  let (a, nextState, currentState) := op.foldl insertOperatorChar (a, nextState, a.startState)
  ({ a with acceptingStates := currentState :: a.acceptingStates }, nextState)

def populateOperatorTransitions (order : List (List Char)) (a : Automaton) : Automaton :=
  let a := { a with startState := 0 }
  (order.foldl insertOperator (a, 1)).1

def populateSeparatorTransitions (a : Automaton) : Automaton :=
  let singleSeparators := [';', ',', '(', ')', '\x7b', '\x7d', '[', ']', ':']
  let a := singleSeparators.foldl (fun a sep => a.assign 0 sep 1) a
  let a := a.assign 0 ':' 2
  let a := a.assign 2 ':' 1
  let a := a.assign 0 '.' 3
  let a := a.assign 3 '.' 4
  let a := a.assign 4 '.' 1
  let a := a.assign 0 '-' 5
  let a := a.assign 5 '>' 1
  let a := a.assign 0 '.' 3
  let a := a.assign 3 '*' 1
  let a := a.assign 5 '>' 6
  let a := a.assign 6 '*' 1
  { a with acceptingStates := 1 :: a.acceptingStates }

/-! ## Lexer::initializeAutomata -/

def identifierAutomaton : Automaton :=
  populateIdentifierTransitions (Automaton.empty 0 [1])

def numberAutomaton : Automaton :=
  populateNumberTransitions (Automaton.empty 0 [1, 3, 6])

def stringAutomaton : Automaton :=
  populateStringTransitions (Automaton.empty 0 [2])

def operatorAutomaton (order : List (List Char)) : Automaton :=
  populateOperatorTransitions order (Automaton.empty 0 [])

def separatorAutomaton : Automaton :=
  populateSeparatorTransitions (Automaton.empty 0 [1])

/-- The automaton member a tag stands for. -/
def Lexer.automaton (lx : Lexer) : AutomatonId → Automaton
  | .identifier => identifierAutomaton
  | .number => numberAutomaton
  | .string => stringAutomaton
  | .operator => operatorAutomaton lx.operators
  | .separator => separatorAutomaton

/-- The constructor `Lexer::Lexer(source)`; `order` is the iteration order of `operators`. -/
def Lexer.new (source : List Char) (order : List (List Char)) : Lexer :=
  { sourceBuffer := source, currentPosition := 0, line := 1, column := 1,
    operators := order, stderr := [] }


/-! ## Cursor -/

def Lexer.isEOF (lx : Lexer) : Bool :=
  lx.currentPosition ≥ lx.sourceBuffer.length

def Lexer.peekChar (lx : Lexer) (offset : Nat) : Char :=
  let pos := lx.currentPosition + offset
  if pos < lx.sourceBuffer.length then lx.sourceBuffer.getD pos '\x00' else '\x00'

def Lexer.readChar (lx : Lexer) : Char × Lexer :=
  if lx.currentPosition ≥ lx.sourceBuffer.length then ('\x00', lx)
  else
    let ch := lx.sourceBuffer.getD lx.currentPosition '\x00'
    let lx := { lx with currentPosition := lx.currentPosition + 1 }
    if ch = '\n' then (ch, { lx with line := lx.line + 1, column := 1 })
    else (ch, { lx with column := lx.column + 1 })

def Lexer.reportError (lx : Lexer) (message : List Char) : Lexer :=
  { lx with stderr := lx.stderr ++ [StderrLine.error lx.line lx.column message] }

/-- Characters left between the cursor and the end of the buffer. -/
def Lexer.remaining (lx : Lexer) : Nat :=
  lx.sourceBuffer.length - lx.currentPosition

/-! ## Character predicates of the lexer -/

def isIdentifierStart (ch : Char) : Bool :=
  isalpha ch || ch = '_'

def isDigit (ch : Char) : Bool :=
  isdigit ch

def Lexer.isOperatorStart (lx : Lexer) (ch : Char) : Bool :=
  let a := lx.automaton .operator
  match a.transitions a.startState with
  | some stateTransitions => (stateTransitions ch).isSome
  | none => false

def Lexer.isSeparatorStart (lx : Lexer) (ch : Char) : Bool :=
  let a := lx.automaton .separator
  match a.transitions a.startState with
  | some stateTransitions => (stateTransitions ch).isSome
  | none => false

/-! ## Lexer::skipWhitespaceAndComments -/

/-- The loop `while (!isEOF() && readChar() != '\n');`. -/
def skipLineComment : Nat → Lexer → Option Lexer
  | 0, _ => none
  | fuel + 1, lx =>
    if lx.isEOF then some lx
    else
      let (c, lx) := lx.readChar
      if c ≠ '\n' then skipLineComment fuel lx else some lx

/-- The loop over the body of a block comment, entered after `/` and `*` were consumed. -/
def skipBlockComment : Nat → Lexer → Option Lexer
  | 0, _ => none
  | fuel + 1, lx =>
    if lx.isEOF then some lx
    else
      let (c, lx) := lx.readChar
      if c = '*' ∧ lx.peekChar 0 = '/' then some lx.readChar.2
      else skipBlockComment fuel lx

/-- The outer loop of `skipWhitespaceAndComments`. -/
def skipLoop : Nat → Lexer → Option Lexer
  | 0, _ => none
  | fuel + 1, lx =>
    if lx.isEOF then some lx
    else
      let ch := lx.peekChar 0
      if isspace ch then skipLoop fuel lx.readChar.2
      else if ch = '/' then
        let nextChar := lx.sourceBuffer.getD (lx.currentPosition + 1) '\x00'
        if nextChar = '/' then
          (skipLineComment (lx.remaining + 1) lx).bind (skipLoop fuel)
        else if nextChar = '*' then
          let lx := lx.readChar.2
          let lx := lx.readChar.2
          (skipBlockComment (lx.remaining + 1) lx).bind (skipLoop fuel)
        else some lx
      else some lx

def Lexer.skipWhitespaceAndComments (lx : Lexer) : Option Lexer :=
  skipLoop (lx.remaining + 1) lx

/-! ## Lexer::determineTokenType, Lexer::runAutomaton, Lexer::getNextToken -/

def determineTokenType (lexeme : List Char) : AutomatonId → TokenType
  | .identifier => if lexeme ∈ keywords then TokenType.Keyword else TokenType.Identifier
  | .number => TokenType.Literal
  | .string => TokenType.Literal
  | .operator => TokenType.Operator
  | .separator => TokenType.Separator

/-- The `while (!isEOF())` loop of `runAutomaton`; the state is
`(currentState, lexeme, cursor)`. -/
def scanLoop (automaton : Automaton) (isString : Bool) (stringTerminator : Char) :
    Nat → State → List Char → Lexer → Option (State × List Char × Lexer)
  | 0, _, _, _ => none
  | fuel + 1, currentState, lexeme, lx =>
    if lx.isEOF then some (currentState, lexeme, lx)
    else
      let ch := lx.peekChar 0
      match automaton.transitions currentState with
      | some stateTransitions =>
        match stateTransitions ch with
        | some target =>
          let currentState := target
          let (c, lx) := lx.readChar
          let lexeme := lexeme ++ [c]
          if isString ∧ ch = stringTerminator ∧ currentState = 2 then
            some (currentState, lexeme, lx)
          else scanLoop automaton isString stringTerminator fuel currentState lexeme lx
        | none => some (currentState, lexeme, lx)
      | none => some (currentState, lexeme, lx)

/-- The first half of `runAutomaton`: the choice of `stringTerminator` and the scanning loop,
from the start state and the empty lexeme; the result is `(currentState, lexeme, cursor)`. -/
def Lexer.scan (lx : Lexer) (id : AutomatonId) : Option (State × List Char × Lexer) :=
  let automaton := lx.automaton id
  let firstChar := lx.peekChar 0
  let stringTerminator :=
    if id = .string ∧ (firstChar = '"' ∨ firstChar = '\'') then firstChar else '\x00'
  scanLoop automaton (id = .string) stringTerminator (lx.remaining + 1)
    automaton.startState [] lx

/-- The function `runAutomaton`; `retry` is the call `getNextToken()` of its error path. -/
def Lexer.runAutomaton (retry : Lexer → Option (Token × Lexer)) (id : AutomatonId)
    (lx : Lexer) : Option (Token × Lexer) :=
  let automaton := lx.automaton id
  let startPosition := lx.currentPosition
  let tokenLine := lx.line
  let tokenColumn := lx.column
  match lx.scan id with
  | none => none
  | some (currentState, lexeme, lx) =>
    if currentState ∈ automaton.acceptingStates then
      some ({ type := determineTokenType lexeme id, lexeme := lexeme,
              line := tokenLine, column := tokenColumn }, lx)
    else
      let lx := lx.reportError ("Invalid token: ".toList ++ lexeme)
      retry { lx with currentPosition := startPosition + 1 }

/-- The body of `getNextToken`; `retry` is the call `getNextToken()` that `runAutomaton`
makes on its error path. -/
def Lexer.getNextTokenBody (retry : Lexer → Option (Token × Lexer)) (lx : Lexer) :
    Option (Token × Lexer) :=
  let lx := { lx with stderr := lx.stderr ++ [StderrLine.trace lx.sourceBuffer.length] }
  match lx.skipWhitespaceAndComments with
  | none => none
  | some lx =>
    if lx.isEOF then
      some ({ type := TokenType.EndOfFile, lexeme := [], line := lx.line,
              column := lx.column }, lx)
    else
      let tokenLine := lx.line
      let tokenColumn := lx.column
      let ch := lx.peekChar 0
      if isIdentifierStart ch then
        lx.runAutomaton retry .identifier
      else if isDigit ch ∨ (ch = '.' ∧ isDigit (lx.peekChar 1)) then
        lx.runAutomaton retry .number
      else if ch = '"' ∨ ch = '\'' then
        lx.runAutomaton retry .string
      else if ch = '.' ∧ lx.peekChar 1 = '.' ∧ lx.peekChar 2 = '.' then
        lx.runAutomaton retry .separator
      else if lx.isOperatorStart ch then
        lx.runAutomaton retry .operator
      else if lx.isSeparatorStart ch then
        lx.runAutomaton retry .separator
      else
        let lx := lx.reportError "Unrecognized character".toList
        let (c, lx) := lx.readChar
        some ({ type := TokenType.Unknown, lexeme := [c], line := tokenLine,
                column := tokenColumn }, lx)

/-- The mutual recursion `getNextToken` → `runAutomaton` → `getNextToken`, unrolled at most
`fuel` times. -/
def getNextTokenFuel : Nat → Lexer → Option (Token × Lexer)
  | 0, _ => none
  | fuel + 1, lx => lx.getNextTokenBody (getNextTokenFuel fuel)

def Lexer.getNextToken (lx : Lexer) : Option (Token × Lexer) :=
  getNextTokenFuel (lx.remaining + 1) lx

/-- The result of the call number `k + 1` in a row of `getNextToken` calls starting at `lx`. -/
def Lexer.nthCall : Nat → Lexer → Option (Token × Lexer)
  | 0, lx => lx.getNextToken
  | k + 1, lx => lx.getNextToken.bind (fun r => Lexer.nthCall k r.2)


/-! ## Vocabulary of the statements -/

/-- The unread part of the buffer. -/
def Lexer.rest (lx : Lexer) : List Char :=
  lx.sourceBuffer.drop lx.currentPosition

/-- The cursor after `readChar` consumed the characters `w`, one at a time. -/
def Lexer.advance (lx : Lexer) : List Char → Lexer
  | [] => lx
  | c :: cs =>
    Lexer.advance
      (if c = '\n' then
        { lx with currentPosition := lx.currentPosition + 1, line := lx.line + 1, column := 1 }
      else
        { lx with currentPosition := lx.currentPosition + 1, column := lx.column + 1 }) cs

/-- The state an automaton reaches from `s` by taking a transition on every character of
`w`, if all of them exist. -/
def Automaton.walk (a : Automaton) : State → List Char → Option State
  | s, [] => some s
  | s, c :: cs =>
    match a.find s c with
    | some t => a.walk t cs
    | none => none

/-- The quote character `runAutomaton` remembers in `stringTerminator`. -/
def Lexer.stringTerminator (lx : Lexer) (id : AutomatonId) : Char :=
  if id = .string ∧ (lx.peekChar 0 = '"' ∨ lx.peekChar 0 = '\'') then lx.peekChar 0 else '\x00'

/-- The cursor with which the error path of `runAutomaton` calls `getNextToken` again, after
a scan that started at `lx` and consumed `w`. -/
def Lexer.rewound (lx : Lexer) (w : List Char) : Lexer :=
  { (lx.advance w).reportError ("Invalid token: ".toList ++ w) with
    currentPosition := lx.currentPosition + 1 }

/-- The reason the loop of `runAutomaton` stopped after consuming `w` with `r` left, in state
`s`: end of buffer, no transition on the next character, or the closing quote of a string. -/
def ScanStops (a : Automaton) (isString : Bool) (terminator : Char) (s : State)
    (w r : List Char) : Prop :=
  r = [] ∨ (∃ c cs, r = c :: cs ∧ a.find s c = none) ∨
    (isString = true ∧ s = 2 ∧ ∃ u, w = u ++ [terminator])

/-- The session after `getNextToken` wrote its size trace to `std::cerr`. -/
def Lexer.traced (lx : Lexer) : Lexer :=
  { lx with stderr := lx.stderr ++ [StderrLine.trace lx.sourceBuffer.length] }

/-- The automaton the `if` chain of `getNextToken` hands the scan to; `none` is the final
`else` branch (unrecognized character). -/
def Lexer.dispatch (lx : Lexer) : Option AutomatonId :=
  let ch := lx.peekChar 0
  if isIdentifierStart ch then some .identifier
  else if isDigit ch ∨ (ch = '.' ∧ isDigit (lx.peekChar 1)) then some .number
  else if ch = '"' ∨ ch = '\'' then some .string
  else if ch = '.' ∧ lx.peekChar 1 = '.' ∧ lx.peekChar 2 = '.' then some .separator
  else if lx.isOperatorStart ch then some .operator
  else if lx.isSeparatorStart ch then some .separator
  else none

/-- The token of the final `else` branch of `getNextToken`, taken at `lx`. -/
def Lexer.unknownToken (lx : Lexer) : Token × Lexer :=
  ({ type := TokenType.Unknown, lexeme := [lx.peekChar 0], line := lx.line,
     column := lx.column },
   (lx.reportError "Unrecognized character".toList).advance [lx.peekChar 0])

/-- The token of the end-of-file branch of `getNextToken`, taken at `lx`. -/
def Lexer.eofToken (lx : Lexer) : Token × Lexer :=
  ({ type := TokenType.EndOfFile, lexeme := [], line := lx.line, column := lx.column }, lx)

/-- The ways a call of `getNextToken` at `lx` returns: the four exits of the source, with the
error path of `runAutomaton` as the recursive case. -/
inductive Lexes : Lexer → Token × Lexer → Prop where
  | eof {lx lx1 : Lexer} :
      lx.traced.skipWhitespaceAndComments = some lx1 → lx1.rest = [] →
      Lexes lx lx1.eofToken
  | unknown {lx lx1 : Lexer} :
      lx.traced.skipWhitespaceAndComments = some lx1 → lx1.rest ≠ [] →
      lx1.dispatch = none →
      Lexes lx lx1.unknownToken
  | accept {lx lx1 : Lexer} {id : AutomatonId} {st : State} {w r : List Char} :
      lx.traced.skipWhitespaceAndComments = some lx1 → lx1.rest ≠ [] →
      lx1.dispatch = some id → lx1.scan id = some (st, w, lx1.advance w) →
      lx1.rest = w ++ r →
      (lx1.automaton id).walk (lx1.automaton id).startState w = some st →
      ScanStops (lx1.automaton id) (id = .string) (lx1.stringTerminator id) st w r →
      st ∈ (lx1.automaton id).acceptingStates →
      Lexes lx ({ type := determineTokenType w id, lexeme := w, line := lx1.line,
                  column := lx1.column }, lx1.advance w)
  | reject {lx lx1 : Lexer} {id : AutomatonId} {st : State} {w r : List Char}
      {res : Token × Lexer} :
      lx.traced.skipWhitespaceAndComments = some lx1 → lx1.rest ≠ [] →
      lx1.dispatch = some id → lx1.scan id = some (st, w, lx1.advance w) →
      lx1.rest = w ++ r →
      (lx1.automaton id).walk (lx1.automaton id).startState w = some st →
      ScanStops (lx1.automaton id) (id = .string) (lx1.stringTerminator id) st w r →
      st ∉ (lx1.automaton id).acceptingStates →
      Lexes (lx1.rewound w) res →
      Lexes lx res

/-- The transition function of the number automaton, read off `populateNumberTransitions`. -/
def numberTable (s : State) (c : Char) : Option State :=
  if isdigit c then
    (if s = 0 ∨ s = 1 then some 1 else if s = 2 ∨ s = 3 then some 3
     else if s = 4 ∨ s = 5 ∨ s = 6 then some 6 else none)
  else if c = '.' then (if s = 0 ∨ s = 1 then some 2 else none)
  else if c = 'e' ∨ c = 'E' then (if s = 1 ∨ s = 3 then some 4 else none)
  else if c = '+' ∨ c = '-' then (if s = 4 then some 5 else none)
  else none

/-- The transition function of the separator automaton, read off
`populateSeparatorTransitions` (later assignments to the same key overwrite earlier ones). -/
def separatorTable (s : State) (c : Char) : Option State :=
  if s = 0 then
    (if c ∈ [';', ',', '(', ')', '\x7b', '\x7d', '[', ']'] then some 1
     else if c = ':' then some 2 else if c = '.' then some 3
     else if c = '-' then some 5 else none)
  else if s = 2 then (if c = ':' then some 1 else none)
  else if s = 3 then (if c = '.' then some 4 else if c = '*' then some 1 else none)
  else if s = 4 then (if c = '.' then some 1 else none)
  else if s = 5 then (if c = '>' then some 6 else none)
  else if s = 6 then (if c = '*' then some 1 else none)
  else none

/-- One or more decimal digits. -/
def IsDigits (ds : List Char) : Prop :=
  ds ≠ [] ∧ ∀ c ∈ ds, isdigit c = true

instance (ds : List Char) : Decidable (IsDigits ds) :=
  inferInstanceAs (Decidable (ds ≠ [] ∧ ∀ c ∈ ds, isdigit c = true))

/-- Digits with an optional fraction, or a fraction alone with its leading dot. -/
def IsMantissa (m : List Char) : Prop :=
  IsDigits m ∨ (∃ i f, m = i ++ '.' :: f ∧ IsDigits i ∧ IsDigits f) ∨
    (∃ f, m = '.' :: f ∧ IsDigits f)

/-- The letter `e` or `E`, an optional sign and one or more digits. -/
def IsExponent (e : List Char) : Prop :=
  ∃ letter sign ds, e = letter :: (sign ++ ds) ∧ (letter = 'e' ∨ letter = 'E') ∧
    (sign = [] ∨ sign = ['+'] ∨ sign = ['-']) ∧ IsDigits ds

/-- A syntactically complete numeral: a mantissa and an optional exponent. -/
def IsNumeral (s : List Char) : Prop :=
  ∃ m e, s = m ++ e ∧ IsMantissa m ∧ (e = [] ∨ IsExponent e)

/-- The invariant of `populateOperatorTransitions` while the operators `L` are inserted and
the prefix `p` of the next one has been followed to the state `cur`: the table is a trie
whose paths from the start state are the prefixes of `L` and of `p`, with state numbers
below `next` growing along every edge, and the accepting states mark the words of `L`. -/
structure TrieInv (a : Automaton) (next : Nat) (cur : Nat) (L : List (List Char))
    (p : List Char) : Prop where
  start : a.startState = 0
  pos : 0 < next
  edge : ∀ (s : Nat) (c : Char) (t : Nat), a.find s c = some t → s < t ∧ t < next
  inj : ∀ (s : Nat) (c : Char) (s' : Nat) (c' : Char) (t : Nat),
    a.find s c = some t → a.find s' c' = some t → s = s' ∧ c = c'
  acc : ∀ s : Nat, s ∈ a.acceptingStates → s < next
  here : a.walk 0 p = some cur
  paths : ∀ w, (a.walk 0 w).isSome = true ↔ (∃ op ∈ L, w <+: op) ∨ w <+: p
  final : ∀ (w : List Char) (st : Nat), a.walk 0 w = some st →
    (st ∈ a.acceptingStates ↔ w ∈ L)

/-- The true line of a buffer offset: one more than the number of newlines before it. -/
def lineAt (buffer : List Char) (offset : Nat) : Nat :=
  1 + (buffer.take offset).count '\n'

/-- The true column of a buffer offset: one more than the number of characters between the
last newline before it (or the start of the buffer) and the offset. -/
def columnAt (buffer : List Char) (offset : Nat) : Nat :=
  1 + ((buffer.take offset).reverse.takeWhile (fun c => c ≠ '\n')).length

/-- The whitespace and comment span that the call of `skipWhitespaceAndComments` at the
start of `getNextToken` skips at `lx`. -/
def Lexer.triviaSpan (lx : Lexer) : List Char :=
  match lx.traced.skipWhitespaceAndComments with
  | some lx1 => lx.rest.take (lx1.currentPosition - lx.currentPosition)
  | none => []

/-- The text put back together from a session: for each call of `getNextToken`, up to and
including the one that returns `EndOfFile`, the trivia span skipped at its start followed by
the lexeme it returns. The second component is the session after the last call. -/
def reconstruct : Nat → Lexer → Option (List Char × Lexer)
  | 0, _ => none
  | calls + 1, lx =>
    match lx.getNextToken with
    | none => none
    | some (tok, lx') =>
      if tok.type = TokenType.EndOfFile then some (lx.triviaSpan ++ tok.lexeme, lx')
      else
        match reconstruct calls lx' with
        | none => none
        | some (text, final) => some (lx.triviaSpan ++ tok.lexeme ++ text, final)

/-- A line of `std::cerr` written by the error path of `runAutomaton` (a rejected scan). -/
def isRejection : StderrLine → Bool
  | .error _ _ message => "Invalid token: ".toList.isPrefixOf message
  | .trace _ => false

/-- The transition function of the identifier automaton, read off
`populateIdentifierTransitions`. -/
def identifierTable (s : State) (c : Char) : Option State :=
  if s = 0 then (if isalpha c ∨ c = '_' then some 1 else none)
  else if s = 1 then (if isalpha c ∨ isdigit c ∨ c = '_' then some 1 else none)
  else none

/-- The transition function of the string automaton, read off `populateStringTransitions`. -/
def stringTable (s : State) (c : Char) : Option State :=
  if s = 0 then (if c = '"' ∨ c = '\'' then some 1 else none)
  else if s = 1 then
    (if c = '"' ∨ c = '\'' then some 2 else if c = '\\' then some 3
     else if 32 ≤ c.toNat ∧ c.toNat ≤ 126 then some 1 else none)
  else if s = 3 then (if c.toNat ≤ 127 then some 1 else none)
  else none

/-- A body of a string literal: printable ASCII characters other than the two quotes and
the backslash, and escape pairs (a backslash followed by any ASCII character). -/
def isStringBody : List Char → Bool
  | [] => true
  | [c] => decide (32 ≤ c.toNat ∧ c.toNat ≤ 126 ∧ c ≠ '"' ∧ c ≠ '\'' ∧ c ≠ '\\')
  | c :: e :: b =>
    if c = '\\' then decide (e.toNat ≤ 127) && isStringBody b
    else decide (32 ≤ c.toNat ∧ c.toNat ≤ 126 ∧ c ≠ '"' ∧ c ≠ '\'') && isStringBody (e :: b)

/-- The text begins with trivia: a whitespace character, or the marker `//` or `/*` of a
comment. -/
def beginsWithTrivia : List Char → Bool
  | [] => false
  | c :: cs => isspace c || (c == '/' && (cs.head? == some '/' || cs.head? == some '*'))

/-- A character of the class `[A-Za-z0-9_]`. -/
def isIdentifierChar (ch : Char) : Bool :=
  isalpha ch || isdigit ch || ch = '_'

/-- The strings of the shape `[A-Za-z_][A-Za-z0-9_]*`. -/
def isIdentifier : List Char → Bool
  | [] => false
  | c :: cs => (isalpha c || c = '_') && cs.all isIdentifierChar

/-- The `line` and `column` of the cursor are the true line and column of its position. -/
def Lexer.inSync (lx : Lexer) : Prop :=
  lx.line = lineAt lx.sourceBuffer lx.currentPosition ∧
    lx.column = columnAt lx.sourceBuffer lx.currentPosition

/-- The strings that lead the number automaton from its start state to the state `st`. -/
def NumberPath (st : Nat) (s : List Char) : Prop :=
  (st = 0 ∧ s = []) ∨ (st = 1 ∧ IsDigits s) ∨
  (st = 2 ∧ ∃ i, s = i ++ ['.'] ∧ ∀ c ∈ i, isdigit c = true) ∨
  (st = 3 ∧ ∃ i f, s = i ++ '.' :: f ∧ (∀ c ∈ i, isdigit c = true) ∧ IsDigits f) ∨
  (st = 4 ∧ ∃ m l, s = m ++ [l] ∧ IsMantissa m ∧ (l = 'e' ∨ l = 'E')) ∨
  (st = 5 ∧ ∃ m l g, s = m ++ [l, g] ∧ IsMantissa m ∧ (l = 'e' ∨ l = 'E') ∧
    (g = '+' ∨ g = '-')) ∨
  (st = 6 ∧ ∃ m e, s = m ++ e ∧ IsMantissa m ∧ IsExponent e)

/-- Two sessions stand at the same offset of the same buffer, with the same operator set. -/
def Lexer.sameInput (a b : Lexer) : Prop :=
  a.sourceBuffer = b.sourceBuffer ∧ a.operators = b.operators ∧
    a.currentPosition = b.currentPosition

/-- The session states a caller can reach: a fresh lexer over some buffer, and the state a
call of `getNextToken` leaves behind. -/
inductive Reachable : Lexer → Prop where
  | fresh (source : List Char) (order : List (List Char)) : Reachable (Lexer.new source order)
  | call {lx lx' : Lexer} {tok : Token} :
      Reachable lx → lx.getNextToken = some (tok, lx') → Reachable lx'

/-- Every state of the automaton that has an outgoing transition can be reached from the
state 0 along transitions. -/
def SourcesReachable (a : Automaton) : Prop :=
  ∀ (s : Nat) (c : Char) (t : Nat), a.find s c = some t → ∃ w, a.walk 0 w = some s

/-- The lexemes a `Separator` token can carry. -/
def separatorLexemes : List (List Char) :=
  [";", ",", "(", ")", "\x7b", "\x7d", "[", "]", "..."].map String.toList


/-! ## The cursor -/

theorem isEOF_iff_rest (lx : Lexer) : lx.isEOF = true ↔ lx.rest = [] := by
  simp [Lexer.isEOF, Lexer.rest]

theorem isEOF_false_iff (lx : Lexer) : lx.isEOF = false ↔ ∃ c cs, lx.rest = c :: cs := by
  rw [← Bool.not_eq_true, isEOF_iff_rest]
  cases lx.rest <;> simp

theorem peekChar_eq (lx : Lexer) (k : Nat) : lx.peekChar k = lx.rest.getD k '\x00' := by
  unfold Lexer.peekChar Lexer.rest
  simp only [List.getD_eq_getElem?_getD, List.getElem?_drop]
  split
  · rfl
  · rename_i h
    rw [List.getElem?_eq_none (by omega)]
    rfl

theorem rest_cons_getD {lx : Lexer} {c : Char} {cs : List Char} (h : lx.rest = c :: cs) :
    lx.currentPosition < lx.sourceBuffer.length ∧
      lx.sourceBuffer.getD lx.currentPosition '\x00' = c := by
  unfold Lexer.rest at h
  have hlt : lx.currentPosition < lx.sourceBuffer.length := by
    by_contra hn
    rw [List.drop_eq_nil_of_le (by omega)] at h
    cases h
  refine ⟨hlt, ?_⟩
  rw [List.drop_eq_getElem_cons hlt] at h
  simp only [List.cons.injEq] at h
  simp [List.getD_eq_getElem?_getD, List.getElem?_eq_getElem hlt, h.1]

theorem advance_rest {lx : Lexer} : ∀ {w r : List Char}, lx.rest = w ++ r →
    (lx.advance w).rest = r := by
  intro w
  induction w generalizing lx with
  | nil => intro r h; simpa [Lexer.advance] using h
  | cons c cs ih =>
    intro r h
    have h0 : lx.rest = c :: (cs ++ r) := by simpa using h
    have h1 := rest_cons_getD h0
    simp only [Lexer.advance]
    apply ih
    unfold Lexer.rest at h ⊢
    rw [List.drop_eq_getElem_cons h1.1] at h
    simp only [List.cons_append, List.cons.injEq] at h
    split <;> simpa using h.2

theorem readChar_of_rest {lx : Lexer} {c : Char} {cs : List Char} (h : lx.rest = c :: cs) :
    lx.readChar = (c, lx.advance [c]) := by
  have h1 := rest_cons_getD h
  unfold Lexer.readChar
  simp only [ge_iff_le, Nat.not_le.mpr h1.1, ↓reduceIte, h1.2, Lexer.advance]
  split <;> rfl

theorem readChar_of_nil {lx : Lexer} (h : lx.rest = []) : lx.readChar = ('\x00', lx) := by
  have := (isEOF_iff_rest lx).mpr h
  unfold Lexer.isEOF at this
  unfold Lexer.readChar
  simp only [ge_iff_le, decide_eq_true_eq] at this
  simp [this]

theorem advance_append (lx : Lexer) (u v : List Char) :
    lx.advance (u ++ v) = (lx.advance u).advance v := by
  induction u generalizing lx with
  | nil => rfl
  | cons c cs ih => simp only [List.cons_append, Lexer.advance]; exact ih _

@[simp] theorem advance_sourceBuffer (lx : Lexer) (w : List Char) :
    (lx.advance w).sourceBuffer = lx.sourceBuffer := by
  induction w generalizing lx with
  | nil => rfl
  | cons c cs ih => simp only [Lexer.advance]; rw [ih]; split <;> rfl

@[simp] theorem advance_operators (lx : Lexer) (w : List Char) :
    (lx.advance w).operators = lx.operators := by
  induction w generalizing lx with
  | nil => rfl
  | cons c cs ih => simp only [Lexer.advance]; rw [ih]; split <;> rfl

@[simp] theorem advance_stderr (lx : Lexer) (w : List Char) :
    (lx.advance w).stderr = lx.stderr := by
  induction w generalizing lx with
  | nil => rfl
  | cons c cs ih => simp only [Lexer.advance]; rw [ih]; split <;> rfl

@[simp] theorem advance_currentPosition (lx : Lexer) (w : List Char) :
    (lx.advance w).currentPosition = lx.currentPosition + w.length := by
  induction w generalizing lx with
  | nil => rfl
  | cons c cs ih =>
    simp only [Lexer.advance]; rw [ih]
    split <;> simp <;> omega


/-! ## The loops of `skipWhitespaceAndComments` -/

theorem remaining_eq_rest (lx : Lexer) : lx.remaining = lx.rest.length := by
  simp [Lexer.remaining, Lexer.rest]

theorem advance_cons (lx : Lexer) (c : Char) (w : List Char) :
    lx.advance (c :: w) = (lx.advance [c]).advance w :=
  advance_append lx [c] w

theorem skipLineComment_spec : ∀ (fuel : Nat) (lx : Lexer), lx.rest.length < fuel →
    ∃ w r, lx.rest = w ++ r ∧ skipLineComment fuel lx = some (lx.advance w) ∧
      (lx.rest ≠ [] → w ≠ []) := by
  intro fuel
  induction fuel with
  | zero => intro lx h; omega
  | succ fuel ih =>
    intro lx h
    cases hr : lx.rest with
    | nil =>
      refine ⟨[], [], rfl, ?_, fun hne => absurd rfl hne⟩
      simp [skipLineComment, (isEOF_iff_rest lx).mpr hr, Lexer.advance]
    | cons c cs =>
      have heof : lx.isEOF = false := (isEOF_false_iff lx).mpr ⟨c, cs, hr⟩
      have hrest : (lx.advance [c]).rest = cs := advance_rest (w := [c]) (by simpa using hr)
      simp only [skipLineComment, heof, readChar_of_rest hr]
      by_cases hc : c = '\n'
      · refine ⟨[c], cs, rfl, ?_, fun _ => by simp⟩
        simp [hc]
      · obtain ⟨w, r, h1, h2, -⟩ := ih (lx.advance [c]) (by rw [hrest]; rw [hr] at h; simpa using h)
        refine ⟨c :: w, r, ?_, ?_, fun _ => by simp⟩
        · rw [hrest] at h1; simp [h1]
        · simp only [Bool.false_eq_true, ↓reduceIte, ne_eq, hc, not_false_eq_true]
          rw [h2, advance_cons lx c w]

theorem skipBlockComment_spec : ∀ (fuel : Nat) (lx : Lexer), lx.rest.length < fuel →
    ∃ w r, lx.rest = w ++ r ∧ skipBlockComment fuel lx = some (lx.advance w) := by
  intro fuel
  induction fuel with
  | zero => intro lx h; omega
  | succ fuel ih =>
    intro lx h
    cases hr : lx.rest with
    | nil =>
      refine ⟨[], [], rfl, ?_⟩
      simp [skipBlockComment, (isEOF_iff_rest lx).mpr hr, Lexer.advance]
    | cons c cs =>
      have heof : lx.isEOF = false := (isEOF_false_iff lx).mpr ⟨c, cs, hr⟩
      have hrest : (lx.advance [c]).rest = cs := advance_rest (w := [c]) (by simpa using hr)
      simp only [skipBlockComment, heof, readChar_of_rest hr, Bool.false_eq_true, ↓reduceIte]
      by_cases hc : c = '*' ∧ (lx.advance [c]).peekChar 0 = '/'
      · rw [if_pos hc]
        cases hcs : cs with
        | nil =>
          refine ⟨[c], [], by simp, ?_⟩
          rw [readChar_of_nil (by rw [hrest, hcs])]
        | cons d ds =>
          refine ⟨[c, d], ds, by simp, ?_⟩
          rw [readChar_of_rest (by rw [hrest, hcs]), advance_cons lx c [d]]
      · obtain ⟨w, r, h1, h2⟩ := ih (lx.advance [c]) (by rw [hrest]; rw [hr] at h; simpa using h)
        refine ⟨c :: w, r, ?_, ?_⟩
        · rw [hrest] at h1; simp [h1]
        · rw [if_neg hc, h2, advance_cons lx c w]

theorem getD_buffer_eq (lx : Lexer) (k : Nat) :
    lx.sourceBuffer.getD (lx.currentPosition + k) '\x00' = lx.rest.getD k '\x00' := by
  simp [Lexer.rest, List.getD_eq_getElem?_getD, List.getElem?_drop]

theorem skipLoop_spec : ∀ (fuel : Nat) (lx : Lexer), lx.rest.length < fuel →
    ∃ w r, lx.rest = w ++ r ∧ skipLoop fuel lx = some (lx.advance w) := by
  intro fuel
  induction fuel with
  | zero => intro lx h; omega
  | succ fuel ih =>
    intro lx h
    cases hr : lx.rest with
    | nil =>
      refine ⟨[], [], rfl, ?_⟩
      simp [skipLoop, (isEOF_iff_rest lx).mpr hr, Lexer.advance]
    | cons c cs =>
      have heof : lx.isEOF = false := (isEOF_false_iff lx).mpr ⟨c, cs, hr⟩
      have hrest : (lx.advance [c]).rest = cs := advance_rest (w := [c]) (by simpa using hr)
      have hlen : cs.length < fuel := by rw [hr] at h; simpa using h
      have hpk : lx.peekChar 0 = c := by rw [peekChar_eq, hr]; rfl
      have hnx : lx.sourceBuffer.getD (lx.currentPosition + 1) '\x00' = cs.getD 0 '\x00' := by
        rw [getD_buffer_eq, hr]; cases cs <;> rfl
      simp only [skipLoop, heof, hpk, hnx, Bool.false_eq_true, ↓reduceIte]
      by_cases hsp : isspace c = true
      · obtain ⟨w, r, h1, h2⟩ := ih (lx.advance [c]) (by rw [hrest]; exact hlen)
        refine ⟨c :: w, r, ?_, ?_⟩
        · rw [hrest] at h1; simp [h1]
        · rw [if_pos hsp, readChar_of_rest hr]
          rw [h2, advance_cons lx c w]
      · rw [if_neg hsp]
        by_cases hsl : c = '/'
        · rw [if_pos hsl]
          by_cases hn1 : cs.getD 0 '\x00' = '/'
          · -- line comment
            rw [if_pos hn1]
            obtain ⟨w, r, h1, h2, h3⟩ := skipLineComment_spec (lx.remaining + 1) lx
              (by rw [remaining_eq_rest]; omega)
            have hw : w ≠ [] := h3 (by rw [hr]; simp)
            have hlen2 : lx.rest.length = w.length + r.length := by rw [h1]; simp
            have hwpos : 0 < w.length := List.length_pos.mpr hw
            obtain ⟨w', r', h1', h2'⟩ := ih (lx.advance w) (by
              rw [advance_rest h1]; omega)
            refine ⟨w ++ w', r', ?_, ?_⟩
            · rw [advance_rest h1] at h1'
              rw [← hr, h1, h1', List.append_assoc]
            · rw [h2, Option.some_bind, h2', advance_append]
          · rw [if_neg hn1]
            by_cases hn2 : cs.getD 0 '\x00' = '*'
            · -- block comment
              rw [if_pos hn2]
              cases hcs : cs with
              | nil => rw [hcs] at hn2; exact absurd hn2 (by decide)
              | cons d ds =>
                have hr2 : (lx.advance [c]).rest = d :: ds := by rw [hrest, hcs]
                have hr3 : ((lx.advance [c]).advance [d]).rest = ds :=
                  advance_rest (w := [d]) (by simpa using hr2)
                rw [readChar_of_rest hr, readChar_of_rest hr2]
                obtain ⟨w, r, h1, h2⟩ := skipBlockComment_spec
                  (((lx.advance [c]).advance [d]).remaining + 1)
                  ((lx.advance [c]).advance [d]) (by rw [remaining_eq_rest]; omega)
                have hlen2 : ds.length = w.length + r.length := by
                  rw [← hr3, h1]; simp
                obtain ⟨w', r', h1', h2'⟩ := ih (((lx.advance [c]).advance [d]).advance w) (by
                  rw [advance_rest h1]
                  rw [hcs] at hlen; simp at hlen; omega)
                refine ⟨c :: d :: (w ++ w'), r', ?_, ?_⟩
                · rw [advance_rest h1] at h1'
                  rw [hr3] at h1
                  rw [h1, h1']; simp
                · rw [h2, Option.some_bind, h2']
                  rw [advance_cons lx c (d :: (w ++ w')), advance_cons (lx.advance [c]) d (w ++ w'),
                    advance_append]
            · rw [if_neg hn2]
              exact ⟨[], c :: cs, rfl, rfl⟩
        · rw [if_neg hsl]
          exact ⟨[], c :: cs, rfl, rfl⟩

theorem skipLoop_mono : ∀ (fuel fuel' : Nat) (lx lx' : Lexer), fuel ≤ fuel' →
    skipLoop fuel lx = some lx' → skipLoop fuel' lx = some lx' := by
  intro fuel
  induction fuel with
  | zero => intro fuel' lx lx' _ h; simp [skipLoop] at h
  | succ fuel ih =>
    intro fuel' lx lx' hle h
    obtain ⟨k, rfl⟩ : ∃ k, fuel' = k + 1 := ⟨fuel' - 1, by omega⟩
    have hk : fuel ≤ k := by omega
    simp only [skipLoop] at h ⊢
    split at h
    · rename_i heof
      rw [if_pos heof]; exact h
    · rename_i heof
      rw [if_neg heof]
      split at h
      · rename_i hsp; rw [if_pos hsp]; exact ih _ _ _ hk h
      · rename_i hsp
        rw [if_neg hsp]
        split at h
        · rename_i hsl
          rw [if_pos hsl]
          split at h
          · rename_i hn
            rw [if_pos hn]
            cases hl : skipLineComment (lx.remaining + 1) lx with
            | none => rw [hl] at h; simp at h
            | some l1 =>
              rw [hl] at h
              simp only [Option.some_bind] at h ⊢
              exact ih _ _ _ hk h
          · rename_i hn
            rw [if_neg hn]
            split at h
            · rename_i hn2
              rw [if_pos hn2]
              cases hl : skipBlockComment (lx.readChar.2.readChar.2.remaining + 1)
                  lx.readChar.2.readChar.2 with
              | none => rw [hl] at h; simp at h
              | some l1 =>
                rw [hl] at h
                simp only [Option.some_bind] at h ⊢
                exact ih _ _ _ hk h
            · rename_i hn2
              rw [if_neg hn2]; exact h
        · rename_i hsl
          rw [if_neg hsl]; exact h

/-- The skipping of trivia always returns: it consumes a prefix of the unread input. -/
theorem skipWhitespaceAndComments_spec (lx : Lexer) :
    ∃ w r, lx.rest = w ++ r ∧ lx.skipWhitespaceAndComments = some (lx.advance w) :=
  skipLoop_spec (lx.remaining + 1) lx (by rw [remaining_eq_rest]; omega)

theorem skipWhitespaceAndComments_nil {lx : Lexer} (h : lx.rest = []) :
    lx.skipWhitespaceAndComments = some lx := by
  simp [Lexer.skipWhitespaceAndComments, skipLoop, (isEOF_iff_rest lx).mpr h]


/-! ## The loop of `runAutomaton` -/

theorem scanLoop_succ (a : Automaton) (b : Bool) (t : Char) (fuel : Nat) (st : State)
    (lexeme : List Char) (lx : Lexer) :
    scanLoop a b t (fuel + 1) st lexeme lx =
      if lx.isEOF then some (st, lexeme, lx)
      else
        match a.find st (lx.peekChar 0) with
        | some target =>
          if b = true ∧ lx.peekChar 0 = t ∧ target = 2 then
            some (target, lexeme ++ [lx.readChar.1], lx.readChar.2)
          else scanLoop a b t fuel target (lexeme ++ [lx.readChar.1]) lx.readChar.2
        | none => some (st, lexeme, lx) := by
  simp only [scanLoop, Automaton.find]
  split
  · rfl
  · cases a.transitions st with
    | none => rfl
    | some m => rfl

theorem scanLoop_spec (a : Automaton) (b : Bool) (t : Char) :
    ∀ (fuel : Nat) (st : State) (lexeme : List Char) (lx : Lexer), lx.rest.length < fuel →
      ∃ st' w r, lx.rest = w ++ r ∧
        scanLoop a b t fuel st lexeme lx = some (st', lexeme ++ w, lx.advance w) ∧
        a.walk st w = some st' ∧ ScanStops a b t st' w r := by
  intro fuel
  induction fuel with
  | zero => intro st lexeme lx h; omega
  | succ fuel ih =>
    intro st lexeme lx h
    rw [scanLoop_succ]
    cases hr : lx.rest with
    | nil =>
      refine ⟨st, [], [], rfl, ?_, rfl, Or.inl rfl⟩
      simp [(isEOF_iff_rest lx).mpr hr, Lexer.advance]
    | cons c cs =>
      have heof : lx.isEOF = false := (isEOF_false_iff lx).mpr ⟨c, cs, hr⟩
      have hrest : (lx.advance [c]).rest = cs := advance_rest (w := [c]) (by simpa using hr)
      have hlen : cs.length < fuel := by rw [hr] at h; simpa using h
      have hpk : lx.peekChar 0 = c := by rw [peekChar_eq, hr]; rfl
      simp only [heof, hpk, Bool.false_eq_true, ↓reduceIte, readChar_of_rest hr]
      cases hf : a.find st c with
      | none =>
        have hs : ScanStops a b t st [] (c :: cs) := Or.inr (Or.inl ⟨c, cs, rfl, hf⟩)
        exact ⟨st, [], c :: cs, rfl, by simp [Lexer.advance], rfl, hs⟩
      | some target =>
        simp only
        by_cases hq : b = true ∧ c = t ∧ target = 2
        · rw [if_pos hq]
          have hs : ScanStops a b t target [c] cs :=
            Or.inr (Or.inr ⟨hq.1, hq.2.2, [], by simp [hq.2.1]⟩)
          refine ⟨target, [c], cs, rfl, rfl, ?_, hs⟩
          simp [Automaton.walk, hf]
        · rw [if_neg hq]
          obtain ⟨st', w, r, h1, h2, h3, h4⟩ := ih target (lexeme ++ [c]) (lx.advance [c])
            (by rw [hrest]; exact hlen)
          rw [hrest] at h1
          have hs : ScanStops a b t st' (c :: w) r := by
            rcases h4 with h | h | ⟨h, h', u, hu⟩
            · exact Or.inl h
            · exact Or.inr (Or.inl h)
            · exact Or.inr (Or.inr ⟨h, h', c :: u, by simp [hu]⟩)
          refine ⟨st', c :: w, r, by simp [h1], ?_, ?_, hs⟩
          · rw [h2, advance_cons lx c w]; simp
          · simp [Automaton.walk, hf, h3]


/-! ## `runAutomaton` and the recursion of `getNextToken` -/

/-- The scan of `runAutomaton` returns: it consumes a prefix `w` of the unread input along
transitions of the automaton and stops for one of the three reasons of the loop. -/
theorem scan_spec (id : AutomatonId) (lx : Lexer) :
    ∃ st w r, lx.scan id = some (st, w, lx.advance w) ∧ lx.rest = w ++ r ∧
      (lx.automaton id).walk (lx.automaton id).startState w = some st ∧
      ScanStops (lx.automaton id) (id = .string) (lx.stringTerminator id) st w r := by
  obtain ⟨st, w, r, h1, h2, h3, h4⟩ := scanLoop_spec (lx.automaton id) (id = .string)
    (lx.stringTerminator id) (lx.remaining + 1) (lx.automaton id).startState [] lx
    (by rw [remaining_eq_rest]; omega)
  exact ⟨st, w, r, h2, h1, h3, h4⟩

/-- The second half of `runAutomaton`, on the result of the scan. -/
theorem runAutomaton_of_scan {id : AutomatonId} {lx : Lexer} {st : State} {w : List Char}
    (h : lx.scan id = some (st, w, lx.advance w)) (retry : Lexer → Option (Token × Lexer)) :
    lx.runAutomaton retry id =
      if st ∈ (lx.automaton id).acceptingStates then
        some ({ type := determineTokenType w id, lexeme := w, line := lx.line,
                column := lx.column }, lx.advance w)
      else retry (lx.rewound w) := by
  unfold Lexer.runAutomaton
  simp only [h]
  rfl

theorem rewound_rest {lx : Lexer} {c : Char} {cs : List Char} (w : List Char)
    (h : lx.rest = c :: cs) : (lx.rewound w).rest = cs := by
  have h1 := rest_cons_getD h
  unfold Lexer.rest at h ⊢
  rw [List.drop_eq_getElem_cons h1.1] at h
  simp only [List.cons.injEq] at h
  simpa [Lexer.rewound, Lexer.reportError] using h.2


@[simp] theorem traced_rest (lx : Lexer) : lx.traced.rest = lx.rest := rfl

@[simp] theorem reportError_rest (lx : Lexer) (m : List Char) : (lx.reportError m).rest = lx.rest :=
  rfl

theorem dispatch_chain (retry : Lexer → Option (Token × Lexer)) (lx : Lexer) {c : Char}
    {cs : List Char} (hr : lx.rest = c :: cs) :
    (if isIdentifierStart (lx.peekChar 0) then lx.runAutomaton retry .identifier
      else if isDigit (lx.peekChar 0) ∨ (lx.peekChar 0 = '.' ∧ isDigit (lx.peekChar 1)) then
        lx.runAutomaton retry .number
      else if lx.peekChar 0 = '"' ∨ lx.peekChar 0 = '\'' then lx.runAutomaton retry .string
      else if lx.peekChar 0 = '.' ∧ lx.peekChar 1 = '.' ∧ lx.peekChar 2 = '.' then
        lx.runAutomaton retry .separator
      else if lx.isOperatorStart (lx.peekChar 0) then lx.runAutomaton retry .operator
      else if lx.isSeparatorStart (lx.peekChar 0) then lx.runAutomaton retry .separator
      else
        some ({ type := TokenType.Unknown,
                lexeme := [(lx.reportError "Unrecognized character".toList).readChar.1],
                line := lx.line, column := lx.column },
              (lx.reportError "Unrecognized character".toList).readChar.2)) =
      match lx.dispatch with
      | some id => lx.runAutomaton retry id
      | none => some lx.unknownToken := by
  have hr' : (lx.reportError "Unrecognized character".toList).rest = c :: cs := hr
  have hrd := readChar_of_rest hr'
  have hpk : lx.peekChar 0 = c := by rw [peekChar_eq, hr]; rfl
  unfold Lexer.dispatch Lexer.unknownToken
  rw [hrd, hpk]
  simp only
  split_ifs <;> rfl

/-- The body of `getNextToken` as a dispatch on the state left by the skipping of trivia. -/
theorem getNextTokenBody_eq (lx : Lexer) :
    ∃ w r, lx.rest = w ++ r ∧
      lx.traced.skipWhitespaceAndComments = some (lx.traced.advance w) ∧
      ∀ retry, lx.getNextTokenBody retry =
        if (lx.traced.advance w).isEOF then some (lx.traced.advance w).eofToken
        else
          match (lx.traced.advance w).dispatch with
          | some id => (lx.traced.advance w).runAutomaton retry id
          | none => some (lx.traced.advance w).unknownToken := by
  obtain ⟨w, r, h1, h2⟩ := skipWhitespaceAndComments_spec lx.traced
  refine ⟨w, r, h1, h2, fun retry => ?_⟩
  have hbody : lx.getNextTokenBody retry =
      match lx.traced.skipWhitespaceAndComments with
      | none => none
      | some lx1 =>
        if lx1.isEOF then some lx1.eofToken
        else
          (if isIdentifierStart (lx1.peekChar 0) then lx1.runAutomaton retry .identifier
          else if isDigit (lx1.peekChar 0) ∨ (lx1.peekChar 0 = '.' ∧ isDigit (lx1.peekChar 1)) then
            lx1.runAutomaton retry .number
          else if lx1.peekChar 0 = '"' ∨ lx1.peekChar 0 = '\'' then
            lx1.runAutomaton retry .string
          else if lx1.peekChar 0 = '.' ∧ lx1.peekChar 1 = '.' ∧ lx1.peekChar 2 = '.' then
            lx1.runAutomaton retry .separator
          else if lx1.isOperatorStart (lx1.peekChar 0) then lx1.runAutomaton retry .operator
          else if lx1.isSeparatorStart (lx1.peekChar 0) then lx1.runAutomaton retry .separator
          else
            some ({ type := TokenType.Unknown,
                    lexeme := [(lx1.reportError "Unrecognized character".toList).readChar.1],
                    line := lx1.line, column := lx1.column },
                  (lx1.reportError "Unrecognized character".toList).readChar.2)) := rfl
  rw [hbody, h2]
  simp only
  split
  · rfl
  · rename_i heof
    obtain ⟨c, cs, hr⟩ := (isEOF_false_iff _).mp (Bool.not_eq_true _ ▸ heof)
    exact dispatch_chain retry _ hr

/-- One unrolling of `getNextToken`: either a token that no longer depends on the recursive
call, or the recursive call at a cursor with strictly less input left. -/
theorem getNextTokenBody_cases (lx : Lexer) :
    (∃ res, ∀ retry, lx.getNextTokenBody retry = some res) ∨
    (∃ lx2, lx2.rest.length < lx.rest.length ∧ ∀ retry, lx.getNextTokenBody retry = retry lx2) := by
  obtain ⟨w, r, h1, -, h3⟩ := getNextTokenBody_eq lx
  by_cases heof : (lx.traced.advance w).isEOF = true
  · exact Or.inl ⟨_, fun retry => by rw [h3, if_pos heof]⟩
  · obtain ⟨c, cs, hr⟩ := (isEOF_false_iff _).mp (Bool.not_eq_true _ ▸ heof)
    cases hd : (lx.traced.advance w).dispatch with
    | none => exact Or.inl ⟨_, fun retry => by rw [h3, if_neg heof, hd]⟩
    | some id =>
      obtain ⟨st, w', r', h4, -, -, -⟩ := scan_spec id (lx.traced.advance w)
      have h7 := runAutomaton_of_scan h4
      by_cases hacc : st ∈ ((lx.traced.advance w).automaton id).acceptingStates
      · exact Or.inl ⟨_, fun retry => by rw [h3, if_neg heof, hd]; simp only; rw [h7, if_pos hacc]⟩
      · refine Or.inr ⟨(lx.traced.advance w).rewound w', ?_, fun retry => by
          rw [h3, if_neg heof, hd]; simp only; rw [h7, if_neg hacc]⟩
        rw [rewound_rest w' hr]
        have h8 : (lx.traced.advance w).rest = r := advance_rest (by simpa using h1)
        have h9 : lx.rest.length = w.length + r.length := by rw [h1]; simp
        rw [h8] at hr
        rw [h9, hr]
        simp only [List.length_cons]
        omega

theorem getNextTokenFuel_mono : ∀ (fuel fuel' : Nat) (lx : Lexer) (res : Token × Lexer),
    fuel ≤ fuel' → getNextTokenFuel fuel lx = some res → getNextTokenFuel fuel' lx = some res := by
  intro fuel
  induction fuel with
  | zero => intro fuel' lx res _ h; simp [getNextTokenFuel] at h
  | succ fuel ih =>
    intro fuel' lx res hle h
    obtain ⟨k, rfl⟩ : ∃ k, fuel' = k + 1 := ⟨fuel' - 1, by omega⟩
    simp only [getNextTokenFuel] at h ⊢
    rcases getNextTokenBody_cases lx with ⟨res', h1⟩ | ⟨lx2, -, h1⟩
    · rw [h1] at h ⊢; exact h
    · rw [h1] at h ⊢; exact ih k lx2 res (by omega) h

theorem getNextTokenFuel_total : ∀ (fuel : Nat) (lx : Lexer), lx.rest.length < fuel →
    ∃ res, getNextTokenFuel fuel lx = some res := by
  intro fuel
  induction fuel with
  | zero => intro lx h; omega
  | succ fuel ih =>
    intro lx h
    simp only [getNextTokenFuel]
    rcases getNextTokenBody_cases lx with ⟨res', h1⟩ | ⟨lx2, h0, h1⟩
    · exact ⟨res', h1 _⟩
    · rw [h1]; exact ih lx2 (by omega)

/-- The function `getNextToken` always returns. -/
theorem getNextToken_total (lx : Lexer) : ∃ res, lx.getNextToken = some res :=
  getNextTokenFuel_total _ lx (by rw [remaining_eq_rest]; omega)

/-- The fuel of `getNextToken` is enough: it satisfies the recursive equation of the source. -/
theorem getNextToken_eq (lx : Lexer) :
    lx.getNextToken = lx.getNextTokenBody Lexer.getNextToken := by
  have e : lx.getNextToken = lx.getNextTokenBody (getNextTokenFuel lx.remaining) := rfl
  rw [e]
  rcases getNextTokenBody_cases lx with ⟨res', h1⟩ | ⟨lx2, h0, h1⟩
  · rw [h1, h1]
  · rw [h1 (getNextTokenFuel lx.remaining), h1 Lexer.getNextToken]
    show getNextTokenFuel lx.remaining lx2 = getNextTokenFuel (lx2.remaining + 1) lx2
    obtain ⟨res, h2⟩ := getNextTokenFuel_total (lx2.remaining + 1) lx2
      (by rw [remaining_eq_rest]; omega)
    rw [h2]
    exact getNextTokenFuel_mono _ _ _ _ (by rw [remaining_eq_rest, remaining_eq_rest]; omega) h2

/-- Every result of `getNextToken` is produced by one of the four exits of the source. -/
theorem getNextToken_lexes : ∀ (n : Nat) (lx : Lexer) (res : Token × Lexer),
    lx.rest.length ≤ n → lx.getNextToken = some res → Lexes lx res := by
  intro n
  induction n with
  | zero =>
    intro lx res hn h
    have hnil : lx.rest = [] := List.length_eq_zero.mp (by omega)
    obtain ⟨w, r, h1, h2, h3⟩ := getNextTokenBody_eq lx
    have hw : w = [] := by
      rw [hnil] at h1; exact (List.append_eq_nil.mp h1.symm).1
    subst hw
    have hr1 : (lx.traced.advance []).rest = [] := hnil
    rw [getNextToken_eq, h3, if_pos ((isEOF_iff_rest _).mpr hr1)] at h
    cases h
    exact Lexes.eof h2 hr1
  | succ n ih =>
    intro lx res hn h
    obtain ⟨w, r, h1, h2, h3⟩ := getNextTokenBody_eq lx
    rw [getNextToken_eq, h3] at h
    by_cases heof : (lx.traced.advance w).isEOF = true
    · rw [if_pos heof] at h
      cases h
      exact Lexes.eof h2 ((isEOF_iff_rest _).mp heof)
    · rw [if_neg heof] at h
      obtain ⟨c, cs, hr⟩ := (isEOF_false_iff _).mp (Bool.not_eq_true _ ▸ heof)
      have hne : (lx.traced.advance w).rest ≠ [] := by rw [hr]; simp
      cases hd : (lx.traced.advance w).dispatch with
      | none =>
        rw [hd] at h
        cases h
        exact Lexes.unknown h2 hne hd
      | some id =>
        rw [hd] at h
        simp only at h
        obtain ⟨st, w', r', h0, h4, h5, h6⟩ := scan_spec id (lx.traced.advance w)
        rw [runAutomaton_of_scan h0] at h
        by_cases hacc : st ∈ ((lx.traced.advance w).automaton id).acceptingStates
        · rw [if_pos hacc] at h
          cases h
          exact Lexes.accept h2 hne hd h0 h4 h5 h6 hacc
        · rw [if_neg hacc] at h
          refine Lexes.reject h2 hne hd h0 h4 h5 h6 hacc (ih _ _ ?_ h)
          rw [rewound_rest w' hr]
          have h8 : (lx.traced.advance w).rest = r := advance_rest (by simpa using h1)
          have h9 : lx.rest.length = w.length + r.length := by rw [h1]; simp
          rw [h8] at hr
          rw [hr] at h9
          simp only [List.length_cons] at h9
          omega

/-- The function `getNextToken` returns, and what it returns comes from one of the four exits
of the source. -/
theorem getNextToken_spec (lx : Lexer) : ∃ res, lx.getNextToken = some res ∧ Lexes lx res := by
  obtain ⟨res, h⟩ := getNextToken_total lx
  exact ⟨res, h, getNextToken_lexes _ lx res (Nat.le_refl _) h⟩


/-! ## Progress of the cursor -/

theorem assign_startState (a : Automaton) (s : State) (c : Char) (v : State) :
    (a.assign s c v).startState = a.startState := rfl

theorem assign_acceptingStates (a : Automaton) (s : State) (c : Char) (v : State) :
    (a.assign s c v).acceptingStates = a.acceptingStates := rfl

theorem foldl_shape {α : Type} (f : Automaton → α → Automaton)
    (hf : ∀ a x, (f a x).startState = a.startState ∧ (f a x).acceptingStates = a.acceptingStates)
    (l : List α) (a : Automaton) :
    (l.foldl f a).startState = a.startState ∧
      (l.foldl f a).acceptingStates = a.acceptingStates := by
  induction l generalizing a with
  | nil => exact ⟨rfl, rfl⟩
  | cons x xs ih =>
    simp only [List.foldl_cons]
    exact ⟨(ih (f a x)).1.trans (hf a x).1, (ih (f a x)).2.trans (hf a x).2⟩

theorem forChars_shape (lo hi : Nat) (body : Char → Automaton → Automaton)
    (hb : ∀ ch a, (body ch a).startState = a.startState ∧
      (body ch a).acceptingStates = a.acceptingStates) (a : Automaton) :
    (forChars lo hi body a).startState = a.startState ∧
      (forChars lo hi body a).acceptingStates = a.acceptingStates :=
  foldl_shape (fun acc n => body (Char.ofNat n) acc) (fun a n => hb (Char.ofNat n) a) _ a

theorem identifierAutomaton_shape :
    identifierAutomaton.startState = 0 ∧ identifierAutomaton.acceptingStates = [1] :=
  ⟨rfl, rfl⟩

theorem numberAutomaton_shape :
    numberAutomaton.startState = 0 ∧ numberAutomaton.acceptingStates = [1, 3, 6] :=
  ⟨rfl, rfl⟩

theorem stringAutomaton_shape :
    stringAutomaton.startState = 0 ∧ stringAutomaton.acceptingStates = [2] := by
  have hb1 : ∀ (c : Char) (a : Automaton),
      (if c ≠ '"' ∧ c ≠ '\'' ∧ c ≠ '\\' then a.assign 1 c 1 else a).startState = a.startState ∧
      (if c ≠ '"' ∧ c ≠ '\'' ∧ c ≠ '\\' then a.assign 1 c 1 else a).acceptingStates =
        a.acceptingStates := by
    intro c a; split <;> exact ⟨rfl, rfl⟩
  have h1 := fun x => forChars_shape 0 127 (fun c a => a.assign 3 c 1) (fun _ _ => ⟨rfl, rfl⟩) x
  have h2 := fun x => forChars_shape 32 126
    (fun c a => if c ≠ '"' ∧ c ≠ '\'' ∧ c ≠ '\\' then a.assign 1 c 1 else a) hb1 x
  unfold stringAutomaton populateStringTransitions
  dsimp only
  constructor
  · rw [assign_startState, assign_startState, (h1 _).1, assign_startState, (h2 _).1]
    rfl
  · rw [assign_acceptingStates, assign_acceptingStates, (h1 _).2, assign_acceptingStates,
      (h2 _).2]
    rfl

theorem separatorAutomaton_shape :
    separatorAutomaton.startState = 0 ∧ separatorAutomaton.acceptingStates = [1, 1] :=
  ⟨rfl, rfl⟩

theorem isOperatorStart_find {lx : Lexer} {c : Char} (h : lx.isOperatorStart c = true) :
    (lx.automaton .operator).find (lx.automaton .operator).startState c ≠ none := by
  unfold Lexer.isOperatorStart at h
  unfold Automaton.find
  simp only at h
  cases ht : (lx.automaton .operator).transitions (lx.automaton .operator).startState with
  | none => rw [ht] at h; simp at h
  | some m =>
    rw [ht] at h
    simp only at h ⊢
    intro hn
    rw [hn] at h
    simp at h

theorem dispatch_operator {lx : Lexer} (h : lx.dispatch = some .operator) :
    lx.isOperatorStart (lx.peekChar 0) = true := by
  unfold Lexer.dispatch at h
  simp only at h
  split_ifs at h with h1 h2 h3 h4 h5 h6 <;> first | assumption | cases h

/-- An accepted scan that `getNextToken` dispatched has consumed at least one character. -/
theorem accepted_nonempty {lx : Lexer} {id : AutomatonId} {st : State} {w r : List Char}
    (hne : lx.rest ≠ []) (hd : lx.dispatch = some id) (hr : lx.rest = w ++ r)
    (hw : (lx.automaton id).walk (lx.automaton id).startState w = some st)
    (hs : ScanStops (lx.automaton id) (id = .string) (lx.stringTerminator id) st w r)
    (hacc : st ∈ (lx.automaton id).acceptingStates) : w ≠ [] := by
  intro hnil
  subst hnil
  simp only [Automaton.walk, Option.some.injEq] at hw
  subst hw
  cases id with
  | identifier =>
    have h : identifierAutomaton.startState ∈ identifierAutomaton.acceptingStates := hacc
    rw [identifierAutomaton_shape.1, identifierAutomaton_shape.2] at h
    exact absurd h (by decide)
  | number =>
    have h : numberAutomaton.startState ∈ numberAutomaton.acceptingStates := hacc
    rw [numberAutomaton_shape.1, numberAutomaton_shape.2] at h
    exact absurd h (by decide)
  | string =>
    have h : stringAutomaton.startState ∈ stringAutomaton.acceptingStates := hacc
    rw [stringAutomaton_shape.1, stringAutomaton_shape.2] at h
    exact absurd h (by decide)
  | separator =>
    have h : separatorAutomaton.startState ∈ separatorAutomaton.acceptingStates := hacc
    rw [separatorAutomaton_shape.1, separatorAutomaton_shape.2] at h
    exact absurd h (by decide)
  | operator =>
    have h1 := isOperatorStart_find (dispatch_operator hd)
    rcases hs with h | ⟨c, cs, h, h'⟩ | ⟨h, -⟩
    · rw [h] at hr; exact hne (by simpa using hr)
    · rw [peekChar_eq, hr] at h1
      simp only [List.nil_append, h] at h1
      exact h1 h'
    · simp at h

theorem lexes_progress {lx : Lexer} {res : Token × Lexer} (h : Lexes lx res) :
    res.2.sourceBuffer = lx.sourceBuffer ∧ res.2.operators = lx.operators ∧
      res.2.rest.length ≤ lx.rest.length ∧
      (res.1.type ≠ TokenType.EndOfFile → res.2.rest.length < lx.rest.length) := by
  induction h with
  | @eof lx lx1 hs hnil =>
    obtain ⟨w, r, h1, h2⟩ := skipWhitespaceAndComments_spec lx.traced
    rw [hs] at h2
    cases h2
    refine ⟨by simp [Lexer.eofToken, Lexer.traced], by simp [Lexer.eofToken, Lexer.traced], ?_, ?_⟩
    · simp only [Lexer.eofToken]; rw [hnil]; simp
    · intro hne; exact absurd rfl hne
  | @unknown lx lx1 hs hne hd =>
    obtain ⟨w, r, h1, h2⟩ := skipWhitespaceAndComments_spec lx.traced
    rw [hs] at h2
    cases h2
    have h3 : (lx.traced.advance w).rest = r := advance_rest h1
    obtain ⟨c, cs, hr⟩ : ∃ c cs, r = c :: cs := by
      cases r with
      | nil => exact absurd h3 hne
      | cons c cs => exact ⟨c, cs, rfl⟩
    subst hr
    have hpk : (lx.traced.advance w).peekChar 0 = c := by rw [peekChar_eq, h3]; rfl
    have h4 : (((lx.traced.advance w).reportError "Unrecognized character".toList).advance
        [c]).rest = cs := advance_rest (w := [c]) (by simpa using h3)
    have h5 : lx.rest.length = w.length + (cs.length + 1) := by
      have : lx.rest = w ++ c :: cs := h1
      rw [this]; simp
    simp only [Lexer.unknownToken, hpk]
    refine ⟨by simp [Lexer.reportError, Lexer.traced], by simp [Lexer.reportError, Lexer.traced],
      ?_, fun _ => ?_⟩ <;> rw [h4, h5] <;> omega
  | @accept lx lx1 id st w' r' hs hne hd hsc hr hw hst hacc =>
    obtain ⟨w, r, h1, h2⟩ := skipWhitespaceAndComments_spec lx.traced
    rw [hs] at h2
    cases h2
    have h3 : (lx.traced.advance w).rest = r := advance_rest h1
    have hw' : w' ≠ [] := accepted_nonempty hne hd hr hw hst hacc
    have h4 : ((lx.traced.advance w).advance w').rest = r' := advance_rest hr
    have h5 : lx.rest.length = w.length + (w'.length + r'.length) := by
      have : lx.rest = w ++ r := h1
      rw [this, ← h3, hr]; simp
    have h6 : 0 < w'.length := List.length_pos.mpr hw'
    refine ⟨by simp [Lexer.traced], by simp [Lexer.traced], ?_, fun _ => ?_⟩ <;>
      simp only <;> rw [h4, h5] <;> omega
  | @reject lx lx1 id st w' r' res hs hne hd hsc hr hw hst hacc hrec ih =>
    obtain ⟨w, r, h1, h2⟩ := skipWhitespaceAndComments_spec lx.traced
    rw [hs] at h2
    cases h2
    have h3 : (lx.traced.advance w).rest = r := advance_rest h1
    obtain ⟨c, cs, hr2⟩ : ∃ c cs, r = c :: cs := by
      cases r with
      | nil => exact absurd h3 hne
      | cons c cs => exact ⟨c, cs, rfl⟩
    subst hr2
    have h4 := rewound_rest w' h3
    have h5 : lx.rest.length = w.length + (cs.length + 1) := by
      have : lx.rest = w ++ c :: cs := h1
      rw [this]; simp
    rw [h4] at ih
    refine ⟨?_, ?_, by omega, fun _ => by omega⟩
    · rw [ih.1]; simp [Lexer.rewound, Lexer.reportError, Lexer.traced]
    · rw [ih.2.1]; simp [Lexer.rewound, Lexer.reportError, Lexer.traced]


/-! ## End of file -/

theorem determineTokenType_ne_eof (w : List Char) (id : AutomatonId) :
    determineTokenType w id ≠ TokenType.EndOfFile := by
  cases id <;> simp only [determineTokenType] <;> (try split) <;> exact fun h => by cases h

theorem determineTokenType_ne_unknown (w : List Char) (id : AutomatonId) :
    determineTokenType w id ≠ TokenType.Unknown := by
  cases id <;> simp only [determineTokenType] <;> (try split) <;> exact fun h => by cases h

/-- An `EndOfFile` token is only returned with the cursor at the end of the buffer, and it
carries the line and column of the cursor. -/
theorem lexes_eof {lx : Lexer} {res : Token × Lexer} (h : Lexes lx res)
    (ht : res.1.type = TokenType.EndOfFile) :
    res.2.rest = [] ∧ res.1 = { type := TokenType.EndOfFile, lexeme := [], line := res.2.line,
                                column := res.2.column } := by
  induction h with
  | eof hs hnil => exact ⟨hnil, rfl⟩
  | unknown hs hne hd => cases ht
  | accept hs hne hd hsc hr hw hst hacc => exact absurd ht (determineTokenType_ne_eof _ _)
  | reject hs hne hd hsc hr hw hst hacc hrec ih => exact ih ht

/-- At the end of the buffer `getNextToken` returns the `EndOfFile` token and only writes its
size trace. -/
theorem getNextToken_at_end {lx : Lexer} (h : lx.rest = []) :
    lx.getNextToken = some lx.traced.eofToken := by
  obtain ⟨w, r, h1, h2, h3⟩ := getNextTokenBody_eq lx
  have hw : w = [] := by
    rw [h] at h1; exact (List.append_eq_nil.mp h1.symm).1
  subst hw
  have hr1 : (lx.traced.advance []).rest = [] := h
  rw [getNextToken_eq, h3, if_pos ((isEOF_iff_rest _).mpr hr1)]
  rfl

theorem nthCall_at_end : ∀ (k : Nat) (lx : Lexer), lx.rest = [] →
    ∃ lx', lx.nthCall k = some ({ type := TokenType.EndOfFile, lexeme := [], line := lx.line,
                                  column := lx.column }, lx') ∧
      lx'.sourceBuffer = lx.sourceBuffer ∧ lx'.currentPosition = lx.currentPosition ∧
      lx'.line = lx.line ∧ lx'.column = lx.column := by
  intro k
  induction k with
  | zero =>
    intro lx h
    exact ⟨lx.traced, by simp only [Lexer.nthCall]; rw [getNextToken_at_end h]; rfl,
      rfl, rfl, rfl, rfl⟩
  | succ k ih =>
    intro lx h
    obtain ⟨lx', h1, h2, h3, h4, h5⟩ := ih lx.traced h
    refine ⟨lx', ?_, h2, h3, h4, h5⟩
    simp only [Lexer.nthCall]
    rw [getNextToken_at_end h, Option.some_bind]
    exact h1


/-! ## Transition tables of the hand-written automata -/

theorem find_assign (a : Automaton) (s : State) (c : Char) (v : State) (s' : State) (c' : Char) :
    (a.assign s c v).find s' c' = if s' = s ∧ c' = c then some v else a.find s' c' := by
  unfold Automaton.find Automaton.assign Automaton.row
  by_cases hs : s' = s
  · subst hs
    by_cases hc : c' = c
    · simp [hc]
    · simp only [↓reduceIte, hc, and_false]
      cases a.transitions s' <;> rfl
  · simp [hs]

theorem char_eq_ofNat {c : Char} {n : Nat} (hn : n < 55296) : c = Char.ofNat n ↔ c.toNat = n := by
  have hv : n.isValidChar := Or.inl hn
  constructor
  · intro h
    rw [h]
    simp [Char.ofNat, hv, Char.ofNatAux, Char.toNat, UInt32.toNat]
  · intro h
    rw [← h, Char.ofNat_toNat]

theorem find_foldl_range (body : Char → Automaton → Automaton) (g : State → Option State)
    (P : Char → Bool)
    (hb : ∀ ch a s' c', (body ch a).find s' c' =
      if c' = ch ∧ P ch = true ∧ (g s').isSome then g s' else a.find s' c') :
    ∀ (n lo : Nat) (a : Automaton) (s' : State) (c' : Char), lo + n ≤ 55296 →
      ((List.range' lo n).foldl (fun acc k => body (Char.ofNat k) acc) a).find s' c' =
        if lo ≤ c'.toNat ∧ c'.toNat < lo + n ∧ P c' = true ∧ (g s').isSome then g s'
        else a.find s' c' := by
  intro n
  induction n with
  | zero =>
    intro lo a s' c' _
    have : ¬ (lo ≤ c'.toNat ∧ c'.toNat < lo + 0 ∧ P c' = true ∧ (g s').isSome) := by
      intro h; omega
    simp only [List.range'_zero, List.foldl_nil, if_neg this]
  | succ n ih =>
    intro lo a s' c' hle
    simp only [List.range'_succ, List.foldl_cons]
    rw [ih (lo + 1) _ s' c' (by omega), hb]
    have hlo : c' = Char.ofNat lo ↔ c'.toNat = lo := char_eq_ofNat (by omega)
    by_cases h1 : lo + 1 ≤ c'.toNat ∧ c'.toNat < lo + 1 + n ∧ P c' = true ∧ (g s').isSome
    · rw [if_pos h1, if_pos ⟨by omega, by omega, h1.2.2⟩]
    · rw [if_neg h1]
      by_cases h2 : c' = Char.ofNat lo
      · have h3 := hlo.mp h2
        by_cases h4 : P c' = true ∧ (g s').isSome
        · rw [if_pos ⟨h2, h2 ▸ h4.1, h4.2⟩, if_pos ⟨by omega, by omega, h4⟩]
        · rw [if_neg (fun h => h4 ⟨h2 ▸ h.2.1, h.2.2⟩), if_neg (fun h => h4 h.2.2)]
      · have h3 : c'.toNat ≠ lo := fun h => h2 (hlo.mpr h)
        rw [if_neg (fun h => h2 h.1), if_neg (fun h => h1 ⟨by omega, by omega, h.2.2⟩)]

/-- The table after a `for` loop over a range of characters whose body assigns, for the
loop character and every state `s` with `g s = some v`, the transition `s → v`. -/
theorem find_forChars (lo hi : Nat) (body : Char → Automaton → Automaton)
    (g : State → Option State) (P : Char → Bool)
    (hb : ∀ ch a s' c', (body ch a).find s' c' =
      if c' = ch ∧ P ch = true ∧ (g s').isSome then g s' else a.find s' c')
    (hhi : hi < 55296) (a : Automaton) (s' : State) (c' : Char) :
    (forChars lo hi body a).find s' c' =
      if lo ≤ c'.toNat ∧ c'.toNat ≤ hi ∧ P c' = true ∧ (g s').isSome then g s'
      else a.find s' c' := by
  unfold forChars
  by_cases hlh : lo ≤ hi + 1
  · rw [find_foldl_range body g P hb (hi + 1 - lo) lo a s' c' (by omega)]
    by_cases h : lo ≤ c'.toNat ∧ c'.toNat ≤ hi ∧ P c' = true ∧ (g s').isSome
    · rw [if_pos h, if_pos ⟨h.1, by omega, h.2.2⟩]
    · rw [if_neg h, if_neg (fun h' => h ⟨h'.1, by omega, h'.2.2⟩)]
  · have h0 : hi + 1 - lo = 0 := by omega
    rw [h0]
    simp only [List.range'_zero, List.foldl_nil]
    rw [if_neg (fun h => by omega)]

theorem find_empty (start : State) (acc : List State) (s : State) (c : Char) :
    (Automaton.empty start acc).find s c = none := rfl

theorem char_eq_iff_toNat (c d : Char) : c = d ↔ c.toNat = d.toNat := by
  constructor
  · intro h; rw [h]
  · intro h; rw [← Char.ofNat_toNat c, ← Char.ofNat_toNat d, h]

theorem numberAutomaton_find (s : State) (c : Char) :
    numberAutomaton.find s c = numberTable s c := by
  have hb1 : ∀ (ch : Char) (a : Automaton) (s' : State) (c' : Char),
      ((((a.assign 0 ch 1).assign 1 ch 1).assign 3 ch 3).assign 6 ch 6).find s' c' =
        if c' = ch ∧ (fun _ => true) ch = true ∧
            (if s' = 0 ∨ s' = 1 then some 1 else if s' = 3 then some 3
             else if s' = 6 then some 6 else none : Option State).isSome then
          (if s' = 0 ∨ s' = 1 then some 1 else if s' = 3 then some 3
           else if s' = 6 then some 6 else none)
        else a.find s' c' := by
    intro ch a s' c'
    simp only [find_assign]
    by_cases hc : c' = ch
    · by_cases h0 : s' = 0 <;> by_cases h1 : s' = 1 <;> by_cases h3 : s' = 3 <;>
        by_cases h6 : s' = 6 <;> simp [hc, h0, h1, h3, h6]
    · simp [hc]
  have hb2 : ∀ (ch : Char) (a : Automaton) (s' : State) (c' : Char),
      (a.assign 2 ch 3).find s' c' =
        if c' = ch ∧ (fun _ => true) ch = true ∧
            (if s' = 2 then some 3 else none : Option State).isSome then
          (if s' = 2 then some 3 else none)
        else a.find s' c' := by
    intro ch a s' c'
    simp only [find_assign]
    by_cases hc : c' = ch <;> by_cases h2 : s' = 2 <;> simp [hc, h2]
  have hb3 : ∀ (ch : Char) (a : Automaton) (s' : State) (c' : Char),
      (((a.assign 5 ch 6).assign 4 ch 6).assign 6 ch 6).find s' c' =
        if c' = ch ∧ (fun _ => true) ch = true ∧
            (if s' = 4 ∨ s' = 5 ∨ s' = 6 then some 6 else none : Option State).isSome then
          (if s' = 4 ∨ s' = 5 ∨ s' = 6 then some 6 else none)
        else a.find s' c' := by
    intro ch a s' c'
    simp only [find_assign]
    by_cases hc : c' = ch
    · by_cases h4 : s' = 4 <;> by_cases h5 : s' = 5 <;> by_cases h6 : s' = 6 <;>
        simp [hc, h4, h5, h6]
    · simp [hc]
  unfold numberAutomaton populateNumberTransitions
  dsimp only
  rw [find_forChars 48 57 _ _ _ hb3 (by decide)]
  simp only [find_assign]
  rw [find_forChars 48 57 _ _ _ hb2 (by decide)]
  simp only [find_assign]
  rw [find_forChars 48 57 _ _ _ hb1 (by decide), find_empty]
  unfold numberTable isdigit
  simp only [char_eq_iff_toNat c, Bool.and_eq_true, decide_eq_true_eq]
  have e1 : ('.' : Char).toNat = 46 := rfl
  have e2 : ('e' : Char).toNat = 101 := rfl
  have e3 : ('E' : Char).toNat = 69 := rfl
  have e4 : ('+' : Char).toNat = 43 := rfl
  have e5 : ('-' : Char).toNat = 45 := rfl
  rw [e1, e2, e3, e4, e5]
  generalize c.toNat = n
  clear hb1 hb2 hb3 e1 e2 e3 e4 e5
  by_cases hd : 48 ≤ n ∧ n ≤ 57
  · have a1 : n ≠ 69 := by omega
    have a2 : n ≠ 101 := by omega
    have a3 : n ≠ 46 := by omega
    have a4 : n ≠ 43 := by omega
    have a5 : n ≠ 45 := by omega
    rcases s with _ | _ | _ | _ | _ | _ | _ | s <;> simp [hd, a1, a2, a3, a4, a5]
  · by_cases h46 : n = 46
    · subst h46; rcases s with _ | _ | _ | _ | _ | _ | _ | s <;> simp
    · by_cases h101 : n = 101
      · subst h101; rcases s with _ | _ | _ | _ | _ | _ | _ | s <;> simp
      · by_cases h69 : n = 69
        · subst h69; rcases s with _ | _ | _ | _ | _ | _ | _ | s <;> simp
        · by_cases h43 : n = 43
          · subst h43; rcases s with _ | _ | _ | _ | _ | _ | _ | s <;> simp
          · by_cases h45 : n = 45
            · subst h45; rcases s with _ | _ | _ | _ | _ | _ | _ | s <;> simp
            · have hd' : ∀ X : Prop, ¬ (48 ≤ n ∧ n ≤ 57 ∧ X) := fun X h => hd ⟨h.1, h.2.1⟩
              simp [hd, hd', h46, h101, h69, h43, h45]


theorem separatorAutomaton_find (s : State) (c : Char) :
    separatorAutomaton.find s c = separatorTable s c := by
  unfold separatorAutomaton populateSeparatorTransitions
  dsimp only
  have hacc : ∀ (a : Automaton) (l : List State),
      ({ a with acceptingStates := l } : Automaton).find s c = a.find s c := fun _ _ => rfl
  rw [hacc]
  simp only [List.foldl_cons, List.foldl_nil, find_assign, find_empty]
  unfold separatorTable
  simp only [List.mem_cons, List.mem_singleton, List.not_mem_nil, or_false, char_eq_iff_toNat c]
  have e1 : (';' : Char).toNat = 59 := rfl
  have e2 : (',' : Char).toNat = 44 := rfl
  have e3 : ('(' : Char).toNat = 40 := rfl
  have e4 : (')' : Char).toNat = 41 := rfl
  have e5 : ('\x7b' : Char).toNat = 123 := rfl
  have e6 : ('\x7d' : Char).toNat = 125 := rfl
  have e7 : ('[' : Char).toNat = 91 := rfl
  have e8 : (']' : Char).toNat = 93 := rfl
  have e9 : (':' : Char).toNat = 58 := rfl
  have e10 : ('.' : Char).toNat = 46 := rfl
  have e11 : ('-' : Char).toNat = 45 := rfl
  have e12 : ('>' : Char).toNat = 62 := rfl
  have e13 : ('*' : Char).toNat = 42 := rfl
  rw [e1, e2, e3, e4, e5, e6, e7, e8, e9, e10, e11, e12, e13]
  generalize c.toNat = n
  clear e1 e2 e3 e4 e5 e6 e7 e8 e9 e10 e11 e12 e13 hacc
  by_cases h0 : s = 0
  · subst h0
    simp only [Nat.reduceEqDiff, false_and, true_and, if_false, if_true]
    by_cases k59 : n = 59
    · subst k59; simp
    by_cases k44 : n = 44
    · subst k44; simp
    by_cases k40 : n = 40
    · subst k40; simp
    by_cases k41 : n = 41
    · subst k41; simp
    by_cases k123 : n = 123
    · subst k123; simp
    by_cases k125 : n = 125
    · subst k125; simp
    by_cases k91 : n = 91
    · subst k91; simp
    by_cases k93 : n = 93
    · subst k93; simp
    by_cases k58 : n = 58
    · subst k58; simp
    by_cases k46 : n = 46
    · subst k46; simp
    by_cases k45 : n = 45
    · subst k45; simp
    by_cases k62 : n = 62
    · subst k62; simp
    by_cases k42 : n = 42
    · subst k42; simp
    simp [*]
  by_cases h2 : s = 2
  · subst h2
    simp only [Nat.reduceEqDiff, false_and, true_and, if_false, if_true]
  by_cases h3 : s = 3
  · subst h3
    simp only [Nat.reduceEqDiff, false_and, true_and, if_false, if_true]
    split_ifs <;> first | rfl | omega
  by_cases h4 : s = 4
  · subst h4
    simp only [Nat.reduceEqDiff, false_and, true_and, if_false, if_true]
  by_cases h5 : s = 5
  · subst h5
    simp only [Nat.reduceEqDiff, false_and, true_and, if_false, if_true]
    split_ifs <;> rfl
  by_cases h6 : s = 6
  · subst h6
    simp only [Nat.reduceEqDiff, false_and, true_and, if_false, if_true]
  simp [h0, h2, h3, h4, h5, h6]

/-! ## Scans of the automata other than the string automaton -/

theorem walk_append (a : Automaton) : ∀ (u v : List Char) (s : State),
    a.walk s (u ++ v) = (a.walk s u).bind (fun t => a.walk t v) := by
  intro u
  induction u with
  | nil => intro v s; rfl
  | cons c cs ih =>
    intro v s
    simp only [List.cons_append, Automaton.walk]
    cases a.find s c with
    | none => rfl
    | some t => exact ih v t

/-- Without the closing-quote rule the loop of `runAutomaton` is a maximal walk: if the
automaton can walk `w` and cannot leave the state it reaches on what follows, the loop
consumes exactly `w`. -/
theorem scanLoop_walk (a : Automaton) (t : Char) : ∀ (w r : List Char) (fuel : Nat)
    (st st' : State) (lexeme : List Char) (lx : Lexer), lx.rest = w ++ r →
    a.walk st w = some st' → (r = [] ∨ ∃ c cs, r = c :: cs ∧ a.find st' c = none) →
    lx.rest.length < fuel →
    scanLoop a false t fuel st lexeme lx = some (st', lexeme ++ w, lx.advance w) := by
  intro w
  induction w with
  | nil =>
    intro r fuel st st' lexeme lx hr hw hstop hf
    obtain ⟨k, rfl⟩ : ∃ k, fuel = k + 1 := ⟨fuel - 1, by omega⟩
    simp only [Automaton.walk, Option.some.injEq] at hw
    subst hw
    rw [scanLoop_succ]
    rcases hstop with h | ⟨c, cs, h, h'⟩
    · subst h
      rw [if_pos ((isEOF_iff_rest lx).mpr (by simpa using hr))]
      simp [Lexer.advance]
    · subst h
      have hr' : lx.rest = c :: cs := by simpa using hr
      have heof : lx.isEOF = false := (isEOF_false_iff lx).mpr ⟨c, cs, hr'⟩
      have hpk : lx.peekChar 0 = c := by rw [peekChar_eq, hr']; rfl
      simp [heof, hpk, h', Lexer.advance]
  | cons d ds ih =>
    intro r fuel st st' lexeme lx hr hw hstop hf
    obtain ⟨k, rfl⟩ : ∃ k, fuel = k + 1 := ⟨fuel - 1, by omega⟩
    have hr' : lx.rest = d :: (ds ++ r) := by simpa using hr
    have heof : lx.isEOF = false := (isEOF_false_iff lx).mpr ⟨d, ds ++ r, hr'⟩
    have hpk : lx.peekChar 0 = d := by rw [peekChar_eq, hr']; rfl
    have hrest : (lx.advance [d]).rest = ds ++ r := advance_rest (w := [d]) (by simpa using hr')
    simp only [Automaton.walk] at hw
    rw [scanLoop_succ, heof, hpk, readChar_of_rest hr']
    cases hf' : a.find st d with
    | none => rw [hf'] at hw; cases hw
    | some target =>
      rw [hf'] at hw
      simp only at hw ⊢
      rw [if_neg (by simp), if_neg (by simp)]
      rw [ih r k target st' (lexeme ++ [d]) (lx.advance [d]) hrest hw hstop
        (by rw [hrest]; rw [hr'] at hf; simp at hf ⊢; omega)]
      rw [advance_cons lx d ds]
      simp

/-- The scan of an automaton other than the string automaton, as a maximal walk. -/
theorem scan_of_walk {id : AutomatonId} {lx : Lexer} {w r : List Char} {st : State}
    (hid : id ≠ .string) (hr : lx.rest = w ++ r)
    (hw : (lx.automaton id).walk (lx.automaton id).startState w = some st)
    (hstop : r = [] ∨ ∃ c cs, r = c :: cs ∧ (lx.automaton id).find st c = none) :
    lx.scan id = some (st, w, lx.advance w) := by
  unfold Lexer.scan
  dsimp only
  have hb : decide (id = AutomatonId.string) = false := by simp [hid]
  rw [hb]
  have := scanLoop_walk (lx.automaton id)
    (if id = AutomatonId.string ∧ (lx.peekChar 0 = '"' ∨ lx.peekChar 0 = '\'') then
      lx.peekChar 0 else '\x00') w r (lx.remaining + 1) (lx.automaton id).startState st [] lx
    hr hw hstop (by rw [remaining_eq_rest]; omega)
  simpa using this


/-! ## The four exits determine the result -/

theorem getNextToken_of_skip {lx lx1 : Lexer}
    (hs : lx.traced.skipWhitespaceAndComments = some lx1) :
    lx.getNextToken =
      if lx1.isEOF then some lx1.eofToken
      else
        match lx1.dispatch with
        | some id => lx1.runAutomaton Lexer.getNextToken id
        | none => some lx1.unknownToken := by
  obtain ⟨w, r, -, h2, h3⟩ := getNextTokenBody_eq lx
  rw [hs] at h2
  cases h2
  rw [getNextToken_eq, h3]

/-- The relation `Lexes` describes `getNextToken` exactly. -/
theorem lexes_sound {lx : Lexer} {res : Token × Lexer} (h : Lexes lx res) :
    lx.getNextToken = some res := by
  induction h with
  | eof hs hnil =>
    rw [getNextToken_of_skip hs, if_pos ((isEOF_iff_rest _).mpr hnil)]
  | @unknown lx lx1 hs hne hd =>
    have heof : ¬ lx1.isEOF = true := fun h => hne ((isEOF_iff_rest _).mp h)
    rw [getNextToken_of_skip hs, if_neg heof, hd]
  | @accept lx lx1 id st w r hs hne hd hsc hr hw hst hacc =>
    have heof : ¬ lx1.isEOF = true := fun h => hne ((isEOF_iff_rest _).mp h)
    rw [getNextToken_of_skip hs, if_neg heof, hd]
    simp only
    rw [runAutomaton_of_scan hsc, if_pos hacc]
  | @reject lx lx1 id st w r res hs hne hd hsc hr hw hst hacc hrec ih =>
    have heof : ¬ lx1.isEOF = true := fun h => hne ((isEOF_iff_rest _).mp h)
    rw [getNextToken_of_skip hs, if_neg heof, hd]
    simp only
    rw [runAutomaton_of_scan hsc, if_neg hacc]
    exact ih

/-- The token of a scan that a maximal walk of an automaton other than the string automaton
accepts. -/
theorem getNextToken_of_walk {lx lx1 : Lexer} {id : AutomatonId} {w r : List Char} {st : State}
    (hs : lx.traced.skipWhitespaceAndComments = some lx1) (hne : lx1.rest ≠ [])
    (hd : lx1.dispatch = some id) (hid : id ≠ .string) (hr : lx1.rest = w ++ r)
    (hw : (lx1.automaton id).walk (lx1.automaton id).startState w = some st)
    (hstop : r = [] ∨ ∃ c cs, r = c :: cs ∧ (lx1.automaton id).find st c = none)
    (hacc : st ∈ (lx1.automaton id).acceptingStates) :
    lx.getNextToken = some ({ type := determineTokenType w id, lexeme := w, line := lx1.line,
                              column := lx1.column }, lx1.advance w) := by
  have heof : ¬ lx1.isEOF = true := fun h => hne ((isEOF_iff_rest _).mp h)
  rw [getNextToken_of_skip hs, if_neg heof, hd]
  simp only
  rw [runAutomaton_of_scan (scan_of_walk hid hr hw hstop), if_pos hacc]


/-! ## Numerals and the ellipsis -/

theorem walk_cons (a : Automaton) (s : State) (c : Char) (cs : List Char) :
    a.walk s (c :: cs) = (a.find s c).bind (fun t => a.walk t cs) := by
  simp only [Automaton.walk]
  cases a.find s c <;> rfl

theorem number_walk_digits : ∀ (ds : List Char) (s : Nat), ds ≠ [] →
    (∀ c ∈ ds, isdigit c = true) → s ≤ 6 →
    numberAutomaton.walk s ds =
      some (if s = 0 ∨ s = 1 then 1 else if s = 2 ∨ s = 3 then 3 else 6) := by
  intro ds
  induction ds with
  | nil => intro s h; exact absurd rfl h
  | cons c cs ih =>
    intro s _ hd hs
    have hc : isdigit c = true := hd c (by simp)
    have hf : numberAutomaton.find s c =
        some (if s = 0 ∨ s = 1 then 1 else if s = 2 ∨ s = 3 then 3 else 6) := by
      rw [numberAutomaton_find]
      unfold numberTable
      rw [if_pos hc]
      have h456 : s = 0 ∨ s = 1 ∨ s = 2 ∨ s = 3 ∨ s = 4 ∨ s = 5 ∨ s = 6 := by omega
      rcases h456 with h | h | h | h | h | h | h <;> subst h <;> simp
    rw [walk_cons, hf, Option.some_bind]
    by_cases hcs : cs = []
    · subst hcs; rfl
    · rw [ih _ hcs (fun c' hc' => hd c' (by simp [hc'])) (by split_ifs <;> omega)]
      have h456 : s = 0 ∨ s = 1 ∨ s = 2 ∨ s = 3 ∨ s = 4 ∨ s = 5 ∨ s = 6 := by omega
      rcases h456 with h | h | h | h | h | h | h <;> subst h <;> simp

theorem number_walk_mantissa {m : List Char} (h : IsMantissa m) :
    numberAutomaton.walk 0 m = some 1 ∨ numberAutomaton.walk 0 m = some 3 := by
  rcases h with h | ⟨i, f, rfl, hi, hf⟩ | ⟨f, rfl, hf⟩
  · left
    rw [number_walk_digits m 0 h.1 h.2 (by omega)]; rfl
  · right
    rw [walk_append, number_walk_digits i 0 hi.1 hi.2 (by omega)]
    simp only [Option.some_bind, true_or, ↓reduceIte, zero_ne_one, false_or]
    have h1 : numberAutomaton.find 1 '.' = some 2 := by
      rw [numberAutomaton_find]; decide
    rw [walk_cons, h1, Option.some_bind, number_walk_digits f 2 hf.1 hf.2 (by omega)]
    rfl
  · right
    have h1 : numberAutomaton.find 0 '.' = some 2 := by
      rw [numberAutomaton_find]; decide
    rw [walk_cons, h1, Option.some_bind, number_walk_digits f 2 hf.1 hf.2 (by omega)]
    rfl

theorem number_walk_exponent {e : List Char} (h : IsExponent e) (s : Nat)
    (hs : s = 1 ∨ s = 3) : numberAutomaton.walk s e = some 6 := by
  obtain ⟨letter, sign, ds, rfl, hl, hsg, hd⟩ := h
  have h1 : numberAutomaton.find s letter = some 4 := by
    rw [numberAutomaton_find]
    rcases hs with rfl | rfl <;> rcases hl with rfl | rfl <;> decide
  rw [walk_cons, h1, Option.some_bind]
  rcases hsg with rfl | rfl | rfl
  · rw [List.nil_append, number_walk_digits ds 4 hd.1 hd.2 (by omega)]; rfl
  · have h2 : numberAutomaton.find 4 '+' = some 5 := by
      rw [numberAutomaton_find]; decide
    rw [List.singleton_append, walk_cons, h2, Option.some_bind,
      number_walk_digits ds 5 hd.1 hd.2 (by omega)]
    rfl
  · have h2 : numberAutomaton.find 4 '-' = some 5 := by
      rw [numberAutomaton_find]; decide
    rw [List.singleton_append, walk_cons, h2, Option.some_bind,
      number_walk_digits ds 5 hd.1 hd.2 (by omega)]
    rfl

/-- The number automaton walks a complete numeral into one of its accepting states. -/
theorem number_walk_numeral {s : List Char} (h : IsNumeral s) :
    ∃ st, numberAutomaton.walk 0 s = some st ∧ (st = 1 ∨ st = 3 ∨ st = 6) := by
  obtain ⟨m, e, rfl, hm, he⟩ := h
  rw [walk_append]
  rcases he with rfl | he
  · rcases number_walk_mantissa hm with h | h <;> rw [h]
    · exact ⟨1, rfl, Or.inl rfl⟩
    · exact ⟨3, rfl, Or.inr (Or.inl rfl)⟩
  · rcases number_walk_mantissa hm with h | h <;> rw [h, Option.some_bind]
    · exact ⟨6, number_walk_exponent he 1 (Or.inl rfl), Or.inr (Or.inr rfl)⟩
    · exact ⟨6, number_walk_exponent he 3 (Or.inr rfl), Or.inr (Or.inr rfl)⟩

theorem number_find_space (s : State) {c : Char} (h : isspace c = true) :
    numberAutomaton.find s c = none := by
  rw [numberAutomaton_find]
  unfold numberTable isdigit
  unfold isspace at h
  simp only [char_eq_iff_toNat c]
  have e1 : ('.' : Char).toNat = 46 := rfl
  have e2 : ('e' : Char).toNat = 101 := rfl
  have e3 : ('E' : Char).toNat = 69 := rfl
  have e4 : ('+' : Char).toNat = 43 := rfl
  have e5 : ('-' : Char).toNat = 45 := rfl
  rw [e1, e2, e3, e4, e5]
  simp only [Bool.or_eq_true, Bool.and_eq_true, decide_eq_true_eq] at h
  have a0 : ¬ (48 ≤ c.toNat ∧ c.toNat ≤ 57) := by omega
  have a1 : c.toNat ≠ 46 := by omega
  have a2 : c.toNat ≠ 101 := by omega
  have a3 : c.toNat ≠ 69 := by omega
  have a4 : c.toNat ≠ 43 := by omega
  have a5 : c.toNat ≠ 45 := by omega
  simp [a0, a1, a2, a3, a4, a5]

/-- The first character of a numeral sends `getNextToken` to the number automaton. -/
theorem dispatch_numeral {lx : Lexer} {s r : List Char} (h : IsNumeral s)
    (hr : lx.rest = s ++ r) : lx.dispatch = some .number := by
  have key : ∀ d ds, lx.rest = d :: ds →
      (isdigit d = true ∨ (d = '.' ∧ ∃ d' ds', ds = d' :: ds' ∧ isdigit d' = true)) →
      lx.dispatch = some .number := by
    intro d ds hrest hd
    have hpk : lx.peekChar 0 = d := by rw [peekChar_eq, hrest]; rfl
    unfold Lexer.dispatch
    simp only [hpk]
    have hnid : isIdentifierStart d = false := by
      rcases hd with hd | ⟨rfl, -⟩
      · unfold isdigit at hd
        unfold isIdentifierStart isalpha
        simp only [Bool.and_eq_true, decide_eq_true_eq] at hd
        have : d ≠ '_' := by
          intro h; rw [h] at hd; revert hd; decide
        simp only [Bool.or_eq_false_iff, Bool.and_eq_false_iff, decide_eq_false_iff_not]
        exact ⟨⟨by omega, by omega⟩, by simpa using this⟩
      · decide
    rw [hnid]
    simp only [Bool.false_eq_true, ↓reduceIte]
    rw [if_pos]
    rcases hd with hd | ⟨rfl, d', ds', rfl, hd'⟩
    · exact Or.inl hd
    · right
      refine ⟨rfl, ?_⟩
      have : lx.peekChar 1 = d' := by rw [peekChar_eq, hrest]; rfl
      rw [this]; exact hd'
  obtain ⟨m, e, rfl, hm, -⟩ := h
  have hfirst : ∀ {ds : List Char}, IsDigits ds → ∃ d ds', ds = d :: ds' ∧ isdigit d = true := by
    intro ds hds
    cases ds with
    | nil => exact absurd rfl hds.1
    | cons d ds' => exact ⟨d, ds', rfl, hds.2 d (by simp)⟩
  rcases hm with hm | ⟨i, f, rfl, hi, hf⟩ | ⟨f, rfl, hf⟩
  · obtain ⟨d, ds', rfl, hd⟩ := hfirst hm
    exact key d _ (by simpa using hr) (Or.inl hd)
  · obtain ⟨d, ds', rfl, hd⟩ := hfirst hi
    exact key d _ (by simpa using hr) (Or.inl hd)
  · obtain ⟨d, ds', rfl, hd⟩ := hfirst hf
    exact key '.' (d :: (ds' ++ (e ++ r))) (by simpa using hr) (Or.inr ⟨rfl, d, _, rfl, hd⟩)

theorem dispatch_ellipsis {lx : Lexer} {cs : List Char}
    (hr : lx.rest = '.' :: '.' :: '.' :: cs) : lx.dispatch = some .separator := by
  have h0 : lx.peekChar 0 = '.' := by rw [peekChar_eq, hr]; rfl
  have h1 : lx.peekChar 1 = '.' := by rw [peekChar_eq, hr]; rfl
  have h2 : lx.peekChar 2 = '.' := by rw [peekChar_eq, hr]; rfl
  unfold Lexer.dispatch
  dsimp only
  rw [h0, h1, h2]
  rw [if_neg (by decide), if_neg (by decide), if_neg (by decide), if_pos ⟨rfl, rfl, rfl⟩]


/-! ## The operator automaton is a trie of the operator set -/

theorem row_eq_find (a : Automaton) (s : State) (c : Char) : a.row s c = a.find s c := by
  unfold Automaton.row Automaton.find
  cases a.transitions s <;> rfl

theorem find_touch (a : Automaton) (s s' : State) (c : Char) :
    (a.touch s).find s' c = a.find s' c := by
  unfold Automaton.touch Automaton.find Automaton.row
  by_cases h : s' = s
  · subst h
    simp only [↓reduceIte]
    cases a.transitions s' <;> rfl
  · simp only [h, ↓reduceIte]

theorem walk_congr {a b : Automaton} (h : ∀ s c, b.find s c = a.find s c) :
    ∀ (w : List Char) (s : State), b.walk s w = a.walk s w := by
  intro w
  induction w with
  | nil => intro s; rfl
  | cons c cs ih =>
    intro s
    rw [walk_cons, walk_cons, h]
    cases a.find s c with
    | none => rfl
    | some t => exact ih t

theorem walk_snoc (a : Automaton) (s : State) (u : List Char) (c : Char) :
    a.walk s (u ++ [c]) = (a.walk s u).bind (fun t => a.find t c) := by
  rw [walk_append]
  cases a.walk s u with
  | none => rfl
  | some t =>
    simp only [Option.some_bind, walk_cons]
    cases a.find t c <;> rfl

/-- The first step of the inner loop of `populateOperatorTransitions` when the transition
exists already. -/
theorem insertOperatorChar_old {a : Automaton} {next : Nat} {cur : Nat} {ch : Char} {t : Nat}
    (h : a.find cur ch = some t) :
    insertOperatorChar (a, next, cur) ch = (a.touch cur, next, t) := by
  unfold insertOperatorChar
  have h1 : (a.touch cur).row cur ch = some t := by rw [row_eq_find, find_touch, h]
  simp [h1]

/-- The first step of the inner loop of `populateOperatorTransitions` when the transition
is new. -/
theorem insertOperatorChar_new {a : Automaton} {next : Nat} {cur : Nat} {ch : Char}
    (h : a.find cur ch = none) :
    insertOperatorChar (a, next, cur) ch =
      ((a.touch cur).assign cur ch next, next + 1, next) := by
  unfold insertOperatorChar
  have h1 : (a.touch cur).row cur ch = none := by rw [row_eq_find, find_touch, h]
  have h2 : ((a.touch cur).assign cur ch next).row cur ch = some next := by
    rw [row_eq_find, find_assign]; simp
  simp [h1, h2]

theorem TrieInv.walk_le {a : Automaton} {next : Nat} {cur : Nat} {L : List (List Char)}
    {p : List Char} (inv : TrieInv a next cur L p) :
    ∀ (w : List Char) (s t : Nat), a.walk s w = some t → s ≤ t ∧ (w ≠ [] → s < t) := by
  intro w
  induction w with
  | nil =>
    intro s t h
    simp only [Automaton.walk, Option.some.injEq] at h
    subst h
    exact ⟨Nat.le_refl _, fun h' => absurd rfl h'⟩
  | cons c cs ih =>
    intro s t h
    rw [walk_cons] at h
    cases hf : a.find s c with
    | none => rw [hf] at h; cases h
    | some u =>
      rw [hf, Option.some_bind] at h
      have h1 := inv.edge s c u hf
      have h2 := ih u t h
      exact ⟨by omega, fun _ => by omega⟩

theorem TrieInv.walk_lt_next {a : Automaton} {next : Nat} {cur : Nat} {L : List (List Char)}
    {p : List Char} (inv : TrieInv a next cur L p) (w : List Char) (t : Nat)
    (h : a.walk 0 w = some t) : t < next := by
  induction w using List.reverseRecOn generalizing t with
  | nil =>
    simp only [Automaton.walk, Option.some.injEq] at h
    subst h
    exact inv.pos
  | append_singleton u c _ =>
    rw [walk_snoc] at h
    cases hu : a.walk 0 u with
    | none => rw [hu] at h; cases h
    | some s =>
      rw [hu, Option.some_bind] at h
      exact (inv.edge s c t h).2

/-- In a trie two different words never lead to the same state. -/
theorem TrieInv.walk_inj {a : Automaton} {next : Nat} {cur : Nat} {L : List (List Char)}
    {p : List Char} (inv : TrieInv a next cur L p) :
    ∀ (w w' : List Char) (st : Nat), a.walk 0 w = some st → a.walk 0 w' = some st → w = w' := by
  intro w
  induction w using List.reverseRecOn with
  | nil =>
    intro w' st h h'
    simp only [Automaton.walk, Option.some.injEq] at h
    subst h
    by_contra hne
    have := (inv.walk_le w' 0 0 h').2 (fun e => hne e.symm)
    omega
  | append_singleton u c ih =>
    intro w' st h h'
    have hpos : 0 < st := (inv.walk_le _ 0 st h).2 (by simp)
    rw [walk_snoc] at h
    cases hu : a.walk 0 u with
    | none => rw [hu] at h; cases h
    | some s =>
      rw [hu, Option.some_bind] at h
      rcases List.eq_nil_or_concat w' with rfl | ⟨u', c', rfl⟩
      · simp only [Automaton.walk, Option.some.injEq] at h'
        subst h'
        omega
      · rw [List.concat_eq_append, walk_snoc] at h'
        cases hu' : a.walk 0 u' with
        | none => rw [hu'] at h'; cases h'
        | some s' =>
          rw [hu', Option.some_bind] at h'
          obtain ⟨hs, hc⟩ := inv.inj s c s' c' st h h'
          subst hs; subst hc
          rw [ih u' s hu hu', List.concat_eq_append]

theorem prefix_snoc_iff {w p : List Char} {c : Char} :
    w <+: p ++ [c] ↔ w <+: p ∨ w = p ++ [c] := by
  constructor
  · intro h
    rcases List.prefix_concat_iff.mp (by simpa using h) with h1 | h1
    · exact Or.inr (by simpa using h1)
    · exact Or.inl h1
  · rintro (h | h)
    · exact h.trans (List.prefix_append p [c])
    · rw [h]

/-- The trie invariant after a step of the inner loop along an existing transition. -/
theorem TrieInv.step_old {a : Automaton} {next : Nat} {cur : Nat} {L : List (List Char)}
    {p : List Char} (inv : TrieInv a next cur L p) {ch : Char} {t : Nat}
    (h : a.find cur ch = some t) : TrieInv (a.touch cur) next t L (p ++ [ch]) := by
  have hf : ∀ s c, (a.touch cur).find s c = a.find s c := fun s c => find_touch a cur s c
  have hw : ∀ w s, (a.touch cur).walk s w = a.walk s w := walk_congr hf
  have here : a.walk 0 (p ++ [ch]) = some t := by
    rw [walk_snoc, inv.here, Option.some_bind, h]
  refine ⟨inv.start, inv.pos, ?_, ?_, inv.acc, ?_, ?_, ?_⟩
  · intro s c t' h'; rw [hf] at h'; exact inv.edge s c t' h'
  · intro s c s' c' t' h1 h2; rw [hf] at h1 h2; exact inv.inj s c s' c' t' h1 h2
  · rw [hw]; exact here
  · intro w
    rw [hw, inv.paths w, prefix_snoc_iff]
    constructor
    · rintro (h1 | h1)
      · exact Or.inl h1
      · exact Or.inr (Or.inl h1)
    · rintro (h1 | h1 | h1)
      · exact Or.inl h1
      · exact Or.inr h1
      · have : (a.walk 0 w).isSome = true := by rw [h1, here]; rfl
        exact (inv.paths w).mp this
  · intro w st h'; rw [hw] at h'; exact inv.final w st h'

/-- The trie invariant after a step of the inner loop that allocates a state. -/
theorem TrieInv.step_new {a : Automaton} {next : Nat} {cur : Nat} {L : List (List Char)}
    {p : List Char} (inv : TrieInv a next cur L p) {ch : Char}
    (h : a.find cur ch = none) :
    TrieInv ((a.touch cur).assign cur ch next) (next + 1) next L (p ++ [ch]) := by
  have hf : ∀ s c, ((a.touch cur).assign cur ch next).find s c =
      if s = cur ∧ c = ch then some next else a.find s c := by
    intro s c; rw [find_assign, find_touch]
  have hcur : cur < next := inv.walk_lt_next p cur inv.here
  have hold : ∀ s c t, a.find s c = some t →
      ((a.touch cur).assign cur ch next).find s c = some t := by
    intro s c t h1
    rw [hf, if_neg]
    · exact h1
    · rintro ⟨rfl, rfl⟩; rw [h] at h1; cases h1
  have hext : ∀ (w : List Char) (s t : Nat), a.walk s w = some t →
      ((a.touch cur).assign cur ch next).walk s w = some t := by
    intro w
    induction w with
    | nil => intro s t h1; exact h1
    | cons c cs ih =>
      intro s t h1
      rw [walk_cons] at h1 ⊢
      cases hsc : a.find s c with
      | none => rw [hsc] at h1; cases h1
      | some u =>
        rw [hsc, Option.some_bind] at h1
        rw [hold s c u hsc, Option.some_bind]
        exact ih u t h1
  have hnone : ∀ c, a.find next c = none := by
    intro c
    cases hn : a.find next c with
    | none => rfl
    | some t => have := inv.edge next c t hn; omega
  have hcls : ∀ (w : List Char) (t : Nat),
      ((a.touch cur).assign cur ch next).walk 0 w = some t →
      a.walk 0 w = some t ∨ (w = p ++ [ch] ∧ t = next) := by
    intro w
    induction w using List.reverseRecOn with
    | nil => intro t h1; exact Or.inl h1
    | append_singleton u c ih =>
      intro t h1
      rw [walk_snoc] at h1
      cases hu : ((a.touch cur).assign cur ch next).walk 0 u with
      | none => rw [hu] at h1; cases h1
      | some s =>
        rw [hu, Option.some_bind, hf] at h1
        rcases ih s hu with h2 | ⟨-, h2⟩
        · by_cases hsc : s = cur ∧ c = ch
          · rw [if_pos hsc] at h1
            obtain ⟨rfl, rfl⟩ := hsc
            cases h1
            exact Or.inr ⟨by rw [inv.walk_inj u p s h2 inv.here], rfl⟩
          · rw [if_neg hsc] at h1
            left
            rw [walk_snoc, h2, Option.some_bind, h1]
        · subst h2
          rw [if_neg (by rintro ⟨h3, -⟩; exact absurd h3 (Nat.ne_of_gt hcur)), hnone] at h1
          cases h1
  have here : ((a.touch cur).assign cur ch next).walk 0 (p ++ [ch]) = some next := by
    rw [walk_snoc, hext p 0 cur inv.here, Option.some_bind, hf, if_pos ⟨rfl, rfl⟩]
  have hnew : a.walk 0 (p ++ [ch]) = none := by
    rw [walk_snoc, inv.here, Option.some_bind, h]
  refine ⟨inv.start, by omega, ?_, ?_, ?_, here, ?_, ?_⟩
  · intro s c t h1
    rw [hf] at h1
    by_cases hsc : s = cur ∧ c = ch
    · rw [if_pos hsc] at h1
      cases h1
      exact ⟨by rw [hsc.1]; exact hcur, by omega⟩
    · rw [if_neg hsc] at h1
      have := inv.edge s c t h1
      exact ⟨this.1, by omega⟩
  · intro s c s' c' t h1 h2
    rw [hf] at h1 h2
    by_cases hsc : s = cur ∧ c = ch
    · rw [if_pos hsc] at h1
      cases h1
      by_cases hsc' : s' = cur ∧ c' = ch
      · exact ⟨hsc.1.trans hsc'.1.symm, hsc.2.trans hsc'.2.symm⟩
      · rw [if_neg hsc'] at h2
        have := inv.edge s' c' _ h2
        omega
    · rw [if_neg hsc] at h1
      by_cases hsc' : s' = cur ∧ c' = ch
      · rw [if_pos hsc'] at h2
        cases h2
        have := inv.edge s c _ h1
        omega
      · rw [if_neg hsc'] at h2
        exact inv.inj s c s' c' t h1 h2
  · intro s hs
    have := inv.acc s hs
    exact Nat.lt_succ_of_lt this
  · intro w
    rw [prefix_snoc_iff]
    constructor
    · intro h1
      obtain ⟨t, ht⟩ := Option.isSome_iff_exists.mp h1
      rcases hcls w t ht with h2 | ⟨h2, -⟩
      · have : (a.walk 0 w).isSome = true := by rw [h2]; rfl
        rcases (inv.paths w).mp this with h3 | h3
        · exact Or.inl h3
        · exact Or.inr (Or.inl h3)
      · exact Or.inr (Or.inr h2)
    · intro h1
      have hold' : (∃ op ∈ L, w <+: op) ∨ w <+: p →
          (((a.touch cur).assign cur ch next).walk 0 w).isSome = true := by
        intro h2
        obtain ⟨t, ht⟩ := Option.isSome_iff_exists.mp ((inv.paths w).mpr h2)
        rw [hext w 0 t ht]; rfl
      rcases h1 with h1 | h1 | h1
      · exact hold' (Or.inl h1)
      · exact hold' (Or.inr h1)
      · rw [h1, here]; rfl
  · intro w st h1
    rcases hcls w st h1 with h2 | ⟨h2, h3⟩
    · exact inv.final w st h2
    · subst h2; subst h3
      constructor
      · intro h4
        have := inv.acc _ h4
        omega
      · intro h4
        have h5 : (a.walk 0 (p ++ [ch])).isSome = true :=
          (inv.paths _).mpr (Or.inl ⟨_, h4, List.prefix_rfl⟩)
        rw [hnew] at h5
        cases h5

theorem TrieInv.step {a : Automaton} {next : Nat} {cur : Nat} {L : List (List Char)}
    {p : List Char} (inv : TrieInv a next cur L p) (ch : Char) :
    TrieInv (insertOperatorChar (a, next, cur) ch).1 (insertOperatorChar (a, next, cur) ch).2.1
      (insertOperatorChar (a, next, cur) ch).2.2 L (p ++ [ch]) := by
  cases h : a.find cur ch with
  | none => rw [insertOperatorChar_new h]; exact inv.step_new h
  | some t => rw [insertOperatorChar_old h]; exact inv.step_old h

/-- The inner loop of `populateOperatorTransitions` keeps the trie invariant. -/
theorem TrieInv.inner {L : List (List Char)} : ∀ (op p : List Char) (acc : Automaton × Nat × State),
    TrieInv acc.1 acc.2.1 acc.2.2 L p →
    TrieInv (op.foldl insertOperatorChar acc).1 (op.foldl insertOperatorChar acc).2.1
      (op.foldl insertOperatorChar acc).2.2 L (p ++ op) := by
  intro op
  induction op with
  | nil => intro p acc inv; simpa using inv
  | cons ch cs ih =>
    intro p acc inv
    obtain ⟨a, next, cur⟩ := acc
    simp only [List.foldl_cons]
    have := ih (p ++ [ch]) _ (inv.step ch)
    simpa using this

/-- One iteration of the outer loop of `populateOperatorTransitions` keeps the trie
invariant and adds the operator to the accepted words. -/
theorem TrieInv.insert {a : Automaton} {next : Nat} {L : List (List Char)}
    (inv : TrieInv a next 0 L []) (op : List Char) :
    TrieInv (insertOperator (a, next) op).1 (insertOperator (a, next) op).2 0 (op :: L) [] := by
  have h0 : TrieInv (a, next, a.startState).1 (a, next, a.startState).2.1
      (a, next, a.startState).2.2 L [] := by
    rw [inv.start]; exact inv
  have inv' := TrieInv.inner op [] (a, next, a.startState) h0
  rw [List.nil_append] at inv'
  unfold insertOperator
  dsimp only
  generalize op.foldl insertOperatorChar (a, next, a.startState) = res at inv' ⊢
  obtain ⟨a', next', cur⟩ := res
  simp only at inv' ⊢
  have hf : ∀ s c, ({ a' with acceptingStates := cur :: a'.acceptingStates } : Automaton).find s c =
      a'.find s c := fun _ _ => rfl
  have hw := walk_congr hf
  refine ⟨inv'.start, inv'.pos, inv'.edge, inv'.inj, ?_, rfl, ?_, ?_⟩
  · intro s hs
    rcases List.mem_cons.mp hs with h | h
    · rw [h]; exact inv'.walk_lt_next op cur inv'.here
    · exact inv'.acc s h
  · intro w
    rw [hw, inv'.paths w]
    constructor
    · rintro (⟨o, ho, hp⟩ | hp)
      · exact Or.inl ⟨o, List.mem_cons_of_mem _ ho, hp⟩
      · exact Or.inl ⟨op, List.mem_cons_self _ _, hp⟩
    · rintro (⟨o, ho, hp⟩ | hp)
      · rcases List.mem_cons.mp ho with h | h
        · exact Or.inr (h ▸ hp)
        · exact Or.inl ⟨o, h, hp⟩
      · rw [List.prefix_nil.mp hp]
        exact Or.inr List.nil_prefix
  · intro w st h
    rw [hw] at h
    show st ∈ cur :: a'.acceptingStates ↔ w ∈ op :: L
    rw [List.mem_cons, List.mem_cons, inv'.final w st h]
    constructor
    · rintro (h1 | h1)
      · left; subst h1; exact inv'.walk_inj w op st h inv'.here
      · exact Or.inr h1
    · rintro (h1 | h1)
      · left; subst h1
        have := inv'.here
        rw [h] at this
        exact Option.some.inj this
      · exact Or.inr h1

theorem TrieInv.outer : ∀ (order : List (List Char)) (acc : Automaton × Nat) (L : List (List Char)),
    TrieInv acc.1 acc.2 0 L [] →
    TrieInv (order.foldl insertOperator acc).1 (order.foldl insertOperator acc).2 0
      (order.reverse ++ L) [] := by
  intro order
  induction order with
  | nil => intro acc L inv; simpa using inv
  | cons op ops ih =>
    intro acc L inv
    obtain ⟨a, next⟩ := acc
    simp only [List.foldl_cons, List.reverse_cons, List.append_assoc, List.singleton_append]
    exact ih _ (op :: L) (inv.insert op)

theorem TrieInv.init : TrieInv { Automaton.empty 0 [] with startState := 0 } 1 0 [] [] := by
  have hw : ∀ (w : List Char), w ≠ [] →
      ({ Automaton.empty 0 [] with startState := 0 } : Automaton).walk 0 w = none := by
    intro w hne
    cases w with
    | nil => exact absurd rfl hne
    | cons c cs => rfl
  refine ⟨rfl, by omega, ?_, ?_, ?_, rfl, ?_, ?_⟩
  · intro s c t h; cases h
  · intro s c s' c' t h; cases h
  · intro s hs; cases hs
  · intro w
    by_cases hne : w = []
    · subst hne; simp [Automaton.walk]
    · rw [hw w hne]
      simp [hne]
  · intro w st h
    by_cases hne : w = []
    · subst hne; simp [Automaton.empty]
    · rw [hw w hne] at h; cases h

/-- The operator automaton built from any iteration order is a trie of the operators in it. -/
theorem operatorAutomaton_trie (order : List (List Char)) :
    ∃ next, TrieInv (operatorAutomaton order) next 0 order.reverse [] := by
  have := TrieInv.outer order ({ Automaton.empty 0 [] with startState := 0 }, 1) []
    TrieInv.init
  rw [List.append_nil] at this
  exact ⟨_, this⟩

theorem operatorAutomaton_startState (order : List (List Char)) :
    (operatorAutomaton order).startState = 0 := by
  obtain ⟨_, inv⟩ := operatorAutomaton_trie order
  exact inv.start

/-- The paths of the operator automaton from its start state are the prefixes of the
operators it was built from. -/
theorem operatorAutomaton_walk (order : List (List Char)) (w : List Char) :
    ((operatorAutomaton order).walk 0 w).isSome = true ↔ w = [] ∨ ∃ op ∈ order, w <+: op := by
  obtain ⟨_, inv⟩ := operatorAutomaton_trie order
  rw [inv.paths w]
  constructor
  · rintro (⟨o, ho, hp⟩ | hp)
    · exact Or.inr ⟨o, List.mem_reverse.mp ho, hp⟩
    · exact Or.inl (List.prefix_nil.mp hp)
  · rintro (h | ⟨o, ho, hp⟩)
    · exact Or.inr (h ▸ List.prefix_rfl)
    · exact Or.inl ⟨o, List.mem_reverse.mpr ho, hp⟩

/-- The operator automaton accepts exactly the operators it was built from. -/
theorem operatorAutomaton_accepts (order : List (List Char)) (w : List Char) (st : Nat)
    (h : (operatorAutomaton order).walk 0 w = some st) :
    st ∈ (operatorAutomaton order).acceptingStates ↔ w ∈ order := by
  obtain ⟨_, inv⟩ := operatorAutomaton_trie order
  rw [inv.final w st h, List.mem_reverse]


/-! ## Scans of the operator automaton -/

theorem operatorTable_prefix_closed :
    ∀ op ∈ operatorTable, ∀ w ∈ op.inits, w ≠ [] → w ∈ operatorTable := by
  decide

theorem operatorTable_nonempty : ∀ op ∈ operatorTable, op ≠ [] := by
  decide

theorem operatorTable_no_space : ∀ op ∈ operatorTable, ∀ ch ∈ op, isspace ch = false := by
  decide

theorem operatorTable_head : ∀ op ∈ operatorTable, ∀ ch ∈ op.head?,
    isIdentifierStart ch = false ∧ isDigit ch = false ∧ ch ≠ '"' ∧ ch ≠ '\'' := by
  decide

theorem operatorTable_dot : ∀ op ∈ operatorTable, op.head? = some '.' →
    op = ['.'] ∨ op = ['.', '*'] := by
  decide

theorem isOperatorStart_iff (lx : Lexer) (c : Char) :
    lx.isOperatorStart c =
      ((lx.automaton .operator).find (lx.automaton .operator).startState c).isSome := by
  unfold Lexer.isOperatorStart Automaton.find
  dsimp only
  cases (lx.automaton .operator).transitions (lx.automaton .operator).startState <;> rfl

theorem skip_eq_advance {lx lx1 : Lexer} (hs : lx.traced.skipWhitespaceAndComments = some lx1) :
    ∃ w r, lx.rest = w ++ r ∧ lx1 = lx.traced.advance w ∧ lx1.rest = r := by
  obtain ⟨w, r, h1, h2⟩ := skipWhitespaceAndComments_spec lx.traced
  rw [hs] at h2
  cases h2
  exact ⟨w, r, h1, rfl, advance_rest h1⟩

/-- For an iteration order of the operator set, the words the operator automaton can walk
from its start state are the empty word and the operators of the table. -/
theorem operator_walk_iff {order : List (List Char)} (ho : IterationOrder order)
    (w : List Char) (hne : w ≠ []) :
    ((operatorAutomaton order).walk 0 w).isSome = true ↔ w ∈ operatorTable := by
  rw [operatorAutomaton_walk]
  constructor
  · rintro (h | ⟨op, hop, hp⟩)
    · exact absurd h hne
    · exact operatorTable_prefix_closed op ((ho.2 op).mp hop) w ((List.mem_inits _ _).mpr hp) hne
  · intro h
    exact Or.inr ⟨w, (ho.2 w).mpr h, List.prefix_rfl⟩

theorem isOperatorStart_of_table {lx : Lexer} (ho : IterationOrder lx.operators) {c : Char}
    (hop : ∃ op ∈ operatorTable, op.head? = some c) : lx.isOperatorStart c = true := by
  obtain ⟨op, hmem, hhead⟩ := hop
  have hc : [c] ∈ operatorTable := by
    cases op with
    | nil => cases hhead
    | cons d ds =>
      simp only [List.head?_cons, Option.some.injEq] at hhead
      subst hhead
      exact operatorTable_prefix_closed _ hmem [d]
        ((List.mem_inits _ _).mpr (by simp)) (by simp)
  have h1 := (operator_walk_iff ho [c] (by simp)).mpr hc
  rw [isOperatorStart_iff]
  show ((operatorAutomaton lx.operators).find (operatorAutomaton lx.operators).startState c).isSome
    = true
  rw [operatorAutomaton_startState]
  rw [walk_cons] at h1
  cases hf : (operatorAutomaton lx.operators).find 0 c with
  | none => rw [hf] at h1; cases h1
  | some t => rfl

/-- The `if` chain of `getNextToken` hands a character that starts an operator to the
operator automaton, unless the number rule or the ellipsis rule takes it first. -/
theorem dispatch_operator_of_table {lx : Lexer} (ho : IterationOrder lx.operators) {c : Char}
    {cs : List Char} (hr : lx.rest = c :: cs)
    (hop : ∃ op ∈ operatorTable, op.head? = some c)
    (hnum : ¬ (c = '.' ∧ ∃ d ds, cs = d :: ds ∧ isdigit d = true))
    (hell : ¬ (c = '.' ∧ ∃ ds, cs = '.' :: '.' :: ds)) :
    lx.dispatch = some .operator := by
  have hstart := isOperatorStart_of_table ho hop
  obtain ⟨op, hmem, hhead⟩ := hop
  obtain ⟨h1, h2, h3, h4⟩ := operatorTable_head op hmem c (by simp [hhead])
  have hpk : lx.peekChar 0 = c := by rw [peekChar_eq, hr]; rfl
  have hpk1 : lx.peekChar 1 = cs.getD 0 '\x00' := by
    rw [peekChar_eq, hr]; cases cs <;> rfl
  have hpk2 : lx.peekChar 2 = cs.getD 1 '\x00' := by
    rw [peekChar_eq, hr]
    cases cs with
    | nil => rfl
    | cons d ds => cases ds <;> rfl
  unfold Lexer.dispatch
  dsimp only
  rw [hpk, hpk1, hpk2, h1, h2]
  rw [if_neg (by simp), if_neg, if_neg (by simp [h3, h4]), if_neg, if_pos hstart]
  · rintro ⟨hc, hd1, hd2⟩
    apply hell
    refine ⟨hc, ?_⟩
    cases cs with
    | nil => exact absurd hd1 (by decide)
    | cons d ds =>
      cases ds with
      | nil => exact absurd (show ('\x00' : Char) = '.' from hd2) (by decide)
      | cons e es =>
        simp only [List.getD_cons_zero, List.getD_cons_succ] at hd1 hd2
        exact ⟨es, by rw [hd1, hd2]⟩
  · rintro (h | ⟨hc, hd⟩)
    · simp at h
    · apply hnum
      refine ⟨hc, ?_⟩
      cases cs with
      | nil => exact absurd hd (by decide)
      | cons d ds => exact ⟨d, ds, rfl, hd⟩

/-- The scan of the operator automaton at a character that starts an operator consumes the
longest prefix of the input that is an operator of the table, and ends in an accepting
state. -/
theorem operator_scan {lx : Lexer} (ho : IterationOrder lx.operators) {c : Char}
    {cs : List Char} (hr : lx.rest = c :: cs)
    (hop : ∃ op ∈ operatorTable, op.head? = some c) :
    ∃ st w r, lx.scan .operator = some (st, w, lx.advance w) ∧ lx.rest = w ++ r ∧
      st ∈ (lx.automaton .operator).acceptingStates ∧ w ∈ operatorTable ∧
      ∀ v ∈ operatorTable, v <+: lx.rest → v.length ≤ w.length := by
  obtain ⟨st, w, r, h1, h2, h3, h4⟩ := scan_spec .operator lx
  have hstart := isOperatorStart_of_table ho hop
  rw [isOperatorStart_iff] at hstart
  have hA : lx.automaton .operator = operatorAutomaton lx.operators := rfl
  rw [hA] at h3 h4 hstart
  rw [operatorAutomaton_startState] at h3 hstart
  have hstring : (decide (AutomatonId.operator = AutomatonId.string)) = false := by decide
  rw [hstring] at h4
  have hstop : r = [] ∨ ∃ d ds, r = d :: ds ∧ (operatorAutomaton lx.operators).find st d = none := by
    rcases h4 with h | h | ⟨h, -⟩
    · exact Or.inl h
    · exact Or.inr h
    · cases h
  have hw : w ≠ [] := by
    intro hnil
    subst hnil
    simp only [Automaton.walk, Option.some.injEq] at h3
    subst h3
    rcases hstop with h | ⟨d, ds, h, h'⟩
    · subst h; rw [hr] at h2; cases h2
    · subst h
      rw [hr] at h2
      simp only [List.nil_append, List.cons.injEq] at h2
      rw [h2.1, h'] at hstart
      cases hstart
  have hwalk : ((operatorAutomaton lx.operators).walk 0 w).isSome = true := by rw [h3]; rfl
  have hmem : w ∈ operatorTable := (operator_walk_iff ho w hw).mp hwalk
  refine ⟨st, w, r, h1, h2, ?_, hmem, ?_⟩
  · rw [hA]
    exact (operatorAutomaton_accepts lx.operators w st h3).mpr ((ho.2 w).mpr hmem)
  · intro v hv hpre
    by_contra hlt
    have hlt' : w.length < v.length := by omega
    rw [h2] at hpre
    have hwv : w <+: v := List.prefix_of_prefix_length_le (List.prefix_append w r) hpre (by omega)
    obtain ⟨u, rfl⟩ := hwv
    have hu : u <+: r := (List.prefix_append_right_inj w).mp hpre
    cases u with
    | nil => simp at hlt'
    | cons d u' =>
      obtain ⟨r', hr'⟩ := hu
      have hwd : ((operatorAutomaton lx.operators).walk 0 (w ++ [d])).isSome = true := by
        rw [operatorAutomaton_walk]
        exact Or.inr ⟨w ++ d :: u', (ho.2 _).mpr hv, ⟨u', by simp⟩⟩
      rw [walk_snoc, h3, Option.some_bind] at hwd
      rcases hstop with h | ⟨d', ds', h, h'⟩
      · rw [h] at hr'; cases hr'
      · rw [h] at hr'
        simp only [List.cons_append, List.cons.injEq] at hr'
        rw [hr'.1, h'] at hwd
        cases hwd


/-! ## What a call consumes -/

theorem triviaSpan_eq {lx : Lexer} {w r : List Char} (hr : lx.rest = w ++ r)
    (hs : lx.traced.skipWhitespaceAndComments = some (lx.traced.advance w)) :
    lx.triviaSpan = w := by
  unfold Lexer.triviaSpan
  rw [hs]
  simp only [advance_currentPosition]
  have : lx.traced.currentPosition = lx.currentPosition := rfl
  rw [this, Nat.add_sub_cancel_left, hr, List.take_left']
  rfl

theorem isRejection_invalid (line column : Nat) (w : List Char) :
    isRejection (StderrLine.error line column ("Invalid token: ".toList ++ w)) = true := by
  simp only [isRejection]
  exact List.isPrefixOf_iff_prefix.mpr (List.prefix_append _ _)

/-- A call of `getNextToken` only appends to `std::cerr`, and when it appends no report of a
rejected scan, the input it consumes is the trivia span skipped at its start followed by
the lexeme it returns. -/
theorem lexes_lossless {lx : Lexer} {res : Token × Lexer} (h : Lexes lx res) :
    ∃ extra, res.2.stderr = lx.stderr ++ extra ∧
      ((∀ l ∈ extra, isRejection l = false) →
        lx.rest = lx.triviaSpan ++ res.1.lexeme ++ res.2.rest) := by
  induction h with
  | @eof lx lx1 hs hnil =>
    obtain ⟨w, r, h1, h2, h3⟩ := skip_eq_advance hs
    subst h2
    refine ⟨[StderrLine.trace lx.sourceBuffer.length], by simp [Lexer.eofToken, Lexer.traced],
      fun _ => ?_⟩
    rw [triviaSpan_eq h1 hs]
    simp only [Lexer.eofToken, List.append_nil]
    rw [hnil, List.append_nil, h1]
    rw [hnil] at h3
    rw [← h3, List.append_nil]
  | @unknown lx lx1 hs hne hd =>
    obtain ⟨w, r, h1, h2, h3⟩ := skip_eq_advance hs
    subst h2
    obtain ⟨c, cs, hr⟩ : ∃ c cs, r = c :: cs := by
      cases r with
      | nil => exact absurd h3 hne
      | cons c cs => exact ⟨c, cs, rfl⟩
    subst hr
    have hpk : (lx.traced.advance w).peekChar 0 = c := by rw [peekChar_eq, h3]; rfl
    refine ⟨[StderrLine.trace lx.sourceBuffer.length,
      StderrLine.error (lx.traced.advance w).line (lx.traced.advance w).column
        "Unrecognized character".toList],
      by simp [Lexer.unknownToken, Lexer.reportError, Lexer.traced], fun _ => ?_⟩
    rw [triviaSpan_eq h1 hs]
    simp only [Lexer.unknownToken, hpk]
    have h4 : (((lx.traced.advance w).reportError "Unrecognized character".toList).advance
        [c]).rest = cs := advance_rest (w := [c]) (by simpa using h3)
    rw [h4, h1]
    simp
  | @accept lx lx1 id st w' r' hs hne hd hsc hr hw hst hacc =>
    obtain ⟨w, r, h1, h2, h3⟩ := skip_eq_advance hs
    subst h2
    refine ⟨[StderrLine.trace lx.sourceBuffer.length], by simp [Lexer.traced], fun _ => ?_⟩
    rw [triviaSpan_eq h1 hs]
    simp only
    rw [advance_rest hr, h1, ← h3, hr, List.append_assoc]
  | @reject lx lx1 id st w' r' res hs hne hd hsc hr hw hst hacc hrec ih =>
    obtain ⟨w, r, h1, h2, h3⟩ := skip_eq_advance hs
    subst h2
    obtain ⟨extra, h4, -⟩ := ih
    refine ⟨[StderrLine.trace lx.sourceBuffer.length,
      StderrLine.error ((lx.traced.advance w).advance w').line
        ((lx.traced.advance w).advance w').column ("Invalid token: ".toList ++ w')] ++ extra,
      ?_, fun hno => ?_⟩
    · rw [h4]
      simp [Lexer.rewound, Lexer.reportError, Lexer.traced]
    · have := hno (StderrLine.error ((lx.traced.advance w).advance w').line
        ((lx.traced.advance w).advance w').column ("Invalid token: ".toList ++ w')) (by simp)
      rw [isRejection_invalid] at this
      cases this

/-- The reconstruction of a session returns, and it returns the unread input when no scan
was rejected. -/
theorem reconstruct_spec : ∀ (n : Nat) (lx : Lexer), lx.rest.length ≤ n →
    ∃ text final extra, reconstruct (n + 1) lx = some (text, final) ∧
      final.stderr = lx.stderr ++ extra ∧
      ((∀ l ∈ extra, isRejection l = false) → text = lx.rest) := by
  intro n
  induction n with
  | zero =>
    intro lx hn
    obtain ⟨res, h1, h2⟩ := getNextToken_spec lx
    obtain ⟨extra, h3, h4⟩ := lexes_lossless h2
    have ht : res.1.type = TokenType.EndOfFile := by
      by_contra hne
      have := (lexes_progress h2).2.2.2 hne
      omega
    refine ⟨lx.triviaSpan ++ res.1.lexeme, res.2, extra, ?_, h3, fun hno => ?_⟩
    · simp only [reconstruct, h1, ht, ↓reduceIte]
    · rw [h4 hno, (lexes_eof h2 ht).1, List.append_nil]
  | succ n ih =>
    intro lx hn
    obtain ⟨res, h1, h2⟩ := getNextToken_spec lx
    obtain ⟨extra, h3, h4⟩ := lexes_lossless h2
    by_cases ht : res.1.type = TokenType.EndOfFile
    · refine ⟨lx.triviaSpan ++ res.1.lexeme, res.2, extra, ?_, h3, fun hno => ?_⟩
      · rw [reconstruct, h1]
        simp only [ht, ↓reduceIte]
      · rw [h4 hno, (lexes_eof h2 ht).1, List.append_nil]
    · have hlt := (lexes_progress h2).2.2.2 ht
      obtain ⟨text, final, extra', h5, h6, h7⟩ := ih res.2 (by omega)
      refine ⟨lx.triviaSpan ++ res.1.lexeme ++ text, final, extra ++ extra', ?_, ?_,
        fun hno => ?_⟩
      · rw [reconstruct, h1]
        simp only [ht, ↓reduceIte, h5]
      · rw [h6, h3, List.append_assoc]
      · rw [h7 (fun l hl => hno l (List.mem_append_right _ hl)),
          h4 (fun l hl => hno l (List.mem_append_left _ hl))]


/-! ## Transition tables of the identifier and string automata -/

theorem identifierAutomaton_find (s : State) (c : Char) :
    identifierAutomaton.find s c = identifierTable s c := by
  have hb1 : ∀ (ch : Char) (a : Automaton) (s' : State) (c' : Char),
      ((a.assign 0 ch 1).assign 1 ch 1).find s' c' =
        if c' = ch ∧ (fun _ => true) ch = true ∧
            (if s' = 0 ∨ s' = 1 then some 1 else none : Option State).isSome then
          (if s' = 0 ∨ s' = 1 then some 1 else none)
        else a.find s' c' := by
    intro ch a s' c'
    simp only [find_assign]
    by_cases hc : c' = ch
    · by_cases h0 : s' = 0 <;> by_cases h1 : s' = 1 <;> simp [hc, h0, h1]
    · simp [hc]
  have hb2 : ∀ (ch : Char) (a : Automaton) (s' : State) (c' : Char),
      (a.assign 1 ch 1).find s' c' =
        if c' = ch ∧ (fun _ => true) ch = true ∧
            (if s' = 1 then some 1 else none : Option State).isSome then
          (if s' = 1 then some 1 else none)
        else a.find s' c' := by
    intro ch a s' c'
    simp only [find_assign]
    by_cases hc : c' = ch <;> by_cases h1 : s' = 1 <;> simp [hc, h1]
  unfold identifierAutomaton populateIdentifierTransitions
  dsimp only
  rw [find_forChars 48 57 _ _ _ hb2 (by decide)]
  simp only [find_assign]
  rw [find_forChars 97 122 _ _ _ hb1 (by decide), find_forChars 65 90 _ _ _ hb1 (by decide),
    find_empty]
  unfold identifierTable isalpha isdigit
  simp only [char_eq_iff_toNat c, Bool.and_eq_true, Bool.or_eq_true, decide_eq_true_eq]
  have e1 : ('_' : Char).toNat = 95 := rfl
  rw [e1]
  generalize c.toNat = n
  clear hb1 hb2 e1
  by_cases h0 : s = 0
  · subst h0
    by_cases hU : 65 ≤ n ∧ n ≤ 90
    · have : n ≠ 95 := by omega
      have : ¬ (48 ≤ n ∧ n ≤ 57) := by omega
      simp [hU, *]
    · by_cases hL : 97 ≤ n ∧ n ≤ 122
      · have : n ≠ 95 := by omega
        simp [hL, *]
      · by_cases h95 : n = 95
        · subst h95; simp
        · have hU' : ∀ X : Prop, ¬ (65 ≤ n ∧ n ≤ 90 ∧ X) := fun X h => hU ⟨h.1, h.2.1⟩
          have hL' : ∀ X : Prop, ¬ (97 ≤ n ∧ n ≤ 122 ∧ X) := fun X h => hL ⟨h.1, h.2.1⟩
          simp [hU, hL, hU', hL', h95]
  · by_cases h1 : s = 1
    · subst h1
      by_cases hD : 48 ≤ n ∧ n ≤ 57
      · simp [hD]
      · have hD' : ∀ X : Prop, ¬ (48 ≤ n ∧ n ≤ 57 ∧ X) := fun X h => hD ⟨h.1, h.2.1⟩
        by_cases hU : 65 ≤ n ∧ n ≤ 90
        · have : n ≠ 95 := by omega
          simp [hU, hD, hD', *]
        · have hU' : ∀ X : Prop, ¬ (65 ≤ n ∧ n ≤ 90 ∧ X) := fun X h => hU ⟨h.1, h.2.1⟩
          by_cases hL : 97 ≤ n ∧ n ≤ 122
          · have : n ≠ 95 := by omega
            simp [hL, hU, hU', hD, hD', *]
          · have hL' : ∀ X : Prop, ¬ (97 ≤ n ∧ n ≤ 122 ∧ X) := fun X h => hL ⟨h.1, h.2.1⟩
            by_cases h95 : n = 95
            · subst h95; simp
            · simp [hU, hL, hD, hU', hL', hD', h95]
    · have hs : ∀ X : Prop, ¬ (s = 1 ∧ X) := fun X h => h1 h.1
      have hs0 : ∀ X : Prop, ¬ (s = 0 ∧ X) := fun X h => h0 h.1
      simp [h0, h1, hs, hs0]


theorem stringAutomaton_find (s : State) (c : Char) :
    stringAutomaton.find s c = stringTable s c := by
  have hb1 : ∀ (ch : Char) (a : Automaton) (s' : State) (c' : Char),
      (if ch ≠ '"' ∧ ch ≠ '\'' ∧ ch ≠ '\\' then a.assign 1 ch 1 else a).find s' c' =
        if c' = ch ∧ (fun x : Char => decide (x ≠ '"' ∧ x ≠ '\'' ∧ x ≠ '\\')) ch = true ∧
            (if s' = 1 then some 1 else none : Option State).isSome then
          (if s' = 1 then some 1 else none)
        else a.find s' c' := by
    intro ch a s' c'
    by_cases hp : ch ≠ '"' ∧ ch ≠ '\'' ∧ ch ≠ '\\'
    · rw [if_pos hp]
      simp only [find_assign]
      by_cases hc : c' = ch <;> by_cases h1 : s' = 1 <;> simp [hc, h1, hp]
    · rw [if_neg hp]
      have : ¬ (c' = ch ∧ (fun x : Char => decide (x ≠ '"' ∧ x ≠ '\'' ∧ x ≠ '\\')) ch = true ∧
            (if s' = 1 then some 1 else none : Option State).isSome) := by
        intro h
        exact hp (of_decide_eq_true h.2.1)
      rw [if_neg this]
  have hb2 : ∀ (ch : Char) (a : Automaton) (s' : State) (c' : Char),
      (a.assign 3 ch 1).find s' c' =
        if c' = ch ∧ (fun _ => true) ch = true ∧
            (if s' = 3 then some 1 else none : Option State).isSome then
          (if s' = 3 then some 1 else none)
        else a.find s' c' := by
    intro ch a s' c'
    simp only [find_assign]
    by_cases hc : c' = ch <;> by_cases h1 : s' = 3 <;> simp [hc, h1]
  unfold stringAutomaton populateStringTransitions
  dsimp only
  simp only [find_assign]
  rw [find_forChars 0 127 _ _ _ hb2 (by decide)]
  simp only [find_assign]
  rw [find_forChars 32 126 _ _ _ hb1 (by decide)]
  simp only [find_assign]
  rw [find_empty]
  unfold stringTable
  clear hb1 hb2
  by_cases h0 : s = 0
  · subst h0
    by_cases hq : c = '"'
    · subst hq; rfl
    · by_cases hq' : c = '\''
      · subst hq'; rfl
      · by_cases hb : c = '\\'
        · subst hb; rfl
        · simp [hq, hq', hb]
  · by_cases h1 : s = 1
    · subst h1
      by_cases hq : c = '"'
      · subst hq; rfl
      · by_cases hq' : c = '\''
        · subst hq'; rfl
        · by_cases hb : c = '\\'
          · subst hb; rfl
          · simp [hq, hq', hb]
    · by_cases h3 : s = 3
      · subst h3
        by_cases hq : c = '"'
        · subst hq; rfl
        · by_cases hq' : c = '\''
          · subst hq'; rfl
          · by_cases hb : c = '\\'
            · subst hb; rfl
            · simp [hq, hq', hb]
      · simp [h0, h1, h3]


/-! ## The scan of a string literal -/

/-- One iteration of the loop of `runAutomaton` that takes a transition and goes on. -/
theorem scanLoop_step {a : Automaton} {b : Bool} {t : Char} {fuel : Nat} {st target : State}
    {lexeme : List Char} {lx : Lexer} {c : Char} {cs : List Char} (hr : lx.rest = c :: cs)
    (hf : a.find st c = some target) (hq : ¬ (b = true ∧ c = t ∧ target = 2)) :
    scanLoop a b t (fuel + 1) st lexeme lx =
      scanLoop a b t fuel target (lexeme ++ [c]) (lx.advance [c]) := by
  have heof : lx.isEOF = false := (isEOF_false_iff lx).mpr ⟨c, cs, hr⟩
  have hpk : lx.peekChar 0 = c := by rw [peekChar_eq, hr]; rfl
  rw [scanLoop_succ, heof, hpk, readChar_of_rest hr, hf]
  simp only [Bool.false_eq_true, if_false]
  rw [if_neg hq]

/-- The iteration of the loop of `runAutomaton` that reads the closing quote. -/
theorem scanLoop_break {a : Automaton} {t : Char} {fuel : Nat} {st : State}
    {lexeme : List Char} {lx : Lexer} {cs : List Char} (hr : lx.rest = t :: cs)
    (hf : a.find st t = some 2) :
    scanLoop a true t (fuel + 1) st lexeme lx = some (2, lexeme ++ [t], lx.advance [t]) := by
  have heof : lx.isEOF = false := (isEOF_false_iff lx).mpr ⟨t, cs, hr⟩
  have hpk : lx.peekChar 0 = t := by rw [peekChar_eq, hr]; rfl
  rw [scanLoop_succ, heof, hpk, readChar_of_rest hr, hf]
  simp

theorem string_scanLoop (q : Char) (hq : q = '"' ∨ q = '\'') : ∀ (n : Nat) (b : List Char),
    b.length ≤ n → isStringBody b = true → ∀ (fuel : Nat) (lexeme r : List Char) (lx : Lexer),
    lx.rest = b ++ q :: r → b.length < fuel →
    scanLoop stringAutomaton true q fuel 1 lexeme lx =
      some (2, lexeme ++ b ++ [q], lx.advance (b ++ [q])) := by
  have hplain : ∀ c : Char, 32 ≤ c.toNat ∧ c.toNat ≤ 126 ∧ c ≠ '"' ∧ c ≠ '\'' ∧ c ≠ '\\' →
      stringAutomaton.find 1 c = some 1 := by
    intro c ⟨h1, h2, h3, h4, h5⟩
    rw [stringAutomaton_find]
    simp [stringTable, h1, h2, h3, h4, h5]
  intro n
  induction n with
  | zero =>
    intro b hb _ fuel lexeme r lx hr hf
    obtain rfl : b = [] := List.eq_nil_of_length_eq_zero (by omega)
    obtain ⟨k, rfl⟩ : ∃ k, fuel = k + 1 := ⟨fuel - 1, by omega⟩
    rw [scanLoop_break (by simpa using hr)]
    · simp
    · rw [stringAutomaton_find]
      rcases hq with rfl | rfl <;> rfl
  | succ n ih =>
    intro b hb hbody fuel lexeme r lx hr hf
    obtain ⟨k, rfl⟩ : ∃ k, fuel = k + 1 := ⟨fuel - 1, by omega⟩
    match b, hb, hbody, hr, hf with
    | [], _, _, hr, _ =>
      rw [scanLoop_break (by simpa using hr)]
      · simp
      · rw [stringAutomaton_find]
        rcases hq with rfl | rfl <;> rfl
    | [c], _, hbody, hr, hf =>
      simp only [isStringBody, decide_eq_true_eq] at hbody
      have hr' : lx.rest = c :: (q :: r) := by simpa using hr
      obtain ⟨k', rfl⟩ : ∃ k', k = k' + 1 := ⟨k - 1, by simp at hf; omega⟩
      rw [scanLoop_step hr' (hplain c hbody) (by simp)]
      rw [scanLoop_break (advance_rest (w := [c]) hr')]
      · rw [advance_append lx [c] [q]]
      · rw [stringAutomaton_find]
        rcases hq with rfl | rfl <;> rfl
    | c :: e :: b', hb, hbody, hr, hf =>
      have hr' : lx.rest = c :: (e :: (b' ++ q :: r)) := by simpa using hr
      have hlen : (c :: e :: b').length = b'.length + 2 := rfl
      rw [hlen] at hb hf
      by_cases hc : c = '\\'
      · subst hc
        simp only [isStringBody, if_true, Bool.and_eq_true, decide_eq_true_eq] at hbody
        obtain ⟨k', rfl⟩ : ∃ k', k = k' + 2 := ⟨k - 2, by omega⟩
        have h1 : stringAutomaton.find 1 '\\' = some 3 := by rw [stringAutomaton_find]; rfl
        have h3 : stringAutomaton.find 3 e = some 1 := by
          rw [stringAutomaton_find]; simp [stringTable, hbody.1]
        rw [scanLoop_step hr' h1 (by simp)]
        have hr2 : (lx.advance ['\\']).rest = e :: (b' ++ q :: r) :=
          advance_rest (w := ['\\']) hr'
        rw [scanLoop_step hr2 h3 (by simp)]
        have hr3 : ((lx.advance ['\\']).advance [e]).rest = b' ++ q :: r :=
          advance_rest (w := [e]) hr2
        rw [ih b' (by omega) hbody.2 (k' + 1) _ r _ hr3 (by omega)]
        have e1 : ((lx.advance ['\\']).advance [e]).advance (b' ++ [q]) =
            lx.advance (('\\' :: e :: b') ++ [q]) := by
          rw [← advance_append, ← advance_append]; rfl
        rw [e1]
        simp
      · simp only [isStringBody, if_neg hc, Bool.and_eq_true, decide_eq_true_eq] at hbody
        rw [scanLoop_step hr' (hplain c ⟨hbody.1.1, hbody.1.2.1, hbody.1.2.2.1, hbody.1.2.2.2, hc⟩)
          (by simp)]
        have hr2 : (lx.advance [c]).rest = (e :: b') ++ q :: r :=
          advance_rest (w := [c]) hr'
        rw [ih (e :: b') (by simp; omega) hbody.2 k _ r _ hr2 (by simp; omega)]
        have e1 : (lx.advance [c]).advance ((e :: b') ++ [q]) =
            lx.advance ((c :: e :: b') ++ [q]) := by
          rw [← advance_append]; rfl
        rw [e1]
        simp

/-- The scan of the string automaton over a well-formed literal `q b q` consumes exactly the
literal and ends in the accepting state. -/
theorem string_scan {lx : Lexer} {q : Char} {b r : List Char} (hq : q = '"' ∨ q = '\'')
    (hb : isStringBody b = true) (hr : lx.rest = q :: (b ++ q :: r)) :
    lx.scan .string = some (2, q :: (b ++ [q]), lx.advance (q :: (b ++ [q]))) := by
  have hpk : lx.peekChar 0 = q := by rw [peekChar_eq, hr]; rfl
  have hrem : lx.remaining + 1 = (b.length + 2) + r.length + 1 := by
    rw [remaining_eq_rest, hr]; simp; omega
  unfold Lexer.scan
  simp only [hpk, hrem]
  have ht : (if True ∧ (q = '"' ∨ q = '\'') then q else '\x00') = q := if_pos ⟨trivial, hq⟩
  rw [ht]
  show scanLoop stringAutomaton true q _ stringAutomaton.startState [] lx = _
  rw [stringAutomaton_shape.1]
  have h0 : stringAutomaton.find 0 q = some 1 := by
    rw [stringAutomaton_find]
    rcases hq with rfl | rfl <;> rfl
  rw [show b.length + 2 + r.length + 1 = (b.length + 2 + r.length) + 1 from rfl,
    scanLoop_step hr h0 (by simp)]
  rw [string_scanLoop q hq b.length b (le_refl _) hb _ _ r _ (advance_rest (w := [q]) hr)
    (by omega)]
  rw [advance_cons lx q (b ++ [q])]
  simp

/-- A quote character sends `getNextToken` to the string automaton. -/
theorem dispatch_quote {lx : Lexer} {q : Char} {cs : List Char} (hq : q = '"' ∨ q = '\'')
    (hr : lx.rest = q :: cs) : lx.dispatch = some .string := by
  have h0 : lx.peekChar 0 = q := by rw [peekChar_eq, hr]; rfl
  unfold Lexer.dispatch
  dsimp only
  rw [h0]
  rcases hq with rfl | rfl
  · rw [if_neg (by decide), if_neg (by rintro (h | ⟨h, -⟩) <;> revert h <;> decide),
      if_pos (Or.inl rfl)]
  · rw [if_neg (by decide), if_neg (by rintro (h | ⟨h, -⟩) <;> revert h <;> decide),
      if_pos (Or.inr rfl)]


/-! ## Where the skipping of trivia stops -/

theorem beginsWithTrivia_append {w : List Char} (r : List Char)
    (h : beginsWithTrivia w = true) : beginsWithTrivia (w ++ r) = true := by
  cases w with
  | nil => cases h
  | cons c w' =>
    cases w' with
    | nil =>
      simp only [beginsWithTrivia, List.head?_nil, Bool.or_eq_true, Bool.and_eq_true,
        beq_iff_eq] at h
      rcases h with h | ⟨-, h | h⟩
      · simp [beginsWithTrivia, h]
      · cases h
      · cases h
    | cons d w'' => exact h

/-- The loop of `skipWhitespaceAndComments` only stops in front of something that is not
trivia. -/
theorem skipLoop_stops : ∀ (fuel : Nat) (lx lx1 : Lexer), skipLoop fuel lx = some lx1 →
    beginsWithTrivia lx1.rest = false := by
  intro fuel
  induction fuel with
  | zero => intro lx lx1 h; simp [skipLoop] at h
  | succ fuel ih =>
    intro lx lx1 h
    cases hr : lx.rest with
    | nil =>
      simp only [skipLoop, (isEOF_iff_rest lx).mpr hr, if_true, Option.some.injEq] at h
      subst h
      rw [hr]; rfl
    | cons c cs =>
      have heof : lx.isEOF = false := (isEOF_false_iff lx).mpr ⟨c, cs, hr⟩
      have hpk : lx.peekChar 0 = c := by rw [peekChar_eq, hr]; rfl
      have hnx : lx.sourceBuffer.getD (lx.currentPosition + 1) '\x00' = cs.getD 0 '\x00' := by
        rw [getD_buffer_eq, hr]; cases cs <;> rfl
      simp only [skipLoop, heof, hpk, hnx, Bool.false_eq_true, ↓reduceIte] at h
      by_cases hsp : isspace c = true
      · rw [if_pos hsp] at h
        exact ih _ _ h
      · rw [if_neg hsp] at h
        by_cases hsl : c = '/'
        · rw [if_pos hsl] at h
          by_cases hn1 : cs.getD 0 '\x00' = '/'
          · rw [if_pos hn1] at h
            cases h1 : skipLineComment (lx.remaining + 1) lx with
            | none => rw [h1] at h; cases h
            | some lx2 => rw [h1, Option.some_bind] at h; exact ih _ _ h
          · rw [if_neg hn1] at h
            by_cases hn2 : cs.getD 0 '\x00' = '*'
            · rw [if_pos hn2] at h
              cases h1 : skipBlockComment (lx.readChar.2.readChar.2.remaining + 1)
                  lx.readChar.2.readChar.2 with
              | none => rw [h1] at h; cases h
              | some lx2 => rw [h1, Option.some_bind] at h; exact ih _ _ h
            · rw [if_neg hn2] at h
              cases h
              rw [hr]
              cases cs with
              | nil => simp [beginsWithTrivia, hsp]
              | cons d ds =>
                have hd1 : d ≠ '/' := hn1
                have hd2 : d ≠ '*' := hn2
                simp [beginsWithTrivia, hsp, hd1, hd2]
        · rw [if_neg hsl] at h
          cases h
          rw [hr]
          simp [beginsWithTrivia, hsp, hsl]

theorem skipWhitespaceAndComments_stops {lx lx1 : Lexer}
    (h : lx.skipWhitespaceAndComments = some lx1) : beginsWithTrivia lx1.rest = false :=
  skipLoop_stops _ _ _ h

/-- No token that `getNextToken` returns begins with trivia. -/
theorem lexes_no_trivia {lx : Lexer} {res : Token × Lexer} (h : Lexes lx res) :
    beginsWithTrivia res.1.lexeme = false := by
  induction h with
  | eof hs hnil => rfl
  | @unknown lx lx1 hs hne hd =>
    have h1 := skipWhitespaceAndComments_stops hs
    cases hr : lx1.rest with
    | nil => exact absurd hr hne
    | cons c cs =>
      have hpk : lx1.peekChar 0 = c := by rw [peekChar_eq, hr]; rfl
      rw [hr] at h1
      simp only [beginsWithTrivia, Bool.or_eq_false_iff] at h1
      simp [Lexer.unknownToken, hpk, beginsWithTrivia, h1.1]
  | @accept lx lx1 id st w r hs hne hd hsc hr hw hst hacc =>
    have h1 := skipWhitespaceAndComments_stops hs
    rw [hr] at h1
    show beginsWithTrivia w = false
    by_contra h2
    rw [beginsWithTrivia_append r (Bool.eq_true_of_not_eq_false h2)] at h1
    cases h1
  | reject hs hne hd hsc hr hw hst hacc hrec ih => exact ih


/-! ## Identifiers -/

theorem identifier_find_one (c : Char) :
    identifierAutomaton.find 1 c = if isIdentifierChar c then some 1 else none := by
  rw [identifierAutomaton_find]
  simp [identifierTable, isIdentifierChar, or_assoc]

theorem identifier_find_zero (c : Char) :
    identifierAutomaton.find 0 c = if isIdentifierStart c then some 1 else none := by
  rw [identifierAutomaton_find]
  simp [identifierTable, isIdentifierStart]

theorem identifier_walk_one : ∀ cs : List Char,
    identifierAutomaton.walk 1 cs = if cs.all isIdentifierChar then some 1 else none := by
  intro cs
  induction cs with
  | nil => rfl
  | cons c cs ih =>
    rw [walk_cons, identifier_find_one]
    by_cases hc : isIdentifierChar c = true
    · rw [if_pos hc, Option.some_bind, ih]
      simp [hc]
    · rw [if_neg hc]
      simp [hc]

/-- The identifier automaton accepts exactly the strings `[A-Za-z_][A-Za-z0-9_]*`. -/
theorem identifierAutomaton_accepts (s : List Char) :
    (∃ st, identifierAutomaton.walk identifierAutomaton.startState s = some st ∧
      st ∈ identifierAutomaton.acceptingStates) ↔ isIdentifier s = true := by
  rw [identifierAutomaton_shape.1, identifierAutomaton_shape.2]
  cases s with
  | nil =>
    simp [Automaton.walk, isIdentifier]
  | cons c cs =>
    rw [walk_cons, identifier_find_zero]
    have e : isIdentifier (c :: cs) = (isIdentifierStart c && cs.all isIdentifierChar) := rfl
    rw [e]
    by_cases hc : isIdentifierStart c = true
    · rw [if_pos hc, Option.some_bind, identifier_walk_one]
      by_cases ha : cs.all isIdentifierChar = true
      · rw [if_pos ha]; simp [hc, ha]
      · rw [if_neg ha]; simp [ha]
    · rw [if_neg hc]; simp [hc]

/-- A letter or underscore sends `getNextToken` to the identifier automaton. -/
theorem dispatch_identifier {lx : Lexer} {c : Char} {cs : List Char}
    (hc : isIdentifierStart c = true) (hr : lx.rest = c :: cs) :
    lx.dispatch = some .identifier := by
  have h0 : lx.peekChar 0 = c := by rw [peekChar_eq, hr]; rfl
  unfold Lexer.dispatch
  dsimp only
  rw [h0, if_pos hc]

/-- One `readChar` keeps a cursor that shows the true line and column in that state. -/
theorem advance_one_inSync {lx : Lexer} {c : Char} {cs : List Char} (h : lx.inSync)
    (hr : lx.rest = c :: cs) : (lx.advance [c]).inSync := by
  have h1 := rest_cons_getD hr
  have ht : lx.sourceBuffer.take (lx.currentPosition + 1) =
      lx.sourceBuffer.take lx.currentPosition ++ [c] := by
    have hlt : lx.currentPosition < lx.sourceBuffer.length := h1.1
    rw [List.take_succ, List.getElem?_eq_getElem hlt]
    have : lx.sourceBuffer[lx.currentPosition] = c := by
      have h2 := hr
      unfold Lexer.rest at h2
      rw [List.drop_eq_getElem_cons hlt] at h2
      exact (List.cons.inj h2).1
    rw [this]; rfl
  unfold Lexer.inSync at h ⊢
  by_cases hc : c = '\n'
  · subst hc
    simp only [Lexer.advance, if_true, lineAt, columnAt, ht, List.reverse_append,
      List.reverse_cons, List.reverse_nil, List.nil_append, List.singleton_append,
      List.count_append]
    refine ⟨?_, ?_⟩
    · rw [h.1]; simp [lineAt]; omega
    · simp
  · simp only [Lexer.advance, if_neg hc, lineAt, columnAt, ht, List.reverse_append,
      List.reverse_cons, List.reverse_nil, List.nil_append, List.singleton_append,
      List.count_append]
    refine ⟨?_, ?_⟩
    · rw [h.1]; simp [lineAt, List.count_cons, hc]
    · rw [h.2]; simp [columnAt, List.takeWhile_cons, hc]; omega

theorem advance_inSync : ∀ (w : List Char) {lx : Lexer} {r : List Char}, lx.inSync →
    lx.rest = w ++ r → (lx.advance w).inSync := by
  intro w
  induction w with
  | nil => intro lx r h _; exact h
  | cons c w ih =>
    intro lx r h hr
    rw [advance_cons lx c w]
    have hr' : lx.rest = c :: (w ++ r) := by simpa using hr
    exact ih (advance_one_inSync h hr') (advance_rest (w := [c]) hr')

/-- The skipping of trivia keeps the true line and column. -/
theorem skip_inSync {lx lx1 : Lexer} (h : lx.inSync)
    (hs : lx.traced.skipWhitespaceAndComments = some lx1) : lx1.inSync := by
  obtain ⟨w, r, h1, h2⟩ := skipWhitespaceAndComments_spec lx.traced
  rw [hs] at h2
  cases h2
  have ht : lx.traced.inSync := h
  exact advance_inSync w ht h1


/-! ## Single-character separators -/

theorem isSeparatorStart_iff (lx : Lexer) (c : Char) :
    lx.isSeparatorStart c = (separatorAutomaton.find separatorAutomaton.startState c).isSome := by
  unfold Lexer.isSeparatorStart Automaton.find
  dsimp only
  show (match separatorAutomaton.transitions separatorAutomaton.startState with
    | some m => (m c).isSome
    | none => false) = _
  cases separatorAutomaton.transitions separatorAutomaton.startState <;> rfl

theorem separator_chars :
    ∀ c ∈ [';', ',', '(', ')', '\x7b', '\x7d', '[', ']'],
      isIdentifierStart c = false ∧ isDigit c = false ∧ c ≠ '.' ∧ c ≠ '"' ∧ c ≠ '\'' ∧
        [c] ∉ operatorTable ∧ separatorTable 0 c = some 1 := by
  decide

theorem not_isOperatorStart {lx : Lexer} (ho : IterationOrder lx.operators) {c : Char}
    (hc : [c] ∉ operatorTable) : lx.isOperatorStart c = false := by
  rw [isOperatorStart_iff]
  show ((operatorAutomaton lx.operators).find (operatorAutomaton lx.operators).startState c).isSome
    = false
  rw [operatorAutomaton_startState]
  have h := operator_walk_iff ho [c] (by simp)
  rw [walk_cons] at h
  cases hf : (operatorAutomaton lx.operators).find 0 c with
  | none => rfl
  | some t =>
    rw [hf] at h
    exact absurd (h.mp rfl) hc

/-- One of the characters `; , ( ) { } [ ]` sends `getNextToken` to the separator automaton. -/
theorem dispatch_separator_char {lx : Lexer} (ho : IterationOrder lx.operators) {c : Char}
    {cs : List Char} (hr : lx.rest = c :: cs)
    (hc : c ∈ [';', ',', '(', ')', '\x7b', '\x7d', '[', ']']) :
    lx.dispatch = some .separator := by
  obtain ⟨h1, h2, h3, h4, h5, h6, h7⟩ := separator_chars c hc
  have hpk : lx.peekChar 0 = c := by rw [peekChar_eq, hr]; rfl
  have hsep : lx.isSeparatorStart c = true := by
    rw [isSeparatorStart_iff, separatorAutomaton_shape.1, separatorAutomaton_find, h7]; rfl
  unfold Lexer.dispatch
  dsimp only
  rw [hpk, h1, h2, not_isOperatorStart ho h6]
  rw [if_neg (by simp), if_neg (by simp [h3]), if_neg (by simp [h4, h5]), if_neg (by simp [h3]),
    if_neg (by simp), if_pos hsep]


/-! ## The language of the number automaton -/

theorem isDigits_snoc {u : List Char} {c : Char} (h : ∀ x ∈ u, isdigit x = true)
    (hc : isdigit c = true) : IsDigits (u ++ [c]) := by
  refine ⟨by simp, ?_⟩
  intro x hx
  simp only [List.mem_append, List.mem_singleton] at hx
  rcases hx with hx | rfl
  · exact h x hx
  · exact hc

theorem isMantissa_fraction {i f : List Char} (hi : ∀ c ∈ i, isdigit c = true)
    (hf : IsDigits f) : IsMantissa (i ++ '.' :: f) := by
  cases i with
  | nil => exact Or.inr (Or.inr ⟨f, rfl, hf⟩)
  | cons d ds => exact Or.inr (Or.inl ⟨d :: ds, f, rfl, ⟨by simp, hi⟩, hf⟩)

theorem numberPath_step {t st : Nat} {u : List Char} {c : Char} (hp : NumberPath t u)
    (hf : numberTable t c = some st) : NumberPath st (u ++ [c]) := by
  unfold numberTable at hf
  by_cases hd : isdigit c = true
  · rw [if_pos hd] at hf
    rcases hp with ⟨rfl, rfl⟩ | ⟨rfl, h⟩ | ⟨rfl, i, rfl, hi⟩ | ⟨rfl, i, f, rfl, hi, hf'⟩ |
      ⟨rfl, m, l, rfl, hm, hl⟩ | ⟨rfl, m, l, g, rfl, hm, hl, hg⟩ | ⟨rfl, m, e, rfl, hm, he⟩ <;>
      simp only [Nat.reduceEqDiff, or_false, or_true, false_or, true_or, if_true, if_false,
        Option.some.injEq] at hf <;> subst hf
    · exact Or.inr (Or.inl ⟨rfl, isDigits_snoc (fun _ h => by cases h) hd⟩)
    · exact Or.inr (Or.inl ⟨rfl, isDigits_snoc h.2 hd⟩)
    · exact Or.inr (Or.inr (Or.inr (Or.inl
        ⟨rfl, i, [c], by simp, hi, isDigits_snoc (u := []) (fun _ h => by cases h) hd⟩)))
    · exact Or.inr (Or.inr (Or.inr (Or.inl
        ⟨rfl, i, f ++ [c], by simp, hi, isDigits_snoc hf'.2 hd⟩)))
    · exact Or.inr (Or.inr (Or.inr (Or.inr (Or.inr (Or.inr
        ⟨rfl, m, [l, c], by simp, hm, l, [], [c], rfl, hl, Or.inl rfl,
          isDigits_snoc (u := []) (fun _ h => by cases h) hd⟩)))))
    · exact Or.inr (Or.inr (Or.inr (Or.inr (Or.inr (Or.inr
        ⟨rfl, m, [l, g, c], by simp, hm, l, [g], [c], rfl, hl,
          by rcases hg with rfl | rfl <;> simp,
          isDigits_snoc (u := []) (fun _ h => by cases h) hd⟩)))))
    · obtain ⟨letter, sign, ds, rfl, hl, hsg, hds⟩ := he
      exact Or.inr (Or.inr (Or.inr (Or.inr (Or.inr (Or.inr
        ⟨rfl, m, letter :: (sign ++ (ds ++ [c])), by simp, hm, letter, sign, ds ++ [c], rfl, hl,
          hsg, isDigits_snoc hds.2 hd⟩)))))
  · rw [if_neg hd] at hf
    by_cases hdot : c = '.'
    · subst hdot
      rw [if_pos rfl] at hf
      rcases hp with ⟨rfl, rfl⟩ | ⟨rfl, h⟩ | ⟨rfl, i, rfl, hi⟩ | ⟨rfl, i, f, rfl, hi, hf'⟩ |
        ⟨rfl, m, l, rfl, hm, hl⟩ | ⟨rfl, m, l, g, rfl, hm, hl, hg⟩ | ⟨rfl, m, e, rfl, hm, he⟩ <;>
        simp only [Nat.reduceEqDiff, or_false, or_true, false_or, true_or, if_true, if_false,
          Option.some.injEq, reduceCtorEq] at hf <;> subst hf
      · exact Or.inr (Or.inr (Or.inl ⟨rfl, [], rfl, by simp⟩))
      · exact Or.inr (Or.inr (Or.inl ⟨rfl, u, rfl, h.2⟩))
    · rw [if_neg hdot] at hf
      by_cases he : c = 'e' ∨ c = 'E'
      · rw [if_pos he] at hf
        rcases hp with ⟨rfl, rfl⟩ | ⟨rfl, h⟩ | ⟨rfl, i, rfl, hi⟩ | ⟨rfl, i, f, rfl, hi, hf'⟩ |
          ⟨rfl, m, l, rfl, hm, hl⟩ | ⟨rfl, m, l, g, rfl, hm, hl, hg⟩ |
          ⟨rfl, m, e, rfl, hm, he'⟩ <;>
          simp only [Nat.reduceEqDiff, or_false, or_true, false_or, true_or, if_true, if_false,
            Option.some.injEq, reduceCtorEq] at hf <;> subst hf
        · exact Or.inr (Or.inr (Or.inr (Or.inr (Or.inl ⟨rfl, u, c, rfl, Or.inl h, he⟩))))
        · exact Or.inr (Or.inr (Or.inr (Or.inr (Or.inl
            ⟨rfl, i ++ '.' :: f, c, rfl, isMantissa_fraction hi hf', he⟩))))
      · rw [if_neg he] at hf
        by_cases hsg : c = '+' ∨ c = '-'
        · rw [if_pos hsg] at hf
          rcases hp with ⟨rfl, rfl⟩ | ⟨rfl, h⟩ | ⟨rfl, i, rfl, hi⟩ | ⟨rfl, i, f, rfl, hi, hf'⟩ |
            ⟨rfl, m, l, rfl, hm, hl⟩ | ⟨rfl, m, l, g, rfl, hm, hl, hg⟩ |
            ⟨rfl, m, e, rfl, hm, he'⟩ <;>
            simp only [Nat.reduceEqDiff, or_false, or_true, false_or, true_or, if_true, if_false,
              Option.some.injEq, reduceCtorEq] at hf
          subst hf
          exact Or.inr (Or.inr (Or.inr (Or.inr (Or.inr (Or.inl
            ⟨rfl, m, l, c, by simp, hm, hl, hsg⟩)))))
        · rw [if_neg hsg] at hf
          cases hf

/-- Every path of the number automaton from its start state spells a string of the language
of the state it ends in. -/
theorem number_walk_path : ∀ (s : List Char) (st : Nat),
    numberAutomaton.walk 0 s = some st → NumberPath st s := by
  intro s
  induction s using List.reverseRecOn with
  | nil =>
    intro st h
    simp only [Automaton.walk, Option.some.injEq] at h
    exact Or.inl ⟨h.symm, rfl⟩
  | append_singleton u c ih =>
    intro st h
    rw [walk_snoc] at h
    cases hu : numberAutomaton.walk 0 u with
    | none => rw [hu] at h; cases h
    | some t =>
      rw [hu, Option.some_bind, numberAutomaton_find] at h
      exact numberPath_step (ih t hu) h

/-- The number automaton accepts exactly the complete numerals. -/
theorem numberAutomaton_accepts (s : List Char) :
    (∃ st, numberAutomaton.walk numberAutomaton.startState s = some st ∧
      st ∈ numberAutomaton.acceptingStates) ↔ IsNumeral s := by
  rw [numberAutomaton_shape.1, numberAutomaton_shape.2]
  constructor
  · rintro ⟨st, hw, hacc⟩
    have hp := number_walk_path s st hw
    have hst : st = 1 ∨ st = 3 ∨ st = 6 := by simpa using hacc
    rcases hp with ⟨rfl, rfl⟩ | ⟨rfl, h⟩ | ⟨rfl, i, rfl, hi⟩ | ⟨rfl, i, f, rfl, hi, hf'⟩ |
      ⟨rfl, m, l, rfl, hm, hl⟩ | ⟨rfl, m, l, g, rfl, hm, hl, hg⟩ | ⟨rfl, m, e, rfl, hm, he⟩
    · exact absurd hst (by decide)
    · exact ⟨s, [], by simp, Or.inl h, Or.inl rfl⟩
    · exact absurd hst (by decide)
    · exact ⟨i ++ '.' :: f, [], by simp, isMantissa_fraction hi hf', Or.inl rfl⟩
    · exact absurd hst (by decide)
    · exact absurd hst (by decide)
    · exact ⟨m, e, rfl, hm, Or.inr he⟩
  · intro h
    obtain ⟨st, hw, hst⟩ := number_walk_numeral h
    exact ⟨st, hw, by rcases hst with rfl | rfl | rfl <;> decide⟩


/-! ## The language of the operator automaton -/

/-- The operator automaton built from the operators `order` accepts exactly these. -/
theorem operatorAutomaton_language (order : List (List Char)) (s : List Char) :
    (∃ st, (operatorAutomaton order).walk (operatorAutomaton order).startState s = some st ∧
      st ∈ (operatorAutomaton order).acceptingStates) ↔ s ∈ order := by
  rw [operatorAutomaton_startState]
  constructor
  · rintro ⟨st, hw, hacc⟩
    exact (operatorAutomaton_accepts order s st hw).mp hacc
  · intro hs
    have h := (operatorAutomaton_walk order s).mpr (Or.inr ⟨s, hs, List.prefix_refl s⟩)
    cases hw : (operatorAutomaton order).walk 0 s with
    | none => rw [hw] at h; cases h
    | some st => exact ⟨st, rfl, (operatorAutomaton_accepts order s st hw).mpr hs⟩


/-! ## The loops only look at the unread input -/

theorem skipLineComment_rest : ∀ (fuel : Nat) (rs : List Char), rs.length < fuel →
    ∃ w r, rs = w ++ r ∧ (rs ≠ [] → w ≠ []) ∧
      ∀ lx : Lexer, lx.rest = rs → skipLineComment fuel lx = some (lx.advance w) := by
  intro fuel
  induction fuel with
  | zero => intro rs h; omega
  | succ fuel ih =>
    intro rs h
    cases rs with
    | nil =>
      refine ⟨[], [], rfl, fun hne => absurd rfl hne, ?_⟩
      intro lx hr
      simp [skipLineComment, (isEOF_iff_rest lx).mpr hr, Lexer.advance]
    | cons c cs =>
      by_cases hc : c = '\n'
      · refine ⟨[c], cs, rfl, fun _ => by simp, ?_⟩
        intro lx hr
        have heof : lx.isEOF = false := (isEOF_false_iff lx).mpr ⟨c, cs, hr⟩
        simp only [skipLineComment, heof, readChar_of_rest hr]
        simp [hc]
      · obtain ⟨w, r, h1, -, h2⟩ := ih cs (by simpa using h)
        refine ⟨c :: w, r, by simp [h1], fun _ => by simp, ?_⟩
        intro lx hr
        have heof : lx.isEOF = false := (isEOF_false_iff lx).mpr ⟨c, cs, hr⟩
        have hrest : (lx.advance [c]).rest = cs := advance_rest (w := [c]) (by simpa using hr)
        simp only [skipLineComment, heof, readChar_of_rest hr]
        simp only [Bool.false_eq_true, ↓reduceIte, ne_eq, hc, not_false_eq_true]
        rw [h2 _ hrest, advance_cons lx c w]

theorem skipBlockComment_rest : ∀ (fuel : Nat) (rs : List Char), rs.length < fuel →
    ∃ w r, rs = w ++ r ∧
      ∀ lx : Lexer, lx.rest = rs → skipBlockComment fuel lx = some (lx.advance w) := by
  intro fuel
  induction fuel with
  | zero => intro rs h; omega
  | succ fuel ih =>
    intro rs h
    cases rs with
    | nil =>
      refine ⟨[], [], rfl, ?_⟩
      intro lx hr
      simp [skipBlockComment, (isEOF_iff_rest lx).mpr hr, Lexer.advance]
    | cons c cs =>
      have key : ∀ lx : Lexer, lx.rest = c :: cs →
          skipBlockComment (fuel + 1) lx =
            if c = '*' ∧ cs.getD 0 '\x00' = '/' then some (lx.advance [c]).readChar.2
            else skipBlockComment fuel (lx.advance [c]) := by
        intro lx hr
        have heof : lx.isEOF = false := (isEOF_false_iff lx).mpr ⟨c, cs, hr⟩
        have hrest : (lx.advance [c]).rest = cs := advance_rest (w := [c]) (by simpa using hr)
        have hpk : (lx.advance [c]).peekChar 0 = cs.getD 0 '\x00' := by
          rw [peekChar_eq, hrest]
        simp only [skipBlockComment, heof, readChar_of_rest hr, Bool.false_eq_true, ↓reduceIte,
          hpk]
      by_cases hc : c = '*' ∧ cs.getD 0 '\x00' = '/'
      · cases cs with
        | nil => exact absurd hc.2 (by decide)
        | cons d ds =>
          refine ⟨[c, d], ds, by simp, ?_⟩
          intro lx hr
          have hrest : (lx.advance [c]).rest = d :: ds :=
            advance_rest (w := [c]) (by simpa using hr)
          rw [key lx hr, if_pos hc, readChar_of_rest hrest, advance_cons lx c [d]]
      · obtain ⟨w, r, h1, h2⟩ := ih cs (by simpa using h)
        refine ⟨c :: w, r, by simp [h1], ?_⟩
        intro lx hr
        have hrest : (lx.advance [c]).rest = cs := advance_rest (w := [c]) (by simpa using hr)
        rw [key lx hr, if_neg hc, h2 _ hrest, advance_cons lx c w]

theorem skipLoop_rest : ∀ (fuel : Nat) (rs : List Char), rs.length < fuel →
    ∃ w r, rs = w ++ r ∧
      ∀ lx : Lexer, lx.rest = rs → skipLoop fuel lx = some (lx.advance w) := by
  intro fuel
  induction fuel with
  | zero => intro rs h; omega
  | succ fuel ih =>
    intro rs h
    cases rs with
    | nil =>
      refine ⟨[], [], rfl, ?_⟩
      intro lx hr
      simp [skipLoop, (isEOF_iff_rest lx).mpr hr, Lexer.advance]
    | cons c cs =>
      have hlen : cs.length < fuel := by simpa using h
      have key : ∀ lx : Lexer, lx.rest = c :: cs →
          skipLoop (fuel + 1) lx =
            if isspace c = true then skipLoop fuel (lx.advance [c])
            else if c = '/' then
              if cs.getD 0 '\x00' = '/' then
                (skipLineComment ((c :: cs).length + 1) lx).bind (skipLoop fuel)
              else if cs.getD 0 '\x00' = '*' then
                (skipBlockComment ((lx.advance [c]).readChar.2.remaining + 1)
                  (lx.advance [c]).readChar.2).bind (skipLoop fuel)
              else some lx
            else some lx := by
        intro lx hr
        have heof : lx.isEOF = false := (isEOF_false_iff lx).mpr ⟨c, cs, hr⟩
        have hpk : lx.peekChar 0 = c := by rw [peekChar_eq, hr]; rfl
        have hnx : lx.sourceBuffer.getD (lx.currentPosition + 1) '\x00' = cs.getD 0 '\x00' := by
          rw [getD_buffer_eq, hr]; cases cs <;> rfl
        have hrem : lx.remaining = (c :: cs).length := by rw [remaining_eq_rest, hr]
        simp only [skipLoop, heof, hpk, hnx, hrem, Bool.false_eq_true, ↓reduceIte,
          readChar_of_rest hr]
      by_cases hsp : isspace c = true
      · obtain ⟨w, r, h1, h2⟩ := ih cs hlen
        refine ⟨c :: w, r, by simp [h1], ?_⟩
        intro lx hr
        have hrest : (lx.advance [c]).rest = cs := advance_rest (w := [c]) (by simpa using hr)
        rw [key lx hr, if_pos hsp, h2 _ hrest, advance_cons lx c w]
      · by_cases hsl : c = '/'
        · by_cases hn1 : cs.getD 0 '\x00' = '/'
          · obtain ⟨w, r, h1, h3, h2⟩ := skipLineComment_rest ((c :: cs).length + 1) (c :: cs)
              (by omega)
            have hw : w ≠ [] := h3 (by simp)
            have hlen2 : (c :: cs).length = w.length + r.length := by rw [h1]; simp
            have hwpos : 0 < w.length := List.length_pos.mpr hw
            obtain ⟨w', r', h1', h2'⟩ := ih r (by simp at hlen2; omega)
            refine ⟨w ++ w', r', by rw [h1, h1', List.append_assoc], ?_⟩
            intro lx hr
            rw [key lx hr, if_neg hsp, if_pos hsl, if_pos hn1, h2 lx hr, Option.some_bind,
              h2' _ (advance_rest (by rw [hr, h1])), advance_append]
          · by_cases hn2 : cs.getD 0 '\x00' = '*'
            · cases cs with
              | nil => exact absurd hn2 (by decide)
              | cons d ds =>
                obtain ⟨w, r, h1, h2⟩ := skipBlockComment_rest (ds.length + 1) ds (by omega)
                have hlen2 : ds.length = w.length + r.length := by rw [h1]; simp
                obtain ⟨w', r', h1', h2'⟩ := ih r (by simp at hlen; omega)
                refine ⟨c :: d :: (w ++ w'), r', by rw [h1, h1']; simp, ?_⟩
                intro lx hr
                have hr2 : (lx.advance [c]).rest = d :: ds :=
                  advance_rest (w := [c]) (by simpa using hr)
                have hr3 : ((lx.advance [c]).advance [d]).rest = ds :=
                  advance_rest (w := [d]) (by simpa using hr2)
                rw [key lx hr, if_neg hsp, if_pos hsl, if_neg hn1, if_pos hn2,
                  readChar_of_rest hr2, remaining_eq_rest, hr3, h2 _ hr3, Option.some_bind,
                  h2' _ (advance_rest (by rw [hr3, h1]))]
                rw [advance_cons lx c (d :: (w ++ w')), advance_cons (lx.advance [c]) d (w ++ w'),
                  advance_append]
            · refine ⟨[], c :: cs, rfl, ?_⟩
              intro lx hr
              rw [key lx hr, if_neg hsp, if_pos hsl, if_neg hn1, if_neg hn2]
              rfl
        · refine ⟨[], c :: cs, rfl, ?_⟩
          intro lx hr
          rw [key lx hr, if_neg hsp, if_neg hsl]
          rfl

/-- What `skipWhitespaceAndComments` consumes is determined by the unread input. -/
theorem skip_rest (rs : List Char) :
    ∃ w r, rs = w ++ r ∧
      ∀ lx : Lexer, lx.rest = rs → lx.skipWhitespaceAndComments = some (lx.advance w) := by
  obtain ⟨w, r, h1, h2⟩ := skipLoop_rest (rs.length + 1) rs (by omega)
  refine ⟨w, r, h1, ?_⟩
  intro lx hr
  unfold Lexer.skipWhitespaceAndComments
  rw [remaining_eq_rest, hr]
  exact h2 lx hr

theorem scanLoop_rest (a : Automaton) (b : Bool) (t : Char) :
    ∀ (fuel : Nat) (rs : List Char) (st : State), rs.length < fuel →
      ∃ st' w r, rs = w ++ r ∧ ∀ (lx : Lexer) (lexeme : List Char), lx.rest = rs →
        scanLoop a b t fuel st lexeme lx = some (st', lexeme ++ w, lx.advance w) := by
  intro fuel
  induction fuel with
  | zero => intro rs st h; omega
  | succ fuel ih =>
    intro rs st h
    cases rs with
    | nil =>
      refine ⟨st, [], [], rfl, ?_⟩
      intro lx lexeme hr
      rw [scanLoop_succ]
      simp [(isEOF_iff_rest lx).mpr hr, Lexer.advance]
    | cons c cs =>
      have key : ∀ (lx : Lexer) (lexeme : List Char), lx.rest = c :: cs →
          scanLoop a b t (fuel + 1) st lexeme lx =
            match a.find st c with
            | some target =>
              if b = true ∧ c = t ∧ target = 2 then
                some (target, lexeme ++ [c], lx.advance [c])
              else scanLoop a b t fuel target (lexeme ++ [c]) (lx.advance [c])
            | none => some (st, lexeme, lx) := by
        intro lx lexeme hr
        have heof : lx.isEOF = false := (isEOF_false_iff lx).mpr ⟨c, cs, hr⟩
        have hpk : lx.peekChar 0 = c := by rw [peekChar_eq, hr]; rfl
        rw [scanLoop_succ, heof, hpk, readChar_of_rest hr]
        simp only [Bool.false_eq_true, if_false]
      cases hf : a.find st c with
      | none =>
        refine ⟨st, [], c :: cs, rfl, ?_⟩
        intro lx lexeme hr
        rw [key lx lexeme hr, hf]
        simp [Lexer.advance]
      | some target =>
        by_cases hq : b = true ∧ c = t ∧ target = 2
        · refine ⟨target, [c], cs, rfl, ?_⟩
          intro lx lexeme hr
          rw [key lx lexeme hr, hf]
          simp only
          rw [if_pos hq]
        · obtain ⟨st', w, r, h1, h2⟩ := ih cs target (by simpa using h)
          refine ⟨st', c :: w, r, by simp [h1], ?_⟩
          intro lx lexeme hr
          rw [key lx lexeme hr, hf]
          simp only
          rw [if_neg hq, h2 _ _ (advance_rest (w := [c]) (by simpa using hr)),
            advance_cons lx c w]
          simp


/-! ## `getNextToken` only looks at the buffer, the offset and the operator set -/

theorem sameInput_rest {a b : Lexer} (h : a.sameInput b) : a.rest = b.rest := by
  unfold Lexer.rest
  rw [h.1, h.2.2]

theorem sameInput_peekChar {a b : Lexer} (h : a.sameInput b) (k : Nat) :
    a.peekChar k = b.peekChar k := by
  rw [peekChar_eq, peekChar_eq, sameInput_rest h]

theorem sameInput_advance {a b : Lexer} (h : a.sameInput b) (w : List Char) :
    (a.advance w).sameInput (b.advance w) :=
  ⟨by simp [h.1], by simp [h.2.1], by simp [h.2.2]⟩

theorem sameInput_traced {a b : Lexer} (h : a.sameInput b) : a.traced.sameInput b.traced := h

theorem sameInput_reportError {a b : Lexer} (h : a.sameInput b) (m m' : List Char) :
    (a.reportError m).sameInput (b.reportError m') := h

theorem sameInput_rewound {a b : Lexer} (h : a.sameInput b) (w : List Char) :
    (a.rewound w).sameInput (b.rewound w) := by
  refine ⟨?_, ?_, ?_⟩
  · simp [Lexer.rewound, Lexer.reportError, h.1]
  · simp [Lexer.rewound, Lexer.reportError, h.2.1]
  · simp [Lexer.rewound, Lexer.reportError, h.2.2]

theorem sameInput_automaton {a b : Lexer} (h : a.sameInput b) (id : AutomatonId) :
    a.automaton id = b.automaton id := by
  cases id <;> simp [Lexer.automaton, h.2.1]

theorem sameInput_stringTerminator {a b : Lexer} (h : a.sameInput b) (id : AutomatonId) :
    a.stringTerminator id = b.stringTerminator id := by
  unfold Lexer.stringTerminator
  rw [sameInput_peekChar h 0]

theorem sameInput_dispatch {a b : Lexer} (h : a.sameInput b) : a.dispatch = b.dispatch := by
  have ho : ∀ c, a.isOperatorStart c = b.isOperatorStart c := by
    intro c
    rw [isOperatorStart_iff, isOperatorStart_iff, sameInput_automaton h]
  have hsep : ∀ c, a.isSeparatorStart c = b.isSeparatorStart c := by
    intro c
    rw [isSeparatorStart_iff, isSeparatorStart_iff]
  unfold Lexer.dispatch
  dsimp only
  rw [sameInput_peekChar h 0, sameInput_peekChar h 1, sameInput_peekChar h 2, ho, hsep]

theorem sameInput_skip {a b a1 : Lexer} (h : a.sameInput b)
    (hs : a.traced.skipWhitespaceAndComments = some a1) :
    ∃ b1, b.traced.skipWhitespaceAndComments = some b1 ∧ a1.sameInput b1 := by
  obtain ⟨w, r, -, h2⟩ := skip_rest a.traced.rest
  have ha := h2 a.traced rfl
  rw [hs] at ha
  cases ha
  exact ⟨b.traced.advance w, h2 b.traced (sameInput_rest (sameInput_traced h)).symm,
    sameInput_advance (sameInput_traced h) w⟩

theorem sameInput_scan {a b : Lexer} (h : a.sameInput b) {id : AutomatonId} {st : State}
    {w : List Char} (hsc : a.scan id = some (st, w, a.advance w)) :
    b.scan id = some (st, w, b.advance w) := by
  obtain ⟨st', w', r, -, h2⟩ := scanLoop_rest (a.automaton id) (id = .string)
    (a.stringTerminator id) (a.rest.length + 1) a.rest (a.automaton id).startState (by omega)
  have ha : a.scan id = some (st', [] ++ w', a.advance w') := by
    have := h2 a [] rfl
    rw [← remaining_eq_rest] at this
    exact this
  have hb : b.scan id = some (st', [] ++ w', b.advance w') := by
    have := h2 b [] (sameInput_rest h).symm
    rw [sameInput_rest h, ← remaining_eq_rest, sameInput_automaton h,
      sameInput_stringTerminator h] at this
    exact this
  rw [hsc] at ha
  simp only [List.nil_append, Option.some.injEq, Prod.mk.injEq] at ha
  rw [hb, ← ha.1, ← ha.2.1]
  rfl

/-- The kind and the lexeme of the token that `getNextToken` returns, and the offset it
leaves the cursor at, depend only on the buffer, the offset and the operator set. -/
theorem lexes_congr {a : Lexer} {ra : Token × Lexer} (h : Lexes a ra) :
    ∀ b : Lexer, a.sameInput b →
      ∃ rb, Lexes b rb ∧ rb.1.type = ra.1.type ∧ rb.1.lexeme = ra.1.lexeme ∧
        ra.2.sameInput rb.2 := by
  induction h with
  | @eof a a1 hs hnil =>
    intro b hab
    obtain ⟨b1, hb, h1⟩ := sameInput_skip hab hs
    exact ⟨b1.eofToken, Lexes.eof hb (by rw [← sameInput_rest h1]; exact hnil), rfl, rfl, h1⟩
  | @unknown a a1 hs hne hd =>
    intro b hab
    obtain ⟨b1, hb, h1⟩ := sameInput_skip hab hs
    refine ⟨b1.unknownToken,
      Lexes.unknown hb (by rw [← sameInput_rest h1]; exact hne)
        (by rw [← sameInput_dispatch h1]; exact hd), rfl, ?_, ?_⟩
    · simp only [Lexer.unknownToken]
      rw [sameInput_peekChar h1 0]
    · simp only [Lexer.unknownToken]
      rw [sameInput_peekChar h1 0]
      exact sameInput_advance (sameInput_reportError h1 _ _) _
  | @accept a a1 id st w r hs hne hd hsc hr hw hst hacc =>
    intro b hab
    obtain ⟨b1, hb, h1⟩ := sameInput_skip hab hs
    refine ⟨_, Lexes.accept (r := r) hb (by rw [← sameInput_rest h1]; exact hne)
        (by rw [← sameInput_dispatch h1]; exact hd) (sameInput_scan h1 hsc)
        (by rw [← sameInput_rest h1]; exact hr)
        (by rw [← sameInput_automaton h1]; exact hw)
        (by rw [← sameInput_automaton h1, ← sameInput_stringTerminator h1]; exact hst)
        (by rw [← sameInput_automaton h1]; exact hacc), rfl, rfl, sameInput_advance h1 w⟩
  | @reject a a1 id st w r res hs hne hd hsc hr hw hst hacc hrec ih =>
    intro b hab
    obtain ⟨b1, hb, h1⟩ := sameInput_skip hab hs
    obtain ⟨rb, hL, h2, h3, h4⟩ := ih (b1.rewound w) (sameInput_rewound h1 w)
    exact ⟨rb, Lexes.reject (r := r) hb (by rw [← sameInput_rest h1]; exact hne)
        (by rw [← sameInput_dispatch h1]; exact hd) (sameInput_scan h1 hsc)
        (by rw [← sameInput_rest h1]; exact hr)
        (by rw [← sameInput_automaton h1]; exact hw)
        (by rw [← sameInput_automaton h1, ← sameInput_stringTerminator h1]; exact hst)
        (by rw [← sameInput_automaton h1]; exact hacc) hL, h2, h3, h4⟩

/-- The lexeme that `getNextToken` returns lies in the unread input, in front of what is
left unread afterwards. -/
theorem lexes_gap {lx : Lexer} {res : Token × Lexer} (h : Lexes lx res) :
    ∃ gap, lx.rest = gap ++ res.1.lexeme ++ res.2.rest := by
  induction h with
  | @eof lx lx1 hs hnil =>
    obtain ⟨w0, r0, h1, -, h3⟩ := skip_eq_advance hs
    refine ⟨w0, ?_⟩
    simp only [Lexer.eofToken, List.append_nil]
    rw [h1, h3]
  | @unknown lx lx1 hs hne hd =>
    obtain ⟨w0, r0, h1, -, h3⟩ := skip_eq_advance hs
    cases hr : lx1.rest with
    | nil => exact absurd hr hne
    | cons c cs =>
      have hpk : lx1.peekChar 0 = c := by rw [peekChar_eq, hr]; rfl
      have h4 : ((lx1.reportError "Unrecognized character".toList).advance [c]).rest = cs :=
        advance_rest (w := [c]) (by simpa using hr)
      refine ⟨w0, ?_⟩
      simp only [Lexer.unknownToken, hpk]
      rw [h4, h1, ← h3, hr]
      simp
  | @accept lx lx1 id st w r hs hne hd hsc hr hw hst hacc =>
    obtain ⟨w0, r0, h1, -, h3⟩ := skip_eq_advance hs
    refine ⟨w0, ?_⟩
    simp only
    rw [advance_rest hr, h1, ← h3, hr]
    simp
  | @reject lx lx1 id st w r res hs hne hd hsc hr hw hst hacc hrec ih =>
    obtain ⟨w0, r0, h1, -, h3⟩ := skip_eq_advance hs
    obtain ⟨gap, hg⟩ := ih
    cases hr' : lx1.rest with
    | nil => exact absurd hr' hne
    | cons c cs =>
      rw [rewound_rest w hr'] at hg
      refine ⟨w0 ++ c :: gap, ?_⟩
      rw [h1, ← h3, hr', hg]
      simp


/-! ## A block comment that is never closed -/

/-- One iteration of the loop of `skipWhitespaceAndComments`, in terms of the unread input. -/
theorem skipLoop_cons {lx : Lexer} {c : Char} {cs : List Char} (fuel : Nat)
    (hr : lx.rest = c :: cs) :
    skipLoop (fuel + 1) lx =
      if isspace c = true then skipLoop fuel (lx.advance [c])
      else if c = '/' then
        if cs.getD 0 '\x00' = '/' then
          (skipLineComment ((c :: cs).length + 1) lx).bind (skipLoop fuel)
        else if cs.getD 0 '\x00' = '*' then
          (skipBlockComment ((lx.advance [c]).readChar.2.remaining + 1)
            (lx.advance [c]).readChar.2).bind (skipLoop fuel)
        else some lx
      else some lx := by
  have heof : lx.isEOF = false := (isEOF_false_iff lx).mpr ⟨c, cs, hr⟩
  have hpk : lx.peekChar 0 = c := by rw [peekChar_eq, hr]; rfl
  have hnx : lx.sourceBuffer.getD (lx.currentPosition + 1) '\x00' = cs.getD 0 '\x00' := by
    rw [getD_buffer_eq, hr]; cases cs <;> rfl
  have hrem : lx.remaining = (c :: cs).length := by rw [remaining_eq_rest, hr]
  simp only [skipLoop, heof, hpk, hnx, hrem, Bool.false_eq_true, ↓reduceIte,
    readChar_of_rest hr]

/-- Without a closing marker the loop over the body of a block comment runs to the end of
the buffer. -/
theorem skipBlockComment_open : ∀ (t : List Char) (fuel : Nat) (lx : Lexer), lx.rest = t →
    ¬ ['*', '/'] <:+: t → t.length < fuel →
    skipBlockComment fuel lx = some (lx.advance t) := by
  intro t
  induction t with
  | nil =>
    intro fuel lx hr _ hf
    obtain ⟨k, rfl⟩ : ∃ k, fuel = k + 1 := ⟨fuel - 1, by omega⟩
    simp [skipBlockComment, (isEOF_iff_rest lx).mpr hr, Lexer.advance]
  | cons c cs ih =>
    intro fuel lx hr ht hf
    obtain ⟨k, rfl⟩ : ∃ k, fuel = k + 1 := ⟨fuel - 1, by omega⟩
    have heof : lx.isEOF = false := (isEOF_false_iff lx).mpr ⟨c, cs, hr⟩
    have hrest : (lx.advance [c]).rest = cs := advance_rest (w := [c]) (by simpa using hr)
    have hpk : (lx.advance [c]).peekChar 0 = cs.getD 0 '\x00' := by
      rw [peekChar_eq, hrest]
    have hc : ¬ (c = '*' ∧ cs.getD 0 '\x00' = '/') := by
      rintro ⟨rfl, h2⟩
      cases cs with
      | nil => exact absurd h2 (by decide)
      | cons d ds =>
        have hd : d = '/' := h2
        subst hd
        exact ht ⟨[], ds, rfl⟩
    have hcs : ¬ ['*', '/'] <:+: cs := by
      rintro ⟨u, v, huv⟩
      exact ht ⟨c :: u, v, by rw [← huv]; simp⟩
    simp only [skipBlockComment, heof, readChar_of_rest hr, Bool.false_eq_true, ↓reduceIte, hpk]
    rw [if_neg hc, ih k _ hrest hcs (by simpa using hf), advance_cons lx c cs]

/-- Leading whitespace and a block comment that is never closed take the loop of
`skipWhitespaceAndComments` to the end of the buffer. -/
theorem skipLoop_open : ∀ (ws : List Char) (t : List Char) (fuel : Nat) (lx : Lexer),
    (∀ c ∈ ws, isspace c = true) → lx.rest = ws ++ '/' :: '*' :: t →
    ¬ ['*', '/'] <:+: t → ws.length + 2 ≤ fuel →
    skipLoop fuel lx = some (lx.advance (ws ++ '/' :: '*' :: t)) := by
  intro ws
  induction ws with
  | nil =>
    intro t fuel lx _ hr ht hf
    obtain ⟨k, rfl⟩ : ∃ k, fuel = k + 2 := ⟨fuel - 2, by simp at hf; omega⟩
    have hr' : lx.rest = '/' :: ('*' :: t) := by simpa using hr
    have hr2 : (lx.advance ['/']).rest = '*' :: t := advance_rest (w := ['/']) hr'
    have hr3 : ((lx.advance ['/']).advance ['*']).rest = t := advance_rest (w := ['*']) hr2
    have hg : ('*' :: t).getD 0 '\x00' = '*' := rfl
    rw [skipLoop_cons (k + 1) hr', if_neg (by decide), if_pos rfl, hg, if_neg (by decide),
      if_pos rfl, readChar_of_rest hr2,
      skipBlockComment_open t _ _ hr3 ht (by rw [remaining_eq_rest, hr3]; omega),
      Option.some_bind]
    have hr4 : (((lx.advance ['/']).advance ['*']).advance t).rest = [] :=
      advance_rest (r := []) (by simpa using hr3)
    simp only [skipLoop, (isEOF_iff_rest _).mpr hr4, if_true, List.nil_append]
    rw [advance_cons lx '/' ('*' :: t), advance_cons (lx.advance ['/']) '*' t]
  | cons c ws ih =>
    intro t fuel lx hws hr ht hf
    obtain ⟨k, rfl⟩ : ∃ k, fuel = k + 1 := ⟨fuel - 1, by simp at hf; omega⟩
    have hr' : lx.rest = c :: (ws ++ '/' :: '*' :: t) := by simpa using hr
    rw [skipLoop_cons k hr', if_pos (hws c (by simp)),
      ih t k _ (fun d hd => hws d (by simp [hd])) (advance_rest (w := [c]) hr') ht
        (by simp at hf; omega)]
    rw [List.cons_append, advance_cons lx c (ws ++ '/' :: '*' :: t)]


/-! ## The cursor stays inside the buffer -/

theorem rest_length (lx : Lexer) :
    lx.rest.length = lx.sourceBuffer.length - lx.currentPosition := by
  unfold Lexer.rest
  rw [List.length_drop]

theorem advance_bound {lx : Lexer} {w r : List Char}
    (hb : lx.currentPosition ≤ lx.sourceBuffer.length) (hr : lx.rest = w ++ r) :
    (lx.advance w).currentPosition ≤ (lx.advance w).sourceBuffer.length := by
  have h1 := rest_length lx
  rw [hr, List.length_append] at h1
  rw [advance_currentPosition, advance_sourceBuffer]
  omega

theorem skip_bound {lx lx1 : Lexer} (hb : lx.currentPosition ≤ lx.sourceBuffer.length)
    (hs : lx.traced.skipWhitespaceAndComments = some lx1) :
    lx1.currentPosition ≤ lx1.sourceBuffer.length := by
  obtain ⟨w0, r0, h1, h2, -⟩ := skip_eq_advance hs
  have ht : lx.traced.currentPosition ≤ lx.traced.sourceBuffer.length := hb
  have h3 : lx.traced.rest = w0 ++ r0 := h1
  rw [h2]
  exact advance_bound ht h3

/-- A call of `getNextToken` that starts inside the buffer ends inside the buffer. -/
theorem lexes_bound {lx : Lexer} {res : Token × Lexer} (h : Lexes lx res) :
    lx.currentPosition ≤ lx.sourceBuffer.length →
    res.2.currentPosition ≤ res.2.sourceBuffer.length := by
  induction h with
  | @eof lx lx1 hs hnil =>
    intro hb
    exact skip_bound hb hs
  | @unknown lx lx1 hs hne hd =>
    intro hb
    have hb1 := skip_bound hb hs
    cases hr : lx1.rest with
    | nil => exact absurd hr hne
    | cons c cs =>
      have hpk : lx1.peekChar 0 = c := by rw [peekChar_eq, hr]; rfl
      have hb2 : (lx1.reportError "Unrecognized character".toList).currentPosition ≤
          (lx1.reportError "Unrecognized character".toList).sourceBuffer.length := hb1
      have hr2 : (lx1.reportError "Unrecognized character".toList).rest = [c] ++ cs := hr
      simp only [Lexer.unknownToken, hpk]
      exact advance_bound hb2 hr2
  | @accept lx lx1 id st w r hs hne hd hsc hr hw hst hacc =>
    intro hb
    exact advance_bound (skip_bound hb hs) hr
  | @reject lx lx1 id st w r res hs hne hd hsc hr hw hst hacc hrec ih =>
    intro hb
    have hb1 := skip_bound hb hs
    apply ih
    have h3 := rest_length lx1
    have h4 : 0 < lx1.rest.length := List.length_pos.mpr hne
    have h5 : (lx1.rewound w).currentPosition = lx1.currentPosition + 1 := rfl
    have h6 : (lx1.rewound w).sourceBuffer = lx1.sourceBuffer := by
      simp [Lexer.rewound, Lexer.reportError]
    rw [h5, h6]
    omega

/-- Every reachable session state has its cursor inside the buffer. -/
theorem reachable_bound {lx : Lexer} (h : Reachable lx) :
    lx.currentPosition ≤ lx.sourceBuffer.length := by
  induction h with
  | fresh source order => exact Nat.zero_le _
  | @call lx lx' tok _ hcall ih =>
    exact lexes_bound (getNextToken_lexes _ lx (tok, lx') (Nat.le_refl _) hcall) ih

/-- A call of `getNextToken` that returns a token other than `EndOfFile` moves the cursor
forward. -/
theorem lexes_advances {lx : Lexer} {res : Token × Lexer} (h : Lexes lx res)
    (ht : res.1.type ≠ TokenType.EndOfFile) : lx.currentPosition < res.2.currentPosition := by
  obtain ⟨h1, -, -, h4⟩ := lexes_progress h
  have h5 := h4 ht
  rw [rest_length, rest_length, h1] at h5
  omega


/-! ## Every state of the operator automaton but the start state is accepting -/

theorem walk_mono {a b : Automaton}
    (h : ∀ (s : State) (c : Char) (t : State), a.find s c = some t → b.find s c = some t) :
    ∀ (w : List Char) (s t : State), a.walk s w = some t → b.walk s w = some t := by
  intro w
  induction w with
  | nil => intro s t hw; exact hw
  | cons c cs ih =>
    intro s t hw
    rw [walk_cons] at hw ⊢
    cases hf : a.find s c with
    | none => rw [hf] at hw; cases hw
    | some u =>
      rw [hf, Option.some_bind] at hw
      rw [h s c u hf, Option.some_bind]
      exact ih u t hw

theorem sourcesReachable_step {a : Automaton} {next : Nat} {cur : Nat} {L : List (List Char)}
    {p : List Char} (inv : TrieInv a next cur L p) (hr : SourcesReachable a) (ch : Char) :
    SourcesReachable (insertOperatorChar (a, next, cur) ch).1 := by
  cases h : a.find cur ch with
  | some t =>
    rw [insertOperatorChar_old h]
    have hf : ∀ s c, (a.touch cur).find s c = a.find s c := fun s c => find_touch a cur s c
    intro s c t' h'
    rw [hf] at h'
    obtain ⟨w, hw⟩ := hr s c t' h'
    exact ⟨w, by rw [walk_congr hf]; exact hw⟩
  | none =>
    rw [insertOperatorChar_new h]
    have hm : ∀ (s : State) (c : Char) (t : State), a.find s c = some t →
        ((a.touch cur).assign cur ch next).find s c = some t := by
      intro s c t hf
      rw [find_assign, find_touch]
      by_cases hsc : s = cur ∧ c = ch
      · rw [hsc.1, hsc.2, h] at hf; cases hf
      · rw [if_neg hsc]; exact hf
    intro s c t' h'
    show ∃ w, ((a.touch cur).assign cur ch next).walk 0 w = some s
    have h'' : ((a.touch cur).assign cur ch next).find s c = some t' := h'
    rw [find_assign, find_touch] at h''
    by_cases hsc : s = cur ∧ c = ch
    · exact ⟨p, by rw [hsc.1]; exact walk_mono hm p 0 cur inv.here⟩
    · rw [if_neg hsc] at h''
      obtain ⟨w, hw⟩ := hr s c t' h''
      exact ⟨w, walk_mono hm w 0 s hw⟩

theorem sourcesReachable_inner {L : List (List Char)} :
    ∀ (op p : List Char) (acc : Automaton × Nat × State),
    TrieInv acc.1 acc.2.1 acc.2.2 L p → SourcesReachable acc.1 →
    SourcesReachable (op.foldl insertOperatorChar acc).1 := by
  intro op
  induction op with
  | nil => intro p acc _ hr; exact hr
  | cons ch cs ih =>
    intro p acc inv hr
    obtain ⟨a, next, cur⟩ := acc
    simp only [List.foldl_cons]
    exact ih (p ++ [ch]) _ (inv.step ch) (sourcesReachable_step inv hr ch)

theorem sourcesReachable_insert {a : Automaton} {next : Nat} {L : List (List Char)}
    (inv : TrieInv a next 0 L []) (hr : SourcesReachable a) (op : List Char) :
    SourcesReachable (insertOperator (a, next) op).1 := by
  have h0 : TrieInv (a, next, a.startState).1 (a, next, a.startState).2.1
      (a, next, a.startState).2.2 L [] := by
    rw [inv.start]; exact inv
  have hr' := sourcesReachable_inner op [] (a, next, a.startState) h0 hr
  unfold insertOperator
  dsimp only
  generalize op.foldl insertOperatorChar (a, next, a.startState) = res at hr' ⊢
  obtain ⟨a', next', cur⟩ := res
  simp only at hr' ⊢
  have hf : ∀ s c, ({ a' with acceptingStates := cur :: a'.acceptingStates } : Automaton).find s c =
      a'.find s c := fun _ _ => rfl
  intro s c t h
  rw [hf] at h
  obtain ⟨w, hw⟩ := hr' s c t h
  exact ⟨w, by rw [walk_congr hf]; exact hw⟩

theorem sourcesReachable_outer : ∀ (order : List (List Char)) (acc : Automaton × Nat)
    (L : List (List Char)), TrieInv acc.1 acc.2 0 L [] → SourcesReachable acc.1 →
    SourcesReachable (order.foldl insertOperator acc).1 := by
  intro order
  induction order with
  | nil => intro acc L _ hr; exact hr
  | cons op ops ih =>
    intro acc L inv hr
    obtain ⟨a, next⟩ := acc
    simp only [List.foldl_cons]
    exact ih _ (op :: L) (inv.insert op) (sourcesReachable_insert inv hr op)

/-- In the operator automaton every state with an outgoing transition is reached from the
start state. -/
theorem operatorAutomaton_reachable (order : List (List Char)) :
    SourcesReachable (operatorAutomaton order) := by
  have h0 : SourcesReachable ({ Automaton.empty 0 [] with startState := 0 } : Automaton) := by
    intro s c t h; cases h
  exact sourcesReachable_outer order ({ Automaton.empty 0 [] with startState := 0 }, 1) []
    TrieInv.init h0

/-- For an iteration order of the operator set, every state of the operator automaton that a
transition leads to is accepting. -/
theorem operatorAutomaton_targets {order : List (List Char)} (ho : IterationOrder order)
    (s : Nat) (c : Char) (t : Nat) (h : (operatorAutomaton order).find s c = some t) :
    t ∈ (operatorAutomaton order).acceptingStates := by
  obtain ⟨w, hw⟩ := operatorAutomaton_reachable order s c t h
  have hwc : (operatorAutomaton order).walk 0 (w ++ [c]) = some t := by
    rw [walk_snoc, hw, Option.some_bind, h]
  have hmem : w ++ [c] ∈ operatorTable :=
    (operator_walk_iff ho (w ++ [c]) (by simp)).mp (by rw [hwc]; rfl)
  exact (operatorAutomaton_accepts order (w ++ [c]) t hwc).mpr ((ho.2 _).mpr hmem)

/-- The character at which `getNextToken` dispatches to the operator automaton begins an
operator of the table. -/
theorem isOperatorStart_table {lx : Lexer} (ho : IterationOrder lx.operators) {c : Char}
    (h : lx.isOperatorStart c = true) : [c] ∈ operatorTable := by
  by_contra hc
  rw [not_isOperatorStart ho hc] at h
  cases h


/-! ## What the separator automaton accepts, and which of it `getNextToken` returns -/

theorem separator_step (s : State) (d : Char) (w : List Char) :
    separatorAutomaton.walk s (d :: w) =
      (separatorTable s d).bind (fun t => separatorAutomaton.walk t w) := by
  rw [walk_cons, separatorAutomaton_find]

theorem separator_walk_one {w : List Char} {t : State}
    (h : separatorAutomaton.walk 1 w = some t) : w = [] := by
  cases w with
  | nil => rfl
  | cons d w' =>
    rw [separator_step] at h
    have : separatorTable 1 d = none := by simp [separatorTable]
    rw [this] at h
    cases h

/-- The strings the separator automaton accepts. -/
theorem separator_accepted {w : List Char} (h : separatorAutomaton.walk 0 w = some 1) :
    (∃ c ∈ [';', ',', '(', ')', '\x7b', '\x7d', '[', ']'], w = [c]) ∨
      w = "::".toList ∨ w = "...".toList ∨ w = ".*".toList ∨ w = "->*".toList := by
  cases w with
  | nil => simp [Automaton.walk] at h
  | cons c w1 =>
    rw [separator_step] at h
    by_cases h8 : c ∈ [';', ',', '(', ')', '\x7b', '\x7d', '[', ']']
    · have e : separatorTable 0 c = some 1 := by
        unfold separatorTable; rw [if_pos rfl, if_pos h8]
      rw [e, Option.some_bind] at h
      rw [separator_walk_one h]
      exact Or.inl ⟨c, h8, rfl⟩
    · have e : separatorTable 0 c =
          if c = ':' then some 2 else if c = '.' then some 3
          else if c = '-' then some 5 else none := by
        unfold separatorTable; rw [if_pos rfl, if_neg h8]
      rw [e] at h
      by_cases hc1 : c = ':'
      · rw [if_pos hc1, Option.some_bind] at h
        subst hc1
        cases w1 with
        | nil => simp [Automaton.walk] at h
        | cons d w2 =>
          rw [separator_step] at h
          by_cases hd : d = ':'
          · subst hd
            have e2 : separatorTable 2 ':' = some 1 := by decide
            rw [e2, Option.some_bind] at h
            rw [separator_walk_one h]
            exact Or.inr (Or.inl rfl)
          · have e2 : separatorTable 2 d = none := by simp [separatorTable, hd]
            rw [e2] at h; cases h
      · rw [if_neg hc1] at h
        by_cases hc2 : c = '.'
        · rw [if_pos hc2, Option.some_bind] at h
          subst hc2
          cases w1 with
          | nil => simp [Automaton.walk] at h
          | cons d w2 =>
            rw [separator_step] at h
            by_cases hd : d = '.'
            · subst hd
              have e2 : separatorTable 3 '.' = some 4 := by decide
              rw [e2, Option.some_bind] at h
              cases w2 with
              | nil => simp [Automaton.walk] at h
              | cons f w3 =>
                rw [separator_step] at h
                by_cases hf : f = '.'
                · subst hf
                  have e3 : separatorTable 4 '.' = some 1 := by decide
                  rw [e3, Option.some_bind] at h
                  rw [separator_walk_one h]
                  exact Or.inr (Or.inr (Or.inl rfl))
                · have e3 : separatorTable 4 f = none := by simp [separatorTable, hf]
                  rw [e3] at h; cases h
            · by_cases hd' : d = '*'
              · subst hd'
                have e2 : separatorTable 3 '*' = some 1 := by decide
                rw [e2, Option.some_bind] at h
                rw [separator_walk_one h]
                exact Or.inr (Or.inr (Or.inr (Or.inl rfl)))
              · have e2 : separatorTable 3 d = none := by simp [separatorTable, hd, hd']
                rw [e2] at h; cases h
        · rw [if_neg hc2] at h
          by_cases hc3 : c = '-'
          · rw [if_pos hc3, Option.some_bind] at h
            subst hc3
            cases w1 with
            | nil => simp [Automaton.walk] at h
            | cons d w2 =>
              rw [separator_step] at h
              by_cases hd : d = '>'
              · subst hd
                have e2 : separatorTable 5 '>' = some 6 := by decide
                rw [e2, Option.some_bind] at h
                cases w2 with
                | nil => simp [Automaton.walk] at h
                | cons f w3 =>
                  rw [separator_step] at h
                  by_cases hf : f = '*'
                  · subst hf
                    have e3 : separatorTable 6 '*' = some 1 := by decide
                    rw [e3, Option.some_bind] at h
                    rw [separator_walk_one h]
                    exact Or.inr (Or.inr (Or.inr (Or.inr rfl)))
                  · have e3 : separatorTable 6 f = none := by simp [separatorTable, hf]
                    rw [e3] at h; cases h
              · have e2 : separatorTable 5 d = none := by simp [separatorTable, hd]
                rw [e2] at h; cases h
          · rw [if_neg hc3] at h
            cases h

/-- The two ways the `if` chain of `getNextToken` reaches the separator automaton. -/
theorem dispatch_separator {lx : Lexer} (h : lx.dispatch = some .separator) :
    (lx.peekChar 0 = '.' ∧ lx.peekChar 1 = '.' ∧ lx.peekChar 2 = '.') ∨
      (lx.isOperatorStart (lx.peekChar 0) = false ∧ lx.isSeparatorStart (lx.peekChar 0) = true) := by
  unfold Lexer.dispatch at h
  simp only at h
  split_ifs at h with h1 h2 h3 h4 h5 h6
  all_goals first
    | exact Or.inl h4
    | exact Or.inr ⟨by simpa using h5, h6⟩
    | cases h

theorem determineTokenType_separator {w : List Char} {id : AutomatonId}
    (h : determineTokenType w id = TokenType.Separator) : id = .separator := by
  cases id with
  | identifier =>
    simp only [determineTokenType] at h
    split at h <;> cases h
  | number => cases h
  | string => cases h
  | operator => cases h
  | separator => rfl

theorem separator_heads :
    [':'] ∈ operatorTable ∧ ['.'] ∈ operatorTable ∧ ['-'] ∈ operatorTable := by
  decide

/-- For an iteration order of the operator set, an accepted scan that `getNextToken`
dispatched to the separator automaton has read one of the nine separator lexemes. -/
theorem separator_scan_lexeme {lx : Lexer} (ho : IterationOrder lx.operators) {w r : List Char}
    {st : State} (hne : lx.rest ≠ []) (hd : lx.dispatch = some .separator)
    (hr : lx.rest = w ++ r)
    (hw : separatorAutomaton.walk separatorAutomaton.startState w = some st)
    (hacc : st ∈ separatorAutomaton.acceptingStates) : w ∈ separatorLexemes := by
  rw [separatorAutomaton_shape.1] at hw
  rw [separatorAutomaton_shape.2] at hacc
  have hst : st = 1 := by simpa using hacc
  subst hst
  obtain ⟨c, cs, hrest⟩ : ∃ c cs, lx.rest = c :: cs := by
    cases h : lx.rest with
    | nil => exact absurd h hne
    | cons c cs => exact ⟨c, cs, rfl⟩
  have hpk : lx.peekChar 0 = c := by rw [peekChar_eq, hrest]; rfl
  have hhead : ∀ d u, w = d :: u → d = c := by
    intro d u hwd
    rw [hwd, hrest] at hr
    exact (List.cons.inj hr).1.symm
  rcases separator_accepted hw with ⟨d, hd8, rfl⟩ | h | h | h | h
  · simp only [List.mem_cons, List.mem_singleton, List.not_mem_nil, or_false] at hd8
    rcases hd8 with rfl | rfl | rfl | rfl | rfl | rfl | rfl | rfl <;> decide
  · exfalso
    have hc : ':' = c := hhead ':' [':'] h
    rcases dispatch_separator hd with ⟨h0, -, -⟩ | ⟨h0, -⟩
    · rw [hpk, ← hc] at h0; revert h0; decide
    · rw [hpk, ← hc, isOperatorStart_of_table ho ⟨[':'], separator_heads.1, rfl⟩] at h0
      cases h0
  · rw [h]; decide
  · exfalso
    have hc : '.' = c := hhead '.' ['*'] h
    rcases dispatch_separator hd with ⟨-, h1, -⟩ | ⟨h0, -⟩
    · rw [h] at hr
      rw [peekChar_eq, hr] at h1
      have h1' : ('*' : Char) = '.' := h1
      revert h1'; decide
    · rw [hpk, ← hc, isOperatorStart_of_table ho ⟨['.'], separator_heads.2.1, rfl⟩] at h0
      cases h0
  · exfalso
    have hc : '-' = c := hhead '-' ['>', '*'] h
    rcases dispatch_separator hd with ⟨h0, -, -⟩ | ⟨h0, -⟩
    · rw [hpk, ← hc] at h0; revert h0; decide
    · rw [hpk, ← hc, isOperatorStart_of_table ho ⟨['-'], separator_heads.2.2, rfl⟩] at h0
      cases h0

/-- For an iteration order of the operator set, every `Separator` token that `getNextToken`
returns carries one of the nine separator lexemes. -/
theorem lexes_separator {lx : Lexer} {res : Token × Lexer} (h : Lexes lx res) :
    IterationOrder lx.operators → res.1.type = TokenType.Separator →
    res.1.lexeme ∈ separatorLexemes := by
  induction h with
  | eof hs hnil => intro _ ht; cases ht
  | unknown hs hne hd => intro _ ht; cases ht
  | @accept lx lx1 id st w r hs hne hd hsc hr hw hst hacc =>
    intro ho ht
    obtain ⟨w0, r0, -, hlx1, -⟩ := skip_eq_advance hs
    have ho1 : IterationOrder lx1.operators := by
      rw [hlx1]; simpa [Lexer.traced] using ho
    have hid := determineTokenType_separator ht
    subst hid
    exact separator_scan_lexeme ho1 hne hd hr hw hacc
  | @reject lx lx1 id st w r res hs hne hd hsc hr hw hst hacc hrec ih =>
    intro ho ht
    obtain ⟨w0, r0, -, hlx1, -⟩ := skip_eq_advance hs
    apply ih _ ht
    have : (lx1.rewound w).operators = lx.operators := by
      rw [hlx1]; simp [Lexer.rewound, Lexer.reportError, Lexer.traced]
    rw [this]; exact ho

theorem shared_operators :
    ∀ op ∈ [":", "->", ".*", "->*", "::"].map String.toList,
      op ∈ operatorTable ∧ (op.head? = some '.' → op = ['.', '*']) := by
  decide

/-- The strings `:`, `->`, `.*`, `->*` and `::`, which the separator table or the separator
automaton also know, are read by the operator automaton. -/
theorem operator_over_separator {lx lx1 : Lexer} (ho : IterationOrder lx.operators)
    (hs : lx.traced.skipWhitespaceAndComments = some lx1) {op r : List Char}
    (hop : op ∈ [":", "->", ".*", "->*", "::"].map String.toList) (hr : lx1.rest = op ++ r) :
    ∃ tok lx', lx.getNextToken = some (tok, lx') ∧ tok.type = TokenType.Operator ∧
      op <+: tok.lexeme ∧ tok.lexeme ∈ operatorTable := by
  obtain ⟨w0, r0, -, hlx1, -⟩ := skip_eq_advance hs
  have ho1 : IterationOrder lx1.operators := by
    rw [hlx1]; simpa [Lexer.traced] using ho
  obtain ⟨hmem, hdot⟩ := shared_operators op hop
  obtain ⟨c, cs, hopc⟩ : ∃ c cs, op = c :: cs := by
    cases op with
    | nil => exact absurd rfl (operatorTable_nonempty _ hmem)
    | cons c cs => exact ⟨c, cs, rfl⟩
  have hr' : lx1.rest = c :: (cs ++ r) := by rw [hr, hopc]; rfl
  have hcs : c = '.' → cs = ['*'] := by
    intro hc
    have := hdot (by rw [hopc, hc]; rfl)
    rw [hopc] at this
    exact (List.cons.inj this).2
  have hhead : ∃ o ∈ operatorTable, o.head? = some c := ⟨op, hmem, by rw [hopc]; rfl⟩
  have hnum : ¬ (c = '.' ∧ ∃ d ds, cs ++ r = d :: ds ∧ isdigit d = true) := by
    rintro ⟨hc, d, ds, hd, hdig⟩
    rw [hcs hc] at hd
    have hd' : '*' = d := (List.cons.inj hd).1
    rw [← hd'] at hdig
    revert hdig; decide
  have hell : ¬ (c = '.' ∧ ∃ ds, cs ++ r = '.' :: '.' :: ds) := by
    rintro ⟨hc, ds, hd⟩
    rw [hcs hc] at hd
    exact absurd (List.cons.inj hd).1 (by decide)
  obtain ⟨st, w, r', h1, h2, h3, h4, h5⟩ := operator_scan ho1 hr' hhead
  have heof : ¬ lx1.isEOF = true := fun h => by
    rw [(isEOF_iff_rest _).mp h] at hr'; cases hr'
  have hle : op.length ≤ w.length := h5 op hmem (by rw [hr]; exact List.prefix_append op r)
  have hwpre : w <+: op ++ r := by rw [← hr, h2]; exact List.prefix_append w _
  have hopw : op <+: w :=
    List.prefix_of_prefix_length_le (List.prefix_append op r) hwpre hle
  refine ⟨{ type := determineTokenType w .operator, lexeme := w, line := lx1.line,
            column := lx1.column }, lx1.advance w, ?_, rfl, hopw, h4⟩
  rw [getNextToken_of_skip hs, if_neg heof, dispatch_operator_of_table ho1 hr' hhead hnum hell]
  simp only
  rw [runAutomaton_of_scan h1, if_pos h3]


/-! ## Lexemes are slices of the buffer -/

theorem slice_advance {lx : Lexer} {w r : List Char} (hr : lx.rest = w ++ r) :
    w.length ≤ (lx.advance w).currentPosition ∧
      ((lx.advance w).sourceBuffer.drop ((lx.advance w).currentPosition - w.length)).take
        w.length = w := by
  rw [advance_currentPosition, advance_sourceBuffer]
  refine ⟨by omega, ?_⟩
  have h1 : lx.currentPosition + w.length - w.length = lx.currentPosition := by omega
  rw [h1]
  show (lx.rest).take w.length = w
  rw [hr]
  simp

/-- The lexeme that `getNextToken` returns is the piece of the buffer that ends at the
position the call leaves. -/
theorem lexes_slice {lx : Lexer} {res : Token × Lexer} (h : Lexes lx res) :
    res.1.lexeme.length ≤ res.2.currentPosition ∧
      (res.2.sourceBuffer.drop (res.2.currentPosition - res.1.lexeme.length)).take
        res.1.lexeme.length = res.1.lexeme := by
  induction h with
  | @eof lx lx1 hs hnil => exact ⟨Nat.zero_le _, rfl⟩
  | @unknown lx lx1 hs hne hd =>
    cases hr : lx1.rest with
    | nil => exact absurd hr hne
    | cons c cs =>
      have hpk : lx1.peekChar 0 = c := by rw [peekChar_eq, hr]; rfl
      have hr2 : (lx1.reportError "Unrecognized character".toList).rest = [c] ++ cs := hr
      simp only [Lexer.unknownToken, hpk]
      exact slice_advance hr2
  | @accept lx lx1 id st w r hs hne hd hsc hr hw hst hacc => exact slice_advance hr
  | reject hs hne hd hsc hr hw hst hacc hrec ih => exact ih

/-- The lexeme that `getNextToken` returns is empty exactly for the `EndOfFile` token. -/
theorem lexes_empty_iff {lx : Lexer} {res : Token × Lexer} (h : Lexes lx res) :
    res.1.lexeme = [] ↔ res.1.type = TokenType.EndOfFile := by
  induction h with
  | @eof lx lx1 hs hnil => exact ⟨fun _ => rfl, fun _ => rfl⟩
  | @unknown lx lx1 hs hne hd =>
    constructor
    · intro h; cases h
    · intro h; cases h
  | @accept lx lx1 id st w r hs hne hd hsc hr hw hst hacc =>
    constructor
    · intro h; exact absurd h (accepted_nonempty hne hd hr hw hst hacc)
    · intro h; exact absurd h (determineTokenType_ne_eof _ _)
  | reject hs hne hd hsc hr hw hst hacc hrec ih => exact ih


/-! ## The kinds of the returned tokens -/

theorem determineTokenType_kind (w : List Char) (id : AutomatonId) :
    determineTokenType w id ∈ [TokenType.Identifier, TokenType.Keyword, TokenType.Literal,
      TokenType.Operator, TokenType.Separator] := by
  cases id with
  | identifier =>
    simp only [determineTokenType]
    split <;> decide
  | number => simp [determineTokenType]
  | string => simp [determineTokenType]
  | operator => simp [determineTokenType]
  | separator => simp [determineTokenType]

/-- The token that `getNextToken` returns has one of seven kinds. -/
theorem lexes_kind {lx : Lexer} {res : Token × Lexer} (h : Lexes lx res) :
    res.1.type ∈ [TokenType.Identifier, TokenType.Keyword, TokenType.Literal,
      TokenType.Operator, TokenType.Separator, TokenType.Unknown, TokenType.EndOfFile] := by
  induction h with
  | eof hs hnil => simp [Lexer.eofToken]
  | unknown hs hne hd => simp [Lexer.unknownToken]
  | @accept lx lx1 id st w r hs hne hd hsc hr hw hst hacc =>
    have h := determineTokenType_kind w id
    simp only [List.mem_cons, List.mem_singleton, List.not_mem_nil, or_false] at h ⊢
    rcases h with h | h | h | h | h <;> simp [h]
  | reject hs hne hd hsc hr hw hst hacc hrec ih => exact ih

/-- For an iteration order of the operator set the character `#` matches no branch of the
`if` chain of `getNextToken`. -/
theorem dispatch_hash {lx : Lexer} (ho : IterationOrder lx.operators) {cs : List Char}
    (hr : lx.rest = '#' :: cs) : lx.dispatch = none := by
  have hpk : lx.peekChar 0 = '#' := by rw [peekChar_eq, hr]; rfl
  have hop : lx.isOperatorStart '#' = false := not_isOperatorStart ho (by decide)
  have hsep : lx.isSeparatorStart '#' = false := by
    rw [isSeparatorStart_iff, separatorAutomaton_shape.1, separatorAutomaton_find]
    decide
  unfold Lexer.dispatch
  dsimp only
  rw [hpk, hop, hsep]
  rw [if_neg (by decide), if_neg (by rintro (h | ⟨h, -⟩) <;> revert h <;> decide),
    if_neg (by decide), if_neg (fun h => absurd h.1 (by decide)), if_neg (by simp),
    if_neg (by simp)]


/-! ## The claims -/

/-- C1: every call of `getNextToken` returns (the recursion through `runAutomaton`
included), and on a fresh lexer over a buffer of length `n` one of the first `n + 1` calls
returns an `EndOfFile` token. -/
theorem c1_reaches_end_of_file :
    (∀ lx : Lexer, ∃ res, lx.getNextToken = some res) ∧
    ∀ (source : List Char) (order : List (List Char)),
      ∃ k, k ≤ source.length ∧ ∃ tok lx, (Lexer.new source order).nthCall k = some (tok, lx) ∧
        tok.type = TokenType.EndOfFile := by
  refine ⟨getNextToken_total, fun source order => ?_⟩
  have key : ∀ (n : Nat) (lx : Lexer), lx.rest.length ≤ n →
      ∃ k, k ≤ n ∧ ∃ tok lx', lx.nthCall k = some (tok, lx') ∧
        tok.type = TokenType.EndOfFile := by
    intro n
    induction n with
    | zero =>
      intro lx h
      have hnil : lx.rest = [] := List.length_eq_zero.mp (by omega)
      exact ⟨0, Nat.le_refl _, _, _, getNextToken_at_end hnil, rfl⟩
    | succ n ih =>
      intro lx h
      obtain ⟨res, h1, h2⟩ := getNextToken_spec lx
      by_cases ht : res.1.type = TokenType.EndOfFile
      · exact ⟨0, Nat.zero_le _, res.1, res.2, h1, ht⟩
      · have h3 := (lexes_progress h2).2.2.2 ht
        obtain ⟨k, hk, tok, lx', h4, h5⟩ := ih res.2 (by omega)
        refine ⟨k + 1, by omega, tok, lx', ?_, h5⟩
        simp only [Lexer.nthCall]
        rw [h1, Option.some_bind]
        exact h4
  have h0 : (Lexer.new source order).rest.length ≤ source.length := by
    simp [Lexer.new, Lexer.rest]
  exact key _ _ h0

/-- C2 fails as stated: on the buffer `1e`, which holds no whitespace and no comment, the
scan of `1e` is rejected, the character `1` is discarded, and the session returns the
tokens `e` and `EndOfFile`, whatever the iteration order of the operator set; the lexemes
and the skipped trivia put together give `e`, not `1e`. -/
theorem c2_lossless_counterexample :
    (∀ order : List (List Char),
      (reconstruct 3 (Lexer.new "1e".toList order)).map Prod.fst = some ['e']) ∧
    ['e'] ≠ "1e".toList ∧
    (∀ c ∈ "1e".toList, isspace c = false ∧ c ≠ '/') ∧
    (∀ order : List (List Char),
      ((Lexer.new "1e".toList order).nthCall 0).map (fun r => r.1.lexeme) = some ['e']) ∧
    (∀ order : List (List Char),
      ((Lexer.new "1e".toList order).nthCall 1).map (fun r => r.1.type) =
        some TokenType.EndOfFile) :=
  ⟨fun _ => rfl, by decide, by decide, fun _ => rfl, fun _ => rfl⟩

/-- C2, amended: for every source buffer (and iteration order of the operator set) the
session reaches `EndOfFile` within `n + 1` calls, and when no scan was rejected (no
`Invalid token` report was written to `std::cerr`) the lexemes returned by the calls,
interleaved with the trivia spans skipped at the start of each call, give back the buffer. -/
theorem c2_lossless_without_rejection (source : List Char) (order : List (List Char)) :
    ∃ text final, reconstruct (source.length + 1) (Lexer.new source order) = some (text, final) ∧
      ((∀ l ∈ final.stderr, isRejection l = false) → text = source) := by
  obtain ⟨text, final, extra, h1, h2, h3⟩ :=
    reconstruct_spec source.length (Lexer.new source order) (by simp [Lexer.new, Lexer.rest])
  refine ⟨text, final, h1, fun hno => ?_⟩
  have h4 : (Lexer.new source order).rest = source := by simp [Lexer.new, Lexer.rest]
  rw [← h4]
  apply h3
  intro l hl
  apply hno
  rw [h2]
  exact List.mem_append_right _ hl

/-- C2 amended, at the input `a /*c*/ b`: no scan is rejected and the reconstruction is the
buffer. -/
theorem c2_lossless_without_rejection_witness :
    (reconstruct ("a /*c*/ b".toList.length + 1)
      (Lexer.new "a /*c*/ b".toList operatorTable.dedup)).map Prod.fst =
        some "a /*c*/ b".toList := by
  obtain ⟨text, final, h1, h2⟩ :=
    c2_lossless_without_rejection "a /*c*/ b".toList operatorTable.dedup
  have h3 : (reconstruct ("a /*c*/ b".toList.length + 1)
      (Lexer.new "a /*c*/ b".toList operatorTable.dedup)).all
        (fun r => r.2.stderr.all (fun l => !isRejection l)) = true := by decide
  rw [h1] at h3 ⊢
  simp only [Option.all_some, List.all_eq_true, Bool.not_eq_true'] at h3
  rw [Option.map_some', h2 h3]

set_option maxRecDepth 20000 in
/-- C3 fails on the code after a rejected scan: the error path of `runAutomaton` moves
`currentPosition` back but leaves `line` and `column` where the rejected scan ended. On the
buffer `1e` (whatever the iteration order of the operator set) the token `e`, which starts at
offset 1, line 1, column 2, is returned with column 3; on the buffer of a quote, a backslash
and a newline the backslash (offset 1, line 1, column 2) is returned as an `Unknown` token
with line 2, column 1. -/
theorem c3_position_after_rewind :
    (∀ order : List (List Char),
      ∃ tok lx', (Lexer.new "1e".toList order).getNextToken = some (tok, lx') ∧
        tok.type = TokenType.Identifier ∧ tok.lexeme = ['e'] ∧
        tok.line = 1 ∧ tok.column = 3 ∧
        lineAt "1e".toList (lx'.currentPosition - tok.lexeme.length) = 1 ∧
        columnAt "1e".toList (lx'.currentPosition - tok.lexeme.length) = 2) ∧
    (∃ tok lx', (Lexer.new ['"', '\\', '\n'] operatorTable.dedup).getNextToken =
        some (tok, lx') ∧
      tok.type = TokenType.Unknown ∧ tok.lexeme = ['\\'] ∧
      tok.line = 2 ∧ tok.column = 1 ∧
      lineAt ['"', '\\', '\n'] (lx'.currentPosition - tok.lexeme.length) = 1 ∧
      columnAt ['"', '\\', '\n'] (lx'.currentPosition - tok.lexeme.length) = 2) :=
  ⟨fun order =>
    ⟨{ type := TokenType.Identifier, lexeme := ['e'], line := 1, column := 3 },
      ((Lexer.new "1e".toList order).traced.rewound "1e".toList).traced.advance ['e'],
      rfl, rfl, rfl, rfl, rfl, rfl, rfl⟩,
   ⟨{ type := TokenType.Unknown, lexeme := ['\\'], line := 2, column := 1 },
      ((((Lexer.new ['"', '\\', '\n'] operatorTable.dedup).traced.rewound
        ['"', '\\', '\n']).traced).reportError "Unrecognized character".toList).advance ['\\'],
      by decide, rfl, rfl, rfl, rfl, by decide, by decide⟩⟩

/-- C4: `determineTokenType` for the identifier automaton is `Keyword` exactly on the
reserved words and `Identifier` on every other lexeme; the number and string automata give
`Literal`, the operator automaton `Operator` and the separator automaton `Separator`,
whatever the lexeme. -/
theorem c4_keyword_identifier_partition (lexeme : List Char) :
    (determineTokenType lexeme .identifier = TokenType.Keyword ↔ lexeme ∈ keywords) ∧
    (determineTokenType lexeme .identifier = TokenType.Identifier ↔ lexeme ∉ keywords) ∧
    determineTokenType lexeme .number = TokenType.Literal ∧
    determineTokenType lexeme .string = TokenType.Literal ∧
    determineTokenType lexeme .operator = TokenType.Operator ∧
    determineTokenType lexeme .separator = TokenType.Separator := by
  refine ⟨?_, ?_, rfl, rfl, rfl, rfl⟩
  · by_cases h : lexeme ∈ keywords <;> simp [determineTokenType, h]
  · by_cases h : lexeme ∈ keywords <;> simp [determineTokenType, h]

/-- C5: for every iteration order of the operator set, when the input left after the
skipping of trivia begins with a character that starts an operator and neither the number
rule (a dot followed by a digit) nor the ellipsis rule (three dots) applies, `getNextToken`
returns an `Operator` token whose lexeme is the longest prefix of that input that is in the
operator table; in particular an operator of the table followed by whitespace or the end of
the buffer is returned as an `Operator` token with exactly that lexeme. -/
theorem c5_operator_longest_match (lx lx1 : Lexer) (ho : IterationOrder lx.operators)
    (hs : lx.traced.skipWhitespaceAndComments = some lx1) :
    (∀ (c : Char) (cs : List Char), lx1.rest = c :: cs →
      (∃ op ∈ operatorTable, op.head? = some c) →
      ¬ (c = '.' ∧ ∃ d ds, cs = d :: ds ∧ isdigit d = true) →
      ¬ (c = '.' ∧ ∃ ds, cs = '.' :: '.' :: ds) →
      ∃ w lx', lx.getNextToken = some ({ type := TokenType.Operator, lexeme := w,
                                         line := lx1.line, column := lx1.column }, lx') ∧
        lx1.rest = w ++ lx'.rest ∧ w ∈ operatorTable ∧
        ∀ v ∈ operatorTable, v <+: lx1.rest → v.length ≤ w.length) ∧
    (∀ (op r : List Char), op ∈ operatorTable → lx1.rest = op ++ r →
      (r = [] ∨ ∃ d ds, r = d :: ds ∧ isspace d = true) →
      ∃ lx', lx.getNextToken = some ({ type := TokenType.Operator, lexeme := op,
                                       line := lx1.line, column := lx1.column }, lx') ∧
        lx'.rest = r) := by
  obtain ⟨w0, r0, -, hlx1, -⟩ := skip_eq_advance hs
  have ho1 : IterationOrder lx1.operators := by
    rw [hlx1]; simpa [Lexer.traced] using ho
  have main : ∀ (c : Char) (cs : List Char), lx1.rest = c :: cs →
      (∃ op ∈ operatorTable, op.head? = some c) →
      ¬ (c = '.' ∧ ∃ d ds, cs = d :: ds ∧ isdigit d = true) →
      ¬ (c = '.' ∧ ∃ ds, cs = '.' :: '.' :: ds) →
      ∃ w lx', lx.getNextToken = some ({ type := TokenType.Operator, lexeme := w,
                                         line := lx1.line, column := lx1.column }, lx') ∧
        lx1.rest = w ++ lx'.rest ∧ w ∈ operatorTable ∧
        ∀ v ∈ operatorTable, v <+: lx1.rest → v.length ≤ w.length := by
    intro c cs hr hop hnum hell
    obtain ⟨st, w, r, h1, h2, h3, h4, h5⟩ := operator_scan ho1 hr hop
    have heof : ¬ lx1.isEOF = true := fun h => by
      rw [(isEOF_iff_rest _).mp h] at hr; cases hr
    refine ⟨w, lx1.advance w, ?_, by rw [advance_rest h2]; exact h2, h4, h5⟩
    rw [getNextToken_of_skip hs, if_neg heof, dispatch_operator_of_table ho1 hr hop hnum hell]
    simp only
    rw [runAutomaton_of_scan h1, if_pos h3]
    rfl
  refine ⟨main, ?_⟩
  intro op r hop hr hend
  obtain ⟨c, cs, hopc⟩ : ∃ c cs, op = c :: cs := by
    cases op with
    | nil => exact absurd rfl (operatorTable_nonempty _ hop)
    | cons c cs => exact ⟨c, cs, rfl⟩
  have hr' : lx1.rest = c :: (cs ++ r) := by rw [hr, hopc]; rfl
  have hrhead : ∀ d ds, r = d :: ds → isspace d = true := by
    intro d ds h
    rcases hend with h0 | ⟨d', ds', h0, h1⟩
    · rw [h0] at h; cases h
    · rw [h0] at h; cases h; exact h1
  have hdot : c = '.' → cs = [] ∨ cs = ['*'] := by
    intro hc
    rcases operatorTable_dot op hop (by rw [hopc, hc]; rfl) with h | h
    · rw [hopc] at h; cases h; exact Or.inl rfl
    · rw [hopc] at h; cases h; exact Or.inr rfl
  obtain ⟨w, lx', h1, h2, h3, h4⟩ := main c (cs ++ r) hr' ⟨op, hop, by rw [hopc]; rfl⟩
    (by
      rintro ⟨hc, d, ds, hd, hdig⟩
      rcases hdot hc with h | h
      · subst h
        have := hrhead d ds (by simpa using hd)
        revert this hdig
        unfold isspace isdigit
        simp only [Bool.and_eq_true, Bool.or_eq_true, decide_eq_true_eq]
        omega
      · subst h
        simp only [List.singleton_append, List.cons.injEq] at hd
        rw [← hd.1] at hdig
        revert hdig; decide)
    (by
      rintro ⟨hc, ds, hd⟩
      rcases hdot hc with h | h
      · subst h
        have := hrhead '.' ('.' :: ds) (by simpa using hd)
        revert this; decide
      · subst h
        simp only [List.singleton_append, List.cons.injEq] at hd
        exact absurd hd.1 (by decide))
  have hle : op.length ≤ w.length := h4 op hop (by rw [hr]; exact List.prefix_append op r)
  have hwpre : w <+: op ++ r := by rw [← hr, h2]; exact List.prefix_append w _
  have hopw : op <+: w :=
    List.prefix_of_prefix_length_le (List.prefix_append op r) hwpre hle
  obtain ⟨u, hu⟩ := hopw
  have hunil : u = [] := by
    cases u with
    | nil => rfl
    | cons d u' =>
      exfalso
      have hdr : d :: u' <+: r := by
        rw [← hu] at hwpre
        exact (List.prefix_append_right_inj op).mp hwpre
      obtain ⟨r', hr''⟩ := hdr
      have hsp := hrhead d (u' ++ r') (by rw [← hr'']; rfl)
      have hns := operatorTable_no_space w h3 d (by rw [← hu]; simp)
      rw [hsp] at hns
      cases hns
  subst hunil
  rw [List.append_nil] at hu
  subst hu
  refine ⟨lx', h1, ?_⟩
  rw [hr] at h2
  exact (List.append_cancel_left h2).symm

/-- C5, at the input ` <<= x` with the operators iterated in table order: the first token is
the operator `<<=`, both as the longest operator prefix of `<<= x` and as an operator
followed by a blank. -/
theorem c5_operator_longest_match_witness :
    (∃ w lx', (Lexer.new " <<= x".toList operatorTable.dedup).getNextToken =
        some ({ type := TokenType.Operator, lexeme := w, line := 1, column := 2 }, lx') ∧
      "<<= x".toList = w ++ lx'.rest ∧ w ∈ operatorTable ∧
      ∀ v ∈ operatorTable, v <+: "<<= x".toList → v.length ≤ w.length) ∧
    (∃ lx', (Lexer.new " <<= x".toList operatorTable.dedup).getNextToken =
        some ({ type := TokenType.Operator, lexeme := "<<=".toList, line := 1,
                column := 2 }, lx') ∧
      lx'.rest = " x".toList) :=
  ⟨(c5_operator_longest_match (Lexer.new " <<= x".toList operatorTable.dedup)
      ((Lexer.new " <<= x".toList operatorTable.dedup).traced.advance [' '])
      ⟨List.nodup_dedup _, fun _ => List.mem_dedup⟩ (by decide)).1 '<' "<= x".toList
      (by decide) ⟨['<'], by decide, rfl⟩ (fun h => absurd h.1 (by decide))
      (fun h => absurd h.1 (by decide)),
   (c5_operator_longest_match (Lexer.new " <<= x".toList operatorTable.dedup)
      ((Lexer.new " <<= x".toList operatorTable.dedup).traced.advance [' '])
      ⟨List.nodup_dedup _, fun _ => List.mem_dedup⟩ (by decide)).2 "<<=".toList " x".toList
      (by decide) (by decide) (Or.inr ⟨' ', ['x'], by decide, by decide⟩)⟩

/-- C6: before the end of the buffer `readChar` returns the character under the cursor and
moves the position by one; on a newline the line grows by one and the column becomes 1,
otherwise the column grows by one and the line stays. At the end of the buffer it returns
the NUL character and leaves position, line and column as they are. -/
theorem c6_readChar_position_tracking (lx : Lexer) :
    (lx.isEOF = false →
      lx.sourceBuffer.get? lx.currentPosition = some lx.readChar.1 ∧
      lx.readChar.2.currentPosition = lx.currentPosition + 1 ∧
      (lx.readChar.1 = '\n' →
        lx.readChar.2.line = lx.line + 1 ∧ lx.readChar.2.column = 1) ∧
      (lx.readChar.1 ≠ '\n' →
        lx.readChar.2.column = lx.column + 1 ∧ lx.readChar.2.line = lx.line)) ∧
    (lx.isEOF = true →
      lx.readChar.1 = '\x00' ∧ lx.readChar.2.currentPosition = lx.currentPosition ∧
      lx.readChar.2.line = lx.line ∧ lx.readChar.2.column = lx.column) := by
  constructor
  · intro h
    have hlt : lx.currentPosition < lx.sourceBuffer.length := by
      simpa [Lexer.isEOF] using h
    have hget : lx.sourceBuffer.getD lx.currentPosition '\x00' =
        lx.sourceBuffer[lx.currentPosition] := by
      simp [List.getD_eq_getElem?_getD, List.getElem?_eq_getElem hlt]
    unfold Lexer.readChar
    rw [if_neg (by omega)]
    simp only [hget]
    split
    · rename_i hc
      refine ⟨by simp [List.get?_eq_getElem?, List.getElem?_eq_getElem hlt], rfl,
        fun _ => ⟨rfl, rfl⟩, fun hne => absurd hc hne⟩
    · rename_i hc
      refine ⟨by simp [List.get?_eq_getElem?, List.getElem?_eq_getElem hlt], rfl,
        fun he => absurd he hc, fun _ => ⟨rfl, rfl⟩⟩
  · intro h
    have hge : lx.currentPosition ≥ lx.sourceBuffer.length := by
      simpa [Lexer.isEOF] using h
    unfold Lexer.readChar
    rw [if_pos hge]
    exact ⟨rfl, rfl, rfl, rfl⟩

/-- C7: once `getNextToken` has returned an `EndOfFile` token, every later call returns an
`EndOfFile` token with empty lexeme and the same line and column, and leaves position, line
and column of the cursor unchanged. -/
theorem c7_end_of_file_is_terminal (lx lx' : Lexer) (tok : Token)
    (h : lx.getNextToken = some (tok, lx')) (heof : tok.type = TokenType.EndOfFile) (k : Nat) :
    ∃ lx'', lx'.nthCall k = some ({ type := TokenType.EndOfFile, lexeme := [],
                                    line := tok.line, column := tok.column }, lx'') ∧
      lx''.currentPosition = lx'.currentPosition ∧ lx''.line = lx'.line ∧
      lx''.column = lx'.column := by
  have h1 := lexes_eof (getNextToken_lexes _ lx (tok, lx') (Nat.le_refl _) h) heof
  obtain ⟨lx'', h2, -, h3, h4, h5⟩ := nthCall_at_end k lx' h1.1
  have h6 : tok.line = lx'.line := congrArg Token.line h1.2
  have h7 : tok.column = lx'.column := congrArg Token.column h1.2
  exact ⟨lx'', by rw [h6, h7]; exact h2, h3, h4, h5⟩

/-- C7, at the input of one blank: the first call skips the blank and returns `EndOfFile`
at line 1, column 2, and so does the fourth call. -/
theorem c7_end_of_file_is_terminal_witness :
    ∃ lx'', Lexer.nthCall 2 ((Lexer.new " ".toList operatorTable.dedup).traced.advance [' ']) =
          some ({ type := TokenType.EndOfFile, lexeme := [], line := 1, column := 2 }, lx'') ∧
      lx''.currentPosition = 1 ∧ lx''.line = 1 ∧ lx''.column = 2 :=
  c7_end_of_file_is_terminal (Lexer.new " ".toList operatorTable.dedup)
    ((Lexer.new " ".toList operatorTable.dedup).traced.advance [' '])
    { type := TokenType.EndOfFile, lexeme := [], line := 1, column := 2 }
    (by decide) (by decide) 2

/-- C8: when the character `c` under the cursor after the skipping of trivia is no
identifier start, no digit, no quote and no first character of an operator or separator
path, `getNextToken` writes one `Unrecognized character` diagnostic (after its size trace),
consumes exactly that character and returns an `Unknown` token with lexeme `c` at the line
and column the cursor had before; and every `Unknown` token that `getNextToken` returns has
a lexeme of length 1. -/
theorem c8_unmatched_character :
    (∀ (lx lx1 : Lexer) (c : Char) (cs : List Char),
      lx.traced.skipWhitespaceAndComments = some lx1 → lx1.rest = c :: cs →
      isIdentifierStart c = false → isDigit c = false → c ≠ '"' → c ≠ '\'' →
      lx1.isOperatorStart c = false → lx1.isSeparatorStart c = false →
      ∃ lx', lx.getNextToken = some ({ type := TokenType.Unknown, lexeme := [c],
                                       line := lx1.line, column := lx1.column }, lx') ∧
        lx'.currentPosition = lx1.currentPosition + 1 ∧ lx'.rest = cs ∧
        lx'.stderr = lx.stderr ++ [StderrLine.trace lx.sourceBuffer.length,
          StderrLine.error lx1.line lx1.column "Unrecognized character".toList]) ∧
    (∀ (lx lx' : Lexer) (tok : Token), lx.getNextToken = some (tok, lx') →
      tok.type = TokenType.Unknown → tok.lexeme.length = 1) := by
  constructor
  · intro lx lx1 c cs hs hr h1 h2 h3 h4 h5 h6
    obtain ⟨w0, r0, -, hlx1, -⟩ := skip_eq_advance hs
    have hpk : lx1.peekChar 0 = c := by rw [peekChar_eq, hr]; rfl
    have hdot : c ≠ '.' := by
      intro hc
      subst hc
      revert h6
      unfold Lexer.isSeparatorStart
      show (match separatorAutomaton.transitions separatorAutomaton.startState with
        | some stateTransitions => (stateTransitions '.').isSome
        | none => false) = false → False
      decide
    have hd : lx1.dispatch = none := by
      unfold Lexer.dispatch
      dsimp only
      rw [hpk, h1, h2, h5, h6]
      rw [if_neg (by simp), if_neg (by simp [hdot]), if_neg (by simp [h3, h4]),
        if_neg (by simp [hdot]), if_neg (by simp), if_neg (by simp)]
    have heof : ¬ lx1.isEOF = true := fun h => by
      rw [(isEOF_iff_rest _).mp h] at hr; cases hr
    refine ⟨lx1.unknownToken.2, ?_, ?_, ?_, ?_⟩
    · rw [getNextToken_of_skip hs, if_neg heof, hd]
      simp only [Lexer.unknownToken, hpk]
    · simp [Lexer.unknownToken, Lexer.reportError]
    · simp only [Lexer.unknownToken, hpk]
      exact advance_rest (w := [c]) (by simpa using hr)
    · simp only [Lexer.unknownToken, advance_stderr, Lexer.reportError]
      rw [hlx1]
      simp [Lexer.traced]
  · intro lx lx' tok h ht
    have hl := getNextToken_lexes _ lx (tok, lx') (Nat.le_refl _) h
    have key : ∀ {lx : Lexer} {res : Token × Lexer}, Lexes lx res →
        res.1.type = TokenType.Unknown → res.1.lexeme.length = 1 := by
      intro lx res hl
      induction hl with
      | eof hs hnil => intro h; cases h
      | unknown hs hne hd => intro _; rfl
      | accept hs hne hd hsc hr hw hst hacc =>
        intro h; exact absurd h (determineTokenType_ne_unknown _ _)
      | reject hs hne hd hsc hr hw hst hacc hrec ih => exact ih
    exact key hl ht

/-- C8, at the input ` @`: after the blank, the character `@` comes back as an `Unknown`
token at line 1, column 2, with one diagnostic after the size trace. -/
theorem c8_unmatched_character_witness :
    ∃ lx', (Lexer.new " @".toList operatorTable.dedup).getNextToken =
        some ({ type := TokenType.Unknown, lexeme := ['@'], line := 1, column := 2 }, lx') ∧
      lx'.currentPosition = 1 + 1 ∧ lx'.rest = [] ∧
      lx'.stderr = [] ++ [StderrLine.trace 2,
        StderrLine.error 1 2 "Unrecognized character".toList] :=
  c8_unmatched_character.1 (Lexer.new " @".toList operatorTable.dedup)
    ((Lexer.new " @".toList operatorTable.dedup).traced.advance [' ']) '@' []
    (by decide) (by decide) (by decide) (by decide) (by decide) (by decide) (by decide)
    (by decide)

/-- C9: when the input left after the skipping of trivia begins with three dots,
`getNextToken` returns one `Separator` token with lexeme `...`, at the line and column of the
first dot, and the position has moved by exactly 3. -/
theorem c9_ellipsis (lx lx1 : Lexer) (cs : List Char)
    (hs : lx.traced.skipWhitespaceAndComments = some lx1)
    (hr : lx1.rest = '.' :: '.' :: '.' :: cs) :
    ∃ lx', lx.getNextToken = some ({ type := TokenType.Separator, lexeme := ['.', '.', '.'],
                                     line := lx1.line, column := lx1.column }, lx') ∧
      lx'.currentPosition = lx1.currentPosition + 3 ∧ lx'.rest = cs := by
  refine ⟨lx1.advance ['.', '.', '.'], ?_, by simp, advance_rest (by simpa using hr)⟩
  have hw : (lx1.automaton .separator).walk (lx1.automaton .separator).startState
      ['.', '.', '.'] = some 1 := by
    show separatorAutomaton.walk separatorAutomaton.startState ['.', '.', '.'] = some 1
    rw [separatorAutomaton_shape.1]
    simp only [Automaton.walk, separatorAutomaton_find]
    decide
  exact getNextToken_of_walk (r := cs) hs (by rw [hr]; simp) (dispatch_ellipsis hr)
    (by decide) (by simpa using hr) hw
    (by
      cases cs with
      | nil => exact Or.inl rfl
      | cons c cs' =>
        refine Or.inr ⟨c, cs', rfl, ?_⟩
        show separatorAutomaton.find 1 c = none
        rw [separatorAutomaton_find]
        simp [separatorTable])
    (by
      show 1 ∈ separatorAutomaton.acceptingStates
      rw [separatorAutomaton_shape.2]; decide)

/-- C9, at the input ` ...x`: after the blank, the token is the separator `...` at line 1,
column 2, and the position is 4. -/
theorem c9_ellipsis_witness :
    ∃ lx', (Lexer.new " ...x".toList operatorTable.dedup).getNextToken =
        some ({ type := TokenType.Separator, lexeme := ['.', '.', '.'], line := 1,
                column := 2 }, lx') ∧
      lx'.currentPosition = 1 + 3 ∧ lx'.rest = ['x'] :=
  c9_ellipsis (Lexer.new " ...x".toList operatorTable.dedup)
    ((Lexer.new " ...x".toList operatorTable.dedup).traced.advance [' ']) ['x']
    (by decide) (by decide)

/-- C10: when the input left after the skipping of trivia is a complete numeral `s` followed
by whitespace or the end of the buffer, `getNextToken` returns a `Literal` token whose lexeme
is exactly `s`, and the cursor is left right behind `s`. -/
theorem c10_numeric_literal (lx lx1 : Lexer) (s r : List Char)
    (hs : lx.traced.skipWhitespaceAndComments = some lx1) (hnum : IsNumeral s)
    (hr : lx1.rest = s ++ r) (hend : r = [] ∨ ∃ c cs, r = c :: cs ∧ isspace c = true) :
    ∃ lx', lx.getNextToken = some ({ type := TokenType.Literal, lexeme := s,
                                     line := lx1.line, column := lx1.column }, lx') ∧
      lx'.rest = r := by
  obtain ⟨st, hw, hst⟩ := number_walk_numeral hnum
  have hne : s ≠ [] := by
    intro h; subst h
    rcases hst with h | h | h <;> subst h <;> simp [Automaton.walk] at hw
  refine ⟨lx1.advance s, ?_, advance_rest hr⟩
  exact getNextToken_of_walk (r := r) hs
    (by rw [hr]; simp [hne]) (dispatch_numeral hnum hr) (by decide) hr
    (by
      show numberAutomaton.walk numberAutomaton.startState s = some st
      rw [numberAutomaton_shape.1]; exact hw)
    (by
      rcases hend with h | ⟨c, cs, h, hc⟩
      · exact Or.inl h
      · exact Or.inr ⟨c, cs, h, number_find_space st hc⟩)
    (by
      show st ∈ numberAutomaton.acceptingStates
      rw [numberAutomaton_shape.2]
      rcases hst with h | h | h <;> subst h <;> decide)

/-- C10, at the input ` 6.022e23 x`: the first token is the literal `6.022e23`. -/
theorem c10_numeric_literal_witness :
    ∃ lx', (Lexer.new " 6.022e23 x".toList operatorTable.dedup).getNextToken =
        some ({ type := TokenType.Literal, lexeme := "6.022e23".toList, line := 1,
                column := 2 }, lx') ∧
      lx'.rest = " x".toList :=
  c10_numeric_literal (Lexer.new " 6.022e23 x".toList operatorTable.dedup)
    ((Lexer.new " 6.022e23 x".toList operatorTable.dedup).traced.advance [' '])
    "6.022e23".toList " x".toList (by decide)
    ⟨"6.022".toList, "e23".toList, by decide,
      Or.inr (Or.inl ⟨['6'], "022".toList, by decide, by decide, by decide⟩),
      Or.inr ⟨'e', [], "23".toList, by decide, Or.inl rfl, Or.inl rfl, by decide⟩⟩
    (by decide) (Or.inr ⟨' ', ['x'], by decide, by decide⟩)


/-- C11: for a quote character `q` and a body `b` of printable ASCII characters other than the
quotes and the backslash and of escape pairs, when the input left after the skipping of trivia
begins with `q b q`, `getNextToken` returns a `Literal` token whose lexeme is exactly `q b q`,
and the cursor is left right behind the closing quote. -/
theorem c11_string_literal (lx lx1 : Lexer) (q : Char) (b r : List Char)
    (hs : lx.traced.skipWhitespaceAndComments = some lx1)
    (hq : q = '"' ∨ q = '\'') (hb : isStringBody b = true)
    (hr : lx1.rest = q :: (b ++ q :: r)) :
    ∃ lx', lx.getNextToken = some ({ type := TokenType.Literal, lexeme := q :: (b ++ [q]),
                                     line := lx1.line, column := lx1.column }, lx') ∧
      lx'.rest = r := by
  refine ⟨lx1.advance (q :: (b ++ [q])), ?_, advance_rest (by simp [hr])⟩
  have heof : ¬ lx1.isEOF = true := fun h => by
    rw [(isEOF_iff_rest _).mp h] at hr; cases hr
  rw [getNextToken_of_skip hs, if_neg heof, dispatch_quote hq hr]
  simp only
  rw [runAutomaton_of_scan (string_scan hq hb hr), if_pos]
  · rfl
  · show 2 ∈ stringAutomaton.acceptingStates
    rw [stringAutomaton_shape.2]; decide

/-- C11, at the input ` "a\"b" x`: the escaped quote does not end the literal, and the scan
stops right behind the closing quote. -/
theorem c11_string_literal_witness :
    ∃ lx', (Lexer.new " \"a\\\"b\" x".toList operatorTable.dedup).getNextToken =
        some ({ type := TokenType.Literal, lexeme := '"' :: ("a\\\"b".toList ++ ['"']),
                line := 1, column := 2 }, lx') ∧
      lx'.rest = " x".toList :=
  c11_string_literal (Lexer.new " \"a\\\"b\" x".toList operatorTable.dedup)
    ((Lexer.new " \"a\\\"b\" x".toList operatorTable.dedup).traced.advance [' '])
    '"' "a\\\"b".toList " x".toList (by decide) (Or.inl rfl) (by decide) (by decide)

set_option maxRecDepth 20000 in
/-- C12 fails on the code: the string automaton goes from state 1 to the accepting state 2 on
either quote, and the remembered opening quote only decides whether the loop of
`runAutomaton` stops at once. On the buffer `"abc'` (whatever the iteration order of the
operator set) `getNextToken` returns the `Literal` token `"abc'`, which begins with a double
quote and ends with a single quote; on the buffer `'a" b` it returns the `Literal` token
`'a"`. -/
theorem c12_mixed_quotes_accepted :
    (∀ order : List (List Char),
      ∃ tok lx', (Lexer.new "\"abc'".toList order).getNextToken = some (tok, lx') ∧
        tok.type = TokenType.Literal ∧ tok.lexeme = "\"abc'".toList ∧
        tok.lexeme.head? = some '"' ∧ tok.lexeme.getLast? = some '\'' ∧ lx'.stderr.length = 1) ∧
    (∀ order : List (List Char),
      ∃ tok lx', (Lexer.new "'a\" b".toList order).getNextToken = some (tok, lx') ∧
        tok.type = TokenType.Literal ∧ tok.lexeme = "'a\"".toList ∧
        tok.lexeme.head? = some '\'' ∧ tok.lexeme.getLast? = some '"' ∧ lx'.rest = " b".toList) :=
  ⟨fun order =>
    ⟨{ type := TokenType.Literal, lexeme := "\"abc'".toList, line := 1, column := 1 },
      (Lexer.new "\"abc'".toList order).traced.advance "\"abc'".toList,
      rfl, rfl, rfl, rfl, rfl, rfl⟩,
   fun order =>
    ⟨{ type := TokenType.Literal, lexeme := "'a\"".toList, line := 1, column := 1 },
      (Lexer.new "'a\" b".toList order).traced.advance "'a\"".toList,
      rfl, rfl, rfl, rfl, rfl, rfl⟩⟩

/-- C13: for every cursor state `skipWhitespaceAndComments` returns, leaving the cursor at the
end of the buffer or at a character that is not whitespace and is not the `/` of a `//` or
`/*` marker; and the token that `getNextToken` returns never has a lexeme that begins with a
whitespace character, with `//` or with `/*`. -/
theorem c13_trivia_produce_no_tokens (lx : Lexer) :
    (∃ lx1, lx.skipWhitespaceAndComments = some lx1 ∧
      (lx1.rest = [] ∨ ∃ c cs, lx1.rest = c :: cs ∧ isspace c = false ∧
        ¬ (c = '/' ∧ (cs.head? = some '/' ∨ cs.head? = some '*')))) ∧
    (∃ tok lx', lx.getNextToken = some (tok, lx') ∧ beginsWithTrivia tok.lexeme = false ∧
      ∀ c cs, tok.lexeme = c :: cs → isspace c = false ∧
        ¬ (c = '/' ∧ (cs.head? = some '/' ∨ cs.head? = some '*'))) := by
  have key : ∀ l : List Char, beginsWithTrivia l = false → ∀ c cs, l = c :: cs →
      isspace c = false ∧ ¬ (c = '/' ∧ (cs.head? = some '/' ∨ cs.head? = some '*')) := by
    intro l hl c cs hc
    subst hc
    simp only [beginsWithTrivia, Bool.or_eq_false_iff, Bool.and_eq_false_iff, beq_eq_false_iff_ne,
      ne_eq, beq_iff_eq] at hl
    refine ⟨hl.1, fun h => ?_⟩
    rcases hl.2 with h' | h'
    · exact h' h.1
    · rcases h.2 with h2 | h2
      · exact h'.1 h2
      · exact h'.2 h2
  constructor
  · obtain ⟨w, r, -, h2⟩ := skipWhitespaceAndComments_spec lx
    refine ⟨lx.advance w, h2, ?_⟩
    have h3 := skipWhitespaceAndComments_stops h2
    cases hr : (lx.advance w).rest with
    | nil => exact Or.inl rfl
    | cons c cs => exact Or.inr ⟨c, cs, rfl, key _ h3 c cs hr⟩
  · obtain ⟨res, h1, h2⟩ := getNextToken_spec lx
    exact ⟨res.1, res.2, h1, lexes_no_trivia h2, key _ (lexes_no_trivia h2)⟩

/-- When the character under the cursor after the skipping of trivia is an ASCII letter
or `_`, `getNextToken` returns a `Keyword` or `Identifier` token whose lexeme is the maximal
run of characters of `[A-Za-z0-9_]` that starts there, with the cursor left right behind it;
the token carries the line and column the cursor shows at its first character, which are the
true line and column of that character whenever the cursor showed the true ones when the call
began. The identifier automaton accepts exactly the strings `[A-Za-z_][A-Za-z0-9_]*`. -/
theorem identifier_maximal_munch (lx lx1 : Lexer) (c : Char) (cs : List Char)
    (hs : lx.traced.skipWhitespaceAndComments = some lx1) (hr : lx1.rest = c :: cs)
    (hc : isalpha c = true ∨ c = '_') :
    (∃ tok lx', lx.getNextToken = some (tok, lx') ∧
      (tok.type = TokenType.Keyword ∨ tok.type = TokenType.Identifier) ∧
      tok.lexeme = lx1.rest.takeWhile isIdentifierChar ∧
      lx'.rest = lx1.rest.dropWhile isIdentifierChar ∧
      tok.line = lx1.line ∧ tok.column = lx1.column ∧
      (lx.inSync → tok.line = lineAt lx1.sourceBuffer lx1.currentPosition ∧
        tok.column = columnAt lx1.sourceBuffer lx1.currentPosition)) ∧
    (∀ s : List Char,
      (∃ st, identifierAutomaton.walk identifierAutomaton.startState s = some st ∧
        st ∈ identifierAutomaton.acceptingStates) ↔ isIdentifier s = true) := by
  refine ⟨?_, identifierAutomaton_accepts⟩
  have hstart : isIdentifierStart c = true := by
    rcases hc with h | h <;> simp [isIdentifierStart, h]
  have hchar : isIdentifierChar c = true := by
    rcases hc with h | h <;> simp [isIdentifierChar, h]
  have htw : lx1.rest.takeWhile isIdentifierChar = c :: cs.takeWhile isIdentifierChar := by
    rw [hr, List.takeWhile_cons, if_pos hchar]
  have hdw : lx1.rest.dropWhile isIdentifierChar = cs.dropWhile isIdentifierChar := by
    rw [hr, List.dropWhile_cons, if_pos hchar]
  have hsplit : lx1.rest = (c :: cs.takeWhile isIdentifierChar) ++ cs.dropWhile isIdentifierChar := by
    rw [hr]; simp [List.takeWhile_append_dropWhile]
  have hw : (lx1.automaton .identifier).walk (lx1.automaton .identifier).startState
      (c :: cs.takeWhile isIdentifierChar) = some 1 := by
    show identifierAutomaton.walk identifierAutomaton.startState _ = some 1
    rw [identifierAutomaton_shape.1, walk_cons, identifier_find_zero, if_pos hstart,
      Option.some_bind, identifier_walk_one, if_pos]
    rw [List.all_eq_true]
    intro x hx
    exact (List.mem_takeWhile_imp hx)
  have hstop : cs.dropWhile isIdentifierChar = [] ∨ ∃ d ds,
      cs.dropWhile isIdentifierChar = d :: ds ∧ (lx1.automaton .identifier).find 1 d = none := by
    cases hd : cs.dropWhile isIdentifierChar with
    | nil => exact Or.inl rfl
    | cons d ds =>
      refine Or.inr ⟨d, ds, rfl, ?_⟩
      show identifierAutomaton.find 1 d = none
      have hnd : ¬ isIdentifierChar d = true := by
        have := List.head_dropWhile_not isIdentifierChar cs (by rw [hd]; simp)
        simpa [hd] using this
      rw [identifier_find_one, if_neg hnd]
  have hget := getNextToken_of_walk (r := cs.dropWhile isIdentifierChar) hs
    (by rw [hr]; simp) (dispatch_identifier hstart hr) (by decide) hsplit hw hstop
    (by
      show 1 ∈ identifierAutomaton.acceptingStates
      rw [identifierAutomaton_shape.2]; decide)
  refine ⟨_, _, hget, ?_, htw.symm, ?_, rfl, rfl, fun hsync => skip_inSync hsync hs⟩
  · show determineTokenType (c :: cs.takeWhile isIdentifierChar) AutomatonId.identifier =
        TokenType.Keyword ∨
      determineTokenType (c :: cs.takeWhile isIdentifierChar) AutomatonId.identifier =
        TokenType.Identifier
    unfold determineTokenType
    dsimp only
    split_ifs
    · exact Or.inl rfl
    · exact Or.inr rfl
  · rw [hdw]; exact advance_rest hsplit

/-- The input ` int9_x+1` read by a fresh lexer: the token is the identifier
`int9_x` at line 1, column 2, and `+1` is left. -/
theorem identifier_maximal_munch_example :
    (∃ tok lx', (Lexer.new " int9_x+1".toList operatorTable.dedup).getNextToken =
        some (tok, lx') ∧
      (tok.type = TokenType.Keyword ∨ tok.type = TokenType.Identifier) ∧
      tok.lexeme = "int9_x+1".toList.takeWhile isIdentifierChar ∧
      lx'.rest = "int9_x+1".toList.dropWhile isIdentifierChar ∧
      tok.line = 1 ∧ tok.column = 2 ∧
      ((Lexer.new " int9_x+1".toList operatorTable.dedup).inSync →
        tok.line = lineAt " int9_x+1".toList 1 ∧ tok.column = columnAt " int9_x+1".toList 1)) ∧
    (∀ s : List Char,
      (∃ st, identifierAutomaton.walk identifierAutomaton.startState s = some st ∧
        st ∈ identifierAutomaton.acceptingStates) ↔ isIdentifier s = true) :=
  identifier_maximal_munch (Lexer.new " int9_x+1".toList operatorTable.dedup)
    ((Lexer.new " int9_x+1".toList operatorTable.dedup).traced.advance [' '])
    'i' "nt9_x+1".toList (by decide) (by decide) (Or.inl (by decide))

/-- C14 fails on the code in the reachable states that follow a rejected scan: the error path
of `runAutomaton` moves `currentPosition` back but leaves `line` and `column` where the
rejected scan ended, so the cursor no longer shows the true line and column. On the buffer
`1e x` (whatever the iteration order of the operator set) the first call rejects the scan of
`1e` and returns the identifier `e`; in the state it leaves, the skipping of trivia stops at
the letter `x` at offset 3, which is line 1, column 4 of the buffer, and the second call
returns the `Identifier` token `x`, the maximal run of `[A-Za-z0-9_]` there, with line 1 and
column 5. -/
theorem c14_identifier_position_after_rewind :
    (∀ order : List (List Char),
      ∃ tok1 lx1 s tok lx',
        (Lexer.new "1e x".toList order).getNextToken = some (tok1, lx1) ∧ Reachable lx1 ∧
        lx1.traced.skipWhitespaceAndComments = some s ∧ s.rest = ['x'] ∧
        s.currentPosition = 3 ∧
        lx1.getNextToken = some (tok, lx') ∧
        tok.type = TokenType.Identifier ∧
        tok.lexeme = s.rest.takeWhile isIdentifierChar ∧ tok.lexeme = ['x'] ∧
        tok.line = 1 ∧ tok.column = 5 ∧
        lx'.currentPosition - tok.lexeme.length = 3) ∧
    isalpha 'x' = true ∧
    lineAt "1e x".toList 3 = 1 ∧ columnAt "1e x".toList 3 = 4 :=
  ⟨fun order =>
    ⟨{ type := TokenType.Identifier, lexeme := ['e'], line := 1, column := 3 },
      ((Lexer.new "1e x".toList order).traced.rewound "1e".toList).traced.advance ['e'],
      (((Lexer.new "1e x".toList order).traced.rewound "1e".toList).traced.advance
        ['e']).traced.advance [' '],
      { type := TokenType.Identifier, lexeme := ['x'], line := 1, column := 5 },
      ((((Lexer.new "1e x".toList order).traced.rewound "1e".toList).traced.advance
        ['e']).traced.advance [' ']).advance ['x'],
      rfl, Reachable.call (Reachable.fresh "1e x".toList order) rfl,
      rfl, rfl, rfl, rfl, rfl, rfl, rfl, rfl, rfl, rfl⟩,
   by decide, by decide, by decide⟩

/-- C15: for every iteration order of the operator set, when the character `c` under the
cursor after the skipping of trivia is one of `; , ( ) { } [ ]`, `getNextToken` returns a
`Separator` token whose lexeme is the one-character string `c`, and the position has moved by
exactly 1. -/
theorem c15_single_char_separator (lx lx1 : Lexer) (c : Char) (cs : List Char)
    (ho : IterationOrder lx.operators)
    (hs : lx.traced.skipWhitespaceAndComments = some lx1) (hr : lx1.rest = c :: cs)
    (hc : c ∈ [';', ',', '(', ')', '\x7b', '\x7d', '[', ']']) :
    ∃ lx', lx.getNextToken = some ({ type := TokenType.Separator, lexeme := [c],
                                     line := lx1.line, column := lx1.column }, lx') ∧
      lx'.currentPosition = lx1.currentPosition + 1 ∧ lx'.rest = cs := by
  obtain ⟨w0, r0, -, hlx1, -⟩ := skip_eq_advance hs
  have ho1 : IterationOrder lx1.operators := by
    rw [hlx1]; simpa [Lexer.traced] using ho
  have h7 := (separator_chars c hc).2.2.2.2.2.2
  refine ⟨lx1.advance [c], ?_, by simp, advance_rest (w := [c]) (by simpa using hr)⟩
  exact getNextToken_of_walk (r := cs) hs (by rw [hr]; simp)
    (dispatch_separator_char ho1 hr hc) (by decide) (by simpa using hr)
    (by
      show separatorAutomaton.walk separatorAutomaton.startState [c] = some 1
      rw [separatorAutomaton_shape.1, walk_cons, separatorAutomaton_find, h7]; rfl)
    (by
      cases cs with
      | nil => exact Or.inl rfl
      | cons d ds =>
        refine Or.inr ⟨d, ds, rfl, ?_⟩
        show separatorAutomaton.find 1 d = none
        rw [separatorAutomaton_find]
        simp [separatorTable])
    (by
      show 1 ∈ separatorAutomaton.acceptingStates
      rw [separatorAutomaton_shape.2]; decide)

/-- C15, at the input ` \x7b\x7d` with the operators iterated in table order: the token is
the separator of the opening brace at line 1, column 2, and the position is 2. -/
theorem c15_single_char_separator_witness :
    ∃ lx', (Lexer.new " \x7b\x7d".toList operatorTable.dedup).getNextToken =
        some ({ type := TokenType.Separator, lexeme := ['\x7b'], line := 1,
                column := 2 }, lx') ∧
      lx'.currentPosition = 1 + 1 ∧ lx'.rest = ['\x7d'] :=
  c15_single_char_separator (Lexer.new " \x7b\x7d".toList operatorTable.dedup)
    ((Lexer.new " \x7b\x7d".toList operatorTable.dedup).traced.advance [' ']) '\x7b' ['\x7d']
    ⟨List.nodup_dedup _, fun _ => List.mem_dedup⟩ (by decide) (by decide) (by decide)

/-- C16: the number automaton has the accepting states 1, 3 and 6, and a string leads it
from the start state into an accepting state if and only if it is a complete numeral: digits
with an optional fraction, or a fraction with its leading dot, followed by an optional
exponent of `e` or `E`, an optional sign and digits. The strings `1.`, `1e`, `1e+` and `.`
end in the states 2, 4, 5 and 2, which are not accepting. -/
theorem c16_number_automaton_language :
    numberAutomaton.acceptingStates = [1, 3, 6] ∧
    (∀ s : List Char,
      (∃ st, numberAutomaton.walk numberAutomaton.startState s = some st ∧
        st ∈ numberAutomaton.acceptingStates) ↔ IsNumeral s) ∧
    (numberAutomaton.walk numberAutomaton.startState "1.".toList = some 2 ∧
      numberAutomaton.walk numberAutomaton.startState "1e".toList = some 4 ∧
      numberAutomaton.walk numberAutomaton.startState "1e+".toList = some 5 ∧
      numberAutomaton.walk numberAutomaton.startState ".".toList = some 2 ∧
      2 ∉ numberAutomaton.acceptingStates ∧ 4 ∉ numberAutomaton.acceptingStates ∧
      5 ∉ numberAutomaton.acceptingStates) ∧
    ¬ IsNumeral "1.".toList ∧ ¬ IsNumeral "1e".toList ∧ ¬ IsNumeral "1e+".toList ∧
      ¬ IsNumeral ".".toList := by
  have hw : numberAutomaton.walk numberAutomaton.startState "1.".toList = some 2 ∧
      numberAutomaton.walk numberAutomaton.startState "1e".toList = some 4 ∧
      numberAutomaton.walk numberAutomaton.startState "1e+".toList = some 5 ∧
      numberAutomaton.walk numberAutomaton.startState ".".toList = some 2 ∧
      2 ∉ numberAutomaton.acceptingStates ∧ 4 ∉ numberAutomaton.acceptingStates ∧
      5 ∉ numberAutomaton.acceptingStates := by
    rw [numberAutomaton_shape.1, numberAutomaton_shape.2]
    simp only [Automaton.walk, String.toList, numberAutomaton_find]
    decide
  have hno : ∀ (s : List Char) (k : Nat),
      numberAutomaton.walk numberAutomaton.startState s = some k →
      k ∉ numberAutomaton.acceptingStates → ¬ IsNumeral s := by
    intro s k h1 h2 h3
    obtain ⟨st, h4, h5⟩ := (numberAutomaton_accepts s).mpr h3
    rw [h1] at h4
    cases h4
    exact h2 h5
  exact ⟨numberAutomaton_shape.2, numberAutomaton_accepts, hw,
    hno _ 2 hw.1 hw.2.2.2.2.1, hno _ 4 hw.2.1 hw.2.2.2.2.2.1, hno _ 5 hw.2.2.1 hw.2.2.2.2.2.2,
    hno _ 2 hw.2.2.2.1 hw.2.2.2.2.1⟩

/-- C17: for every iteration order of the operator set, the operator automaton is a trie (no
two different strings lead from the start state to the same state) that accepts exactly the
operator table: following the transitions from the start state over all of `s` succeeds and
ends in an accepting state if and only if `s` is in the table. Two iteration orders give the
same accepted language. -/
theorem c17_operator_trie (order order' : List (List Char)) (ho : IterationOrder order)
    (ho' : IterationOrder order') (s : List Char) :
    ((∃ st, (operatorAutomaton order).walk (operatorAutomaton order).startState s = some st ∧
        st ∈ (operatorAutomaton order).acceptingStates) ↔ s ∈ operatorTable) ∧
    ((∃ st, (operatorAutomaton order).walk (operatorAutomaton order).startState s = some st ∧
        st ∈ (operatorAutomaton order).acceptingStates) ↔
      (∃ st, (operatorAutomaton order').walk (operatorAutomaton order').startState s = some st ∧
        st ∈ (operatorAutomaton order').acceptingStates)) ∧
    (∀ (u v : List Char) (st : Nat),
      (operatorAutomaton order).walk (operatorAutomaton order).startState u = some st →
      (operatorAutomaton order).walk (operatorAutomaton order).startState v = some st →
      u = v) := by
  refine ⟨?_, ?_, ?_⟩
  · rw [operatorAutomaton_language, ho.2]
  · rw [operatorAutomaton_language, operatorAutomaton_language, ho.2, ho'.2]
  · obtain ⟨next, inv⟩ := operatorAutomaton_trie order
    rw [operatorAutomaton_startState]
    exact inv.walk_inj

/-- C17, for the table order and its reverse, at the string `->*`. -/
theorem c17_operator_trie_witness :
    ((∃ st, (operatorAutomaton operatorTable.dedup).walk
          (operatorAutomaton operatorTable.dedup).startState "->*".toList = some st ∧
        st ∈ (operatorAutomaton operatorTable.dedup).acceptingStates) ↔
      "->*".toList ∈ operatorTable) ∧
    ((∃ st, (operatorAutomaton operatorTable.dedup).walk
          (operatorAutomaton operatorTable.dedup).startState "->*".toList = some st ∧
        st ∈ (operatorAutomaton operatorTable.dedup).acceptingStates) ↔
      (∃ st, (operatorAutomaton operatorTable.dedup.reverse).walk
          (operatorAutomaton operatorTable.dedup.reverse).startState "->*".toList = some st ∧
        st ∈ (operatorAutomaton operatorTable.dedup.reverse).acceptingStates)) ∧
    (∀ (u v : List Char) (st : Nat),
      (operatorAutomaton operatorTable.dedup).walk
        (operatorAutomaton operatorTable.dedup).startState u = some st →
      (operatorAutomaton operatorTable.dedup).walk
        (operatorAutomaton operatorTable.dedup).startState v = some st →
      u = v) :=
  c17_operator_trie operatorTable.dedup operatorTable.dedup.reverse
    ⟨List.nodup_dedup _, fun _ => List.mem_dedup⟩
    ⟨List.nodup_reverse.mpr (List.nodup_dedup _),
      fun _ => List.mem_reverse.trans List.mem_dedup⟩ "->*".toList

/-- C18 fails on the code for the separators `:` and `->`: `populateSeparatorTransitions`
first sends `:` from the start state to the accepting state 1 and then overwrites that entry
with the state 2 of the chain for `::`, and it first sends `>` from state 5 to state 1 and then
overwrites that entry with the state 6 of the chain for `->*`. The only accepting state is 1,
so the automaton run over `:` ends in state 2 and run over `->` ends in state 6, both not
accepting. The other eight single-character separators go from the start state directly to
state 1, and `::`, `...`, `.*` and `->*` are accepted. -/
theorem c18_separator_automaton_rejects :
    separatorAutomaton.acceptingStates = [1, 1] ∧
    separatorAutomaton.find separatorAutomaton.startState ':' = some 2 ∧
    separatorAutomaton.walk separatorAutomaton.startState ":".toList = some 2 ∧
    separatorAutomaton.walk separatorAutomaton.startState "->".toList = some 6 ∧
    2 ∉ separatorAutomaton.acceptingStates ∧ 6 ∉ separatorAutomaton.acceptingStates ∧
    (∀ c ∈ [';', ',', '(', ')', '\x7b', '\x7d', '[', ']'],
      separatorAutomaton.find separatorAutomaton.startState c = some 1) ∧
    (∀ s ∈ ["::", "...", ".*", "->*"].map String.toList,
      separatorAutomaton.walk separatorAutomaton.startState s = some 1) ∧
    1 ∈ separatorAutomaton.acceptingStates := by
  rw [separatorAutomaton_shape.1, separatorAutomaton_shape.2]
  simp only [Automaton.walk, String.toList, separatorAutomaton_find, List.map, List.mem_cons,
    List.mem_singleton, forall_eq_or_imp, forall_eq, List.not_mem_nil, false_imp_iff,
    implies_true, and_true]
  decide

/-- C19: when the scan that `getNextToken` dispatches at the offset `p` (the position after
the skipping of trivia) ends in a state that is not accepting, the error path writes one
diagnostic `Invalid token: ` with the partial lexeme, sets the position to exactly `p + 1` in
the same buffer, and the call returns what `getNextToken` returns from there; every session
that stands at offset `p + 1` of this buffer gets a token of the same kind and lexeme and
ends at the same offset. The character at offset `p` lies in front of the returned lexeme,
so it is part of no returned lexeme. -/
theorem c19_skip_and_retry (lx lx1 lx2 : Lexer) (id : AutomatonId) (st : State)
    (w : List Char) (hs : lx.traced.skipWhitespaceAndComments = some lx1)
    (hne : lx1.isEOF = false) (hd : lx1.dispatch = some id)
    (hsc : lx1.scan id = some (st, w, lx2)) (hacc : st ∉ (lx1.automaton id).acceptingStates) :
    lx2 = lx1.advance w ∧
    (lx1.rewound w).stderr = lx.stderr ++ [StderrLine.trace lx.sourceBuffer.length,
      StderrLine.error lx2.line lx2.column ("Invalid token: ".toList ++ w)] ∧
    (lx1.rewound w).currentPosition = lx1.currentPosition + 1 ∧
    (lx1.rewound w).sourceBuffer = lx.sourceBuffer ∧
    lx.getNextToken = (lx1.rewound w).getNextToken ∧
    ∃ tok lx', lx.getNextToken = some (tok, lx') ∧
      (∃ c gap, lx1.rest = c :: (gap ++ tok.lexeme ++ lx'.rest)) ∧
      ∀ lxp : Lexer, lxp.sourceBuffer = lx.sourceBuffer → lxp.operators = lx.operators →
        lxp.currentPosition = lx1.currentPosition + 1 →
        ∃ tokp lxp', lxp.getNextToken = some (tokp, lxp') ∧ tokp.type = tok.type ∧
          tokp.lexeme = tok.lexeme ∧ lxp'.currentPosition = lx'.currentPosition := by
  obtain ⟨w0, r0, -, hlx1, -⟩ := skip_eq_advance hs
  obtain ⟨st', w', r, h1, h2, h3, h4⟩ := scan_spec id lx1
  rw [hsc] at h1
  simp only [Option.some.injEq, Prod.mk.injEq] at h1
  obtain ⟨rfl, rfl, rfl⟩ := h1
  have hne' : lx1.rest ≠ [] := by
    intro h
    rw [(isEOF_iff_rest lx1).mpr h] at hne
    cases hne
  have hret : lx.getNextToken = (lx1.rewound w).getNextToken := by
    rw [getNextToken_of_skip hs, hne, hd]
    simp only [Bool.false_eq_true, if_false]
    rw [runAutomaton_of_scan hsc, if_neg hacc]
  obtain ⟨res, hres, hL⟩ := getNextToken_spec (lx1.rewound w)
  obtain ⟨gap, hgap⟩ := lexes_gap hL
  refine ⟨rfl, ?_, rfl, ?_, hret, res.1, res.2, by rw [hret, hres], ?_, ?_⟩
  · rw [hlx1]
    simp [Lexer.rewound, Lexer.reportError, Lexer.traced]
  · rw [hlx1]
    simp [Lexer.rewound, Lexer.reportError, Lexer.traced]
  · cases hr : lx1.rest with
    | nil => exact absurd hr hne'
    | cons c cs =>
      rw [rewound_rest w hr] at hgap
      exact ⟨c, gap, by rw [hgap]⟩
  · intro lxp hb ho hp
    have hsame : (lx1.rewound w).sameInput lxp := by
      refine ⟨?_, ?_, ?_⟩
      · rw [hb, hlx1]; simp [Lexer.rewound, Lexer.reportError, Lexer.traced]
      · rw [ho, hlx1]; simp [Lexer.rewound, Lexer.reportError, Lexer.traced]
      · rw [hp]; rfl
    obtain ⟨rb, hLb, e1, e2, e3⟩ := lexes_congr hL lxp hsame
    exact ⟨rb.1, rb.2, lexes_sound hLb, e1, e2, e3.2.2.symm⟩

/-- C19, at the buffer `1e`: the number scan at offset 0 consumes `1e` and ends in state 4,
which is not accepting; the call goes on at offset 1. -/
theorem c19_skip_and_retry_witness :
    (Lexer.new "1e".toList operatorTable.dedup).traced.advance "1e".toList =
      (Lexer.new "1e".toList operatorTable.dedup).traced.advance "1e".toList ∧
    ((Lexer.new "1e".toList operatorTable.dedup).traced.rewound "1e".toList).stderr =
      (Lexer.new "1e".toList operatorTable.dedup).stderr ++ [StderrLine.trace 2,
        StderrLine.error 1 3 ("Invalid token: ".toList ++ "1e".toList)] ∧
    ((Lexer.new "1e".toList operatorTable.dedup).traced.rewound "1e".toList).currentPosition =
      0 + 1 ∧
    ((Lexer.new "1e".toList operatorTable.dedup).traced.rewound "1e".toList).sourceBuffer =
      "1e".toList ∧
    (Lexer.new "1e".toList operatorTable.dedup).getNextToken =
      ((Lexer.new "1e".toList operatorTable.dedup).traced.rewound "1e".toList).getNextToken ∧
    ∃ tok lx', (Lexer.new "1e".toList operatorTable.dedup).getNextToken = some (tok, lx') ∧
      (∃ c gap, "1e".toList = c :: (gap ++ tok.lexeme ++ lx'.rest)) ∧
      ∀ lxp : Lexer, lxp.sourceBuffer = "1e".toList → lxp.operators = operatorTable.dedup →
        lxp.currentPosition = 0 + 1 →
        ∃ tokp lxp', lxp.getNextToken = some (tokp, lxp') ∧ tokp.type = tok.type ∧
          tokp.lexeme = tok.lexeme ∧ lxp'.currentPosition = lx'.currentPosition :=
  c19_skip_and_retry (Lexer.new "1e".toList operatorTable.dedup)
    (Lexer.new "1e".toList operatorTable.dedup).traced
    ((Lexer.new "1e".toList operatorTable.dedup).traced.advance "1e".toList)
    AutomatonId.number 4 "1e".toList (by decide) (by decide) (by decide) (by decide) (by decide)

/-- C20: when the unread input is whitespace, then `/*`, then a text without `*/`,
`getNextToken` consumes to the end of the buffer, writes nothing to the error stream but its
size trace, and returns an `EndOfFile` token at the final line and column. The text may begin
with `/`: the `/*/` does not close the comment it opens. -/
theorem c20_unterminated_block_comment (lx : Lexer) (ws t : List Char)
    (hws : ∀ c ∈ ws, isspace c = true) (hr : lx.rest = ws ++ '/' :: '*' :: t)
    (ht : ¬ ['*', '/'] <:+: t) :
    ∃ lx', lx.getNextToken = some ({ type := TokenType.EndOfFile, lexeme := [],
                                     line := lx'.line, column := lx'.column }, lx') ∧
      lx'.rest = [] ∧ lx'.currentPosition = lx.sourceBuffer.length ∧
      lx'.stderr = lx.stderr ++ [StderrLine.trace lx.sourceBuffer.length] := by
  have hs : lx.traced.skipWhitespaceAndComments =
      some (lx.traced.advance (ws ++ '/' :: '*' :: t)) := by
    unfold Lexer.skipWhitespaceAndComments
    exact skipLoop_open ws t _ lx.traced hws hr ht (by
      rw [remaining_eq_rest, traced_rest, hr]; simp)
  have hnil : (lx.traced.advance (ws ++ '/' :: '*' :: t)).rest = [] :=
    advance_rest (r := []) (by simpa using hr)
  refine ⟨lx.traced.advance (ws ++ '/' :: '*' :: t), ?_, hnil, ?_, ?_⟩
  · rw [getNextToken_of_skip hs, if_pos ((isEOF_iff_rest _).mpr hnil)]
    rfl
  · have h1 := congrArg List.length hr
    unfold Lexer.rest at h1
    rw [List.length_drop] at h1
    have h2 : 0 < (ws ++ '/' :: '*' :: t).length := by simp
    rw [advance_currentPosition]
    show lx.currentPosition + _ = _
    omega
  · simp [Lexer.traced]

/-- C20, at the input ` /*/ x`: the comment opened by `/*` is not closed by the `/` that
follows, and the call returns `EndOfFile` at the end of the buffer. -/
theorem c20_unterminated_block_comment_witness :
    ∃ lx', (Lexer.new " /*/ x".toList operatorTable.dedup).getNextToken =
        some ({ type := TokenType.EndOfFile, lexeme := [],
                line := lx'.line, column := lx'.column }, lx') ∧
      lx'.rest = [] ∧ lx'.currentPosition = " /*/ x".toList.length ∧
      lx'.stderr = [] ++ [StderrLine.trace " /*/ x".toList.length] :=
  c20_unterminated_block_comment (Lexer.new " /*/ x".toList operatorTable.dedup)
    [' '] "/ x".toList (by decide) (by decide) (by decide)

/-- C21: in every reachable session state (a fresh lexer, or the state left by a call of
`getNextToken`) the position is at most the buffer length; the next call of `getNextToken`
returns, keeps the buffer, leaves the position at most the buffer length, and when the token
it returns is not `EndOfFile` the position after the call is strictly greater than at entry,
also when the error path moved the cursor back inside the call. -/
theorem c21_cursor_progress_and_bound (lx : Lexer) (hreach : Reachable lx) :
    lx.currentPosition ≤ lx.sourceBuffer.length ∧
    ∃ tok lx', lx.getNextToken = some (tok, lx') ∧
      (tok.type ≠ TokenType.EndOfFile → lx.currentPosition < lx'.currentPosition) ∧
      lx'.sourceBuffer = lx.sourceBuffer ∧
      lx'.currentPosition ≤ lx'.sourceBuffer.length := by
  have hb := reachable_bound hreach
  obtain ⟨res, h1, h2⟩ := getNextToken_spec lx
  exact ⟨hb, res.1, res.2, h1, lexes_advances h2, (lexes_progress h2).1, lexes_bound h2 hb⟩

/-- C21, at the fresh lexer over `1e`, where the first call rejects the scan of `1e`, moves
the cursor back to offset 1 and returns the identifier `e`. -/
theorem c21_cursor_progress_and_bound_witness :
    (Lexer.new "1e".toList operatorTable.dedup).currentPosition ≤
      (Lexer.new "1e".toList operatorTable.dedup).sourceBuffer.length ∧
    ∃ tok lx', (Lexer.new "1e".toList operatorTable.dedup).getNextToken = some (tok, lx') ∧
      (tok.type ≠ TokenType.EndOfFile →
        (Lexer.new "1e".toList operatorTable.dedup).currentPosition < lx'.currentPosition) ∧
      lx'.sourceBuffer = (Lexer.new "1e".toList operatorTable.dedup).sourceBuffer ∧
      lx'.currentPosition ≤ lx'.sourceBuffer.length :=
  c21_cursor_progress_and_bound (Lexer.new "1e".toList operatorTable.dedup)
    (Reachable.fresh "1e".toList operatorTable.dedup)

/-- C22: the operator table is closed under non-empty prefixes, so for every iteration order
of the operator set every state of the operator automaton that a transition leads to is
accepting (and is not the start state, which is not accepting). Hence a scan of the operator
automaton that `getNextToken` dispatches ends in an accepting state: its lexeme is an
operator of the table and the call returns it as an `Operator` token without entering the
error path of `runAutomaton`. -/
theorem c22_operator_scan_never_rejects (lx lx1 lx2 : Lexer) (st : State) (w : List Char)
    (ho : IterationOrder lx.operators)
    (hs : lx.traced.skipWhitespaceAndComments = some lx1)
    (hd : lx1.dispatch = some .operator)
    (hsc : lx1.scan .operator = some (st, w, lx2)) :
    (∀ op ∈ operatorTable, ∀ p : List Char, p <+: op → p ≠ [] → p ∈ operatorTable) ∧
    (∀ (s : Nat) (c : Char) (t : Nat),
      (operatorAutomaton lx.operators).find s c = some t →
      t ∈ (operatorAutomaton lx.operators).acceptingStates ∧
        t ≠ (operatorAutomaton lx.operators).startState) ∧
    (operatorAutomaton lx.operators).startState ∉
      (operatorAutomaton lx.operators).acceptingStates ∧
    st ∈ (lx1.automaton .operator).acceptingStates ∧ w ∈ operatorTable ∧
    lx.getNextToken = some ({ type := TokenType.Operator, lexeme := w, line := lx1.line,
                              column := lx1.column }, lx2) := by
  obtain ⟨w0, r0, -, hlx1, -⟩ := skip_eq_advance hs
  have ho1 : IterationOrder lx1.operators := by
    rw [hlx1]; simpa [Lexer.traced] using ho
  have hstart := isOperatorStart_table ho1 (dispatch_operator hd)
  obtain ⟨c, cs, hr, hc⟩ : ∃ c cs, lx1.rest = c :: cs ∧ lx1.peekChar 0 = c := by
    cases hr : lx1.rest with
    | nil =>
      exfalso
      have hpk : lx1.peekChar 0 = '\x00' := by rw [peekChar_eq, hr]; rfl
      rw [hpk] at hstart
      revert hstart
      decide
    | cons c cs => exact ⟨c, cs, rfl, by rw [peekChar_eq, hr]; rfl⟩
  rw [hc] at hstart
  obtain ⟨st', w', r, h1, h2, h3, h4, -⟩ := operator_scan ho1 hr ⟨[c], hstart, rfl⟩
  rw [hsc] at h1
  simp only [Option.some.injEq, Prod.mk.injEq] at h1
  obtain ⟨rfl, rfl, rfl⟩ := h1
  have heof : ¬ lx1.isEOF = true := fun h => by
    rw [(isEOF_iff_rest _).mp h] at hr; cases hr
  refine ⟨?_, ?_, ?_, h3, h4, ?_⟩
  · intro op hop p hp hne
    exact operatorTable_prefix_closed op hop p ((List.mem_inits _ _).mpr hp) hne
  · intro s c' t hf
    obtain ⟨next, inv⟩ := operatorAutomaton_trie lx.operators
    refine ⟨operatorAutomaton_targets ho s c' t hf, ?_⟩
    rw [operatorAutomaton_startState]
    exact Nat.ne_of_gt (Nat.lt_of_le_of_lt (Nat.zero_le s) (inv.edge s c' t hf).1)
  · rw [operatorAutomaton_startState]
    intro h0
    have hnil := (operatorAutomaton_accepts lx.operators [] 0 rfl).mp h0
    exact operatorTable_nonempty [] ((ho.2 _).mp hnil) rfl
  · rw [getNextToken_of_skip hs, if_neg heof, hd]
    simp only
    rw [runAutomaton_of_scan hsc, if_pos h3]
    rfl

/-- C22, at the input ` ->* x` with the operators iterated in table order: the operator scan
ends in the accepting state 41 with the lexeme `->*`. -/
theorem c22_operator_scan_never_rejects_witness :
    (∀ op ∈ operatorTable, ∀ p : List Char, p <+: op → p ≠ [] → p ∈ operatorTable) ∧
    (∀ (s : Nat) (c : Char) (t : Nat),
      (operatorAutomaton operatorTable.dedup).find s c = some t →
      t ∈ (operatorAutomaton operatorTable.dedup).acceptingStates ∧
        t ≠ (operatorAutomaton operatorTable.dedup).startState) ∧
    (operatorAutomaton operatorTable.dedup).startState ∉
      (operatorAutomaton operatorTable.dedup).acceptingStates ∧
    41 ∈ (operatorAutomaton operatorTable.dedup).acceptingStates ∧
    "->*".toList ∈ operatorTable ∧
    (Lexer.new " ->* x".toList operatorTable.dedup).getNextToken =
      some ({ type := TokenType.Operator, lexeme := "->*".toList, line := 1, column := 2 },
        ((Lexer.new " ->* x".toList operatorTable.dedup).traced.advance [' ']).advance
          "->*".toList) :=
  c22_operator_scan_never_rejects (Lexer.new " ->* x".toList operatorTable.dedup)
    ((Lexer.new " ->* x".toList operatorTable.dedup).traced.advance [' '])
    (((Lexer.new " ->* x".toList operatorTable.dedup).traced.advance [' ']).advance "->*".toList)
    41 "->*".toList ⟨List.nodup_dedup _, fun _ => List.mem_dedup⟩ (by decide) (by decide)
    (by decide)

/-- C23: for every iteration order of the operator set, every `Separator` token that
`getNextToken` returns has one of the lexemes `;`, `,`, `(`, `)`, `{`, `}`, `[`, `]` and
`...`; and when the input left after the skipping of trivia begins with `:`, `->`, `.*`, `->*`
or `::`, the call returns an `Operator` token whose lexeme begins with that string, because
the operator automaton is tried before the separator automaton. -/
theorem c23_separator_lexemes (lx : Lexer) (ho : IterationOrder lx.operators) :
    (∃ tok lx', lx.getNextToken = some (tok, lx') ∧
      (tok.type = TokenType.Separator → tok.lexeme ∈ separatorLexemes)) ∧
    (∀ (lx1 : Lexer) (op r : List Char), lx.traced.skipWhitespaceAndComments = some lx1 →
      op ∈ [":", "->", ".*", "->*", "::"].map String.toList → lx1.rest = op ++ r →
      ∃ tok lx', lx.getNextToken = some (tok, lx') ∧ tok.type = TokenType.Operator ∧
        op <+: tok.lexeme ∧ tok.lexeme ∈ operatorTable) := by
  constructor
  · obtain ⟨res, h1, h2⟩ := getNextToken_spec lx
    exact ⟨res.1, res.2, h1, lexes_separator h2 ho⟩
  · intro lx1 op r hs hop hr
    exact operator_over_separator ho hs hop hr

/-- C23, at the input `->;` with the operators iterated in table order. -/
theorem c23_separator_lexemes_witness :
    (∃ tok lx', (Lexer.new "->;".toList operatorTable.dedup).getNextToken = some (tok, lx') ∧
      (tok.type = TokenType.Separator → tok.lexeme ∈ separatorLexemes)) ∧
    (∀ (lx1 : Lexer) (op r : List Char),
      (Lexer.new "->;".toList operatorTable.dedup).traced.skipWhitespaceAndComments = some lx1 →
      op ∈ [":", "->", ".*", "->*", "::"].map String.toList → lx1.rest = op ++ r →
      ∃ tok lx', (Lexer.new "->;".toList operatorTable.dedup).getNextToken = some (tok, lx') ∧
        tok.type = TokenType.Operator ∧ op <+: tok.lexeme ∧ tok.lexeme ∈ operatorTable) :=
  c23_separator_lexemes (Lexer.new "->;".toList operatorTable.dedup)
    ⟨List.nodup_dedup _, fun _ => List.mem_dedup⟩

/-- C24: every call of `getNextToken` returns a token whose lexeme is the contiguous piece
of the buffer, of the length of the lexeme, that ends at the position of the cursor after
the call; and the lexeme is empty if and only if the token is `EndOfFile`. -/
theorem c24_lexeme_is_buffer_slice (lx : Lexer) :
    ∃ tok lx', lx.getNextToken = some (tok, lx') ∧
      lx'.sourceBuffer = lx.sourceBuffer ∧
      tok.lexeme.length ≤ lx'.currentPosition ∧
      (lx.sourceBuffer.drop (lx'.currentPosition - tok.lexeme.length)).take
        tok.lexeme.length = tok.lexeme ∧
      (tok.lexeme = [] ↔ tok.type = TokenType.EndOfFile) := by
  obtain ⟨res, h1, h2⟩ := getNextToken_spec lx
  have hb := (lexes_progress h2).1
  have hs := lexes_slice h2
  rw [hb] at hs
  exact ⟨res.1, res.2, h1, hb, hs.1, hs.2, lexes_empty_iff h2⟩

/-- C25: every call of `getNextToken` returns a token whose kind is one of `Identifier`,
`Keyword`, `Literal`, `Operator`, `Separator`, `Unknown` and `EndOfFile`, never `Comment` or
`PreprocessorDirective`; and for an iteration order of the operator set, when the character
under the cursor after the skipping of trivia is `#`, the call returns an `Unknown` token
with the lexeme `#` and consumes that character only. -/
theorem c25_token_kinds (lx : Lexer) :
    (∃ tok lx', lx.getNextToken = some (tok, lx') ∧
      tok.type ∈ [TokenType.Identifier, TokenType.Keyword, TokenType.Literal,
        TokenType.Operator, TokenType.Separator, TokenType.Unknown, TokenType.EndOfFile] ∧
      tok.type ≠ TokenType.Comment ∧ tok.type ≠ TokenType.PreprocessorDirective) ∧
    (∀ (lx1 : Lexer) (cs : List Char), IterationOrder lx.operators →
      lx.traced.skipWhitespaceAndComments = some lx1 → lx1.rest = '#' :: cs →
      ∃ lx', lx.getNextToken = some ({ type := TokenType.Unknown, lexeme := ['#'],
                                       line := lx1.line, column := lx1.column }, lx') ∧
        lx'.rest = cs) := by
  constructor
  · obtain ⟨res, h1, h2⟩ := getNextToken_spec lx
    have hk := lexes_kind h2
    refine ⟨res.1, res.2, h1, hk, ?_, ?_⟩
    · intro h; rw [h] at hk; revert hk; decide
    · intro h; rw [h] at hk; revert hk; decide
  · intro lx1 cs ho hs hr
    obtain ⟨w0, r0, -, hlx1, -⟩ := skip_eq_advance hs
    have ho1 : IterationOrder lx1.operators := by
      rw [hlx1]; simpa [Lexer.traced] using ho
    have hpk : lx1.peekChar 0 = '#' := by rw [peekChar_eq, hr]; rfl
    have heof : ¬ lx1.isEOF = true := fun h => by
      rw [(isEOF_iff_rest _).mp h] at hr; cases hr
    refine ⟨lx1.unknownToken.2, ?_, ?_⟩
    · rw [getNextToken_of_skip hs, if_neg heof, dispatch_hash ho1 hr]
      simp only [Lexer.unknownToken, hpk]
    · simp only [Lexer.unknownToken, hpk]
      exact advance_rest (w := ['#']) (by simpa using hr)

/-- C25, at the input ` #x` with the operators iterated in table order: the character `#`
comes back as an `Unknown` token at line 1, column 2. -/
theorem c25_token_kinds_witness :
    ∃ lx', (Lexer.new " #x".toList operatorTable.dedup).getNextToken =
        some ({ type := TokenType.Unknown, lexeme := ['#'], line := 1, column := 2 }, lx') ∧
      lx'.rest = ['x'] :=
  (c25_token_kinds (Lexer.new " #x".toList operatorTable.dedup)).2
    ((Lexer.new " #x".toList operatorTable.dedup).traced.advance [' ']) ['x']
    ⟨List.nodup_dedup _, fun _ => List.mem_dedup⟩ (by decide) (by decide)

end CPPCompiler
